import Mathlib

/-!
# zinc: router, handler chains and request dispatch

A shallow embedding of the Go package `zinc` (`router.go`, `context.go`,
`response.go`, `zinc.go`, `group.go`) and theorems about route registration,
lookup, chain execution, dispatch, the pooled Context and route groups.

Conventions of the embedding

* A Go `string` is a `List Char` (`Str`).  The code only inspects the ASCII
  bytes `/`, `:` and `*`, which never occur inside a multi-byte UTF-8
  sequence, so bytes and characters agree on every valid UTF-8 string.
* A Go `map[string]V` is a function `Str → Option V`; a nil map reads like an
  empty one.  Where the code distinguishes a nil map (the parameter map that
  `Find` returns) the embedding uses `Option (GoMap V)`.
* Pointers into the trie are replaced by values: `Add` rebuilds the path it
  descends, which is what the in-place mutation amounts to because every node
  has one parent.
* A handler is a Go closure.  Closures are stored in the trie and in the
  Context, so they are represented by data: a `Handler` is a label and the
  sequence of calls its body makes on the Context in one run (`Next`, `Status`,
  `Send`, `JSON`, `HTML`, `Static`, `Set`, `Service`).  A body that branches
  makes one such sequence per run, so a statement about all handlers covers
  every run.  The closure returned by `chain(hs)` is represented by the
  captured slice `hs`, and `chain` is that closure applied to a Context.
* The recursion of `Next` through handler bodies is bounded by a budget, one
  unit per handler entered; `Context.Next_ends` and `App.ServeHTTP_ends` show
  that a budget of the number of installed handlers is always enough.
* Next to the Context the embedding keeps a record of the handler calls made
  so far (`Run.invoked`), which the Go code does not have.
* A panic is an explicit outcome (`none` for `Find`, `Except.error` for `Add`
  and for the response helpers, `Outcome.panic` for handler execution).
* The response sink is the list of calls made on the `http.ResponseWriter`;
  `Sink.status` and `Sink.body` read it as `httptest.ResponseRecorder` does,
  and `Sink.WriteHeader` panics on a code outside 100..999 while the header is
  not sent, as the writers of the standard library do.
* `Route.parts` holds the tokens of the path at registration.  In the code the
  field aliases the pooled buffer of the tokenizer, which later calls reuse; no
  code reads the field, and no result of `Find` depends on it.
* A `Group` points to its app; the registration methods of a group take the
  app as it is at the moment of the call as an argument and return the app
  after the registration.
* The slice that `getPathParts` takes from `pathPartsCache` is truncated before
  use; `getPathPartsIn` keeps it as an argument, `getPathParts` leaves it out.
  Execution is sequential: one call at a time uses a pooled buffer or Context.
-/

namespace Zinc

/-! ## Strings and maps -/

/-- A Go string. -/
abbrev Str := List Char

/-- A Go `map[string]V`. -/
abbrev GoMap (V : Type) := Str → Option V

/-- The empty map (`make(map[string]V)`, or a nil map that is only read). -/
def GoMap.empty {V : Type} : GoMap V := fun _ => none

/-- The assignment `m[k] = v`. -/
def GoMap.set {V : Type} (m : GoMap V) (k : Str) (v : V) : GoMap V :=
  fun k' => if k' = k then some v else m k'

/-- The Go slice expression `s[lo:hi]`. -/
def slice (s : Str) (lo hi : Nat) : Str := (s.take hi).drop lo

/-- Go's `strings.Join(elems, sep)`. -/
def stringsJoin : List Str → Str → Str
  | [], _ => []
  | [a], _ => a
  | a :: b :: rest, sep => a ++ sep ++ stringsJoin (b :: rest) sep

/-- Go's `strings.Trim(s, "/")`: strip leading and trailing slashes. -/
def stringsTrimSlash (s : Str) : Str :=
  ((s.dropWhile (· = '/')).reverse.dropWhile (· = '/')).reverse

/-! ## Handlers as data -/

/-- A Go value passed to `Send`/`JSON`: the dynamic type that `Send` switches
on, and what `encoding/json` writes for it (`none` when encoding fails). -/
inductive Shape where
  | str (v : Str)
  | bytes (v : Str)
  | null
  | other
  deriving DecidableEq, Repr

/-- A value together with its JSON encoding. -/
structure Value where
  shape : Shape
  json : Option Str
  deriving DecidableEq, Repr

/-- One call a handler body makes on its Context. -/
inductive Op where
  | next
  | status (code : Int)
  | send (data : Value)
  | json (data : Value)
  | html (data : Str)
  | static (filepath : Str)
  | set (key : Str) (value : Str)
  | service (name : Str)
  deriving DecidableEq, Repr

/-- A `func(c *Context)`: a label and the Context calls of its body, in order. -/
structure Handler where
  tag : Nat
  body : List Op
  deriving DecidableEq, Repr

/-- A handler argument of `Add` (`interface{}`), by dynamic type. -/
inductive HandlerArg where
  | str (v : Str)
  | routeHandler (h : Handler)
  | func (h : Handler)
  | middleware (h : Handler)
  | other
  deriving DecidableEq, Repr

/-! ## Router data -/

/-- The struct `RouteNode`.  `handler` holds the slice captured by the chain
closure, `none` for a nil handler. -/
inductive RouteNode where
  | mk (path : Str) (part : Str) (children : List RouteNode)
      (handler : Option (List Handler)) (isParam : Bool) (isWild : Bool)

namespace RouteNode

def path : RouteNode → Str
  | mk p _ _ _ _ _ => p

def part : RouteNode → Str
  | mk _ p _ _ _ _ => p

def children : RouteNode → List RouteNode
  | mk _ _ cs _ _ _ => cs

def handler : RouteNode → Option (List Handler)
  | mk _ _ _ h _ _ => h

def isParam : RouteNode → Bool
  | mk _ _ _ _ b _ => b

def isWild : RouteNode → Bool
  | mk _ _ _ _ _ b => b

/-- The composite literal `&RouteNode{}`. -/
def zero : RouteNode := mk [] [] [] none false false

/-- The node with its `children` field replaced. -/
def withChildren (n : RouteNode) (cs : List RouteNode) : RouteNode :=
  mk n.path n.part cs n.handler n.isParam n.isWild

/-- The assignments `child.handler = mainHandler; child.path = path`. -/
def setTerminal (n : RouteNode) (h : Option (List Handler)) (p : Str) : RouteNode :=
  mk p n.part n.children h n.isParam n.isWild

end RouteNode

/-- The struct `Route`. -/
structure Route where
  path : Str
  handler : Option (List Handler)
  method : Str
  parts : List Str

/-- The struct `Router`: `routes` is method -> path -> route, `router` the
trie root (nil before the first `Add`). -/
structure Router where
  routes : GoMap (GoMap Route)
  router : Option RouteNode
  middleware : List Handler

/-- The zero value `&Router{}` that `New` installs. -/
def Router.zero : Router := ⟨GoMap.empty, none, []⟩

/-! ## Path tokenizer -/

/-- The `for i := start; i < len(path); i++` loop of `getPathParts`.  The
second argument is `path[i:]`, so its head is `path[i]`. -/
def getPathPartsLoop (path : Str) : List Char → Nat → Nat → List Str → Nat × List Str
  | [], _, start, parts => (start, parts)
  | ch :: rest, i, start, parts =>
    if ch = '/' then
      getPathPartsLoop path rest (i + 1) (i + 1)
        (if i > start then parts ++ [slice path start i] else parts)
    else
      getPathPartsLoop path rest (i + 1) start parts

/-- The function `getPathParts`.  The pooled buffer is truncated to length 0
before use, so the result is a function of `path` alone. -/
def getPathParts (path : Str) : List Str :=
  if path = [] ∨ path = ['/'] then []
  else
    let start := if path.head? = some '/' then 1 else 0
    let (start, parts) := getPathPartsLoop path (path.drop start) start start []
    if start < path.length then parts ++ [slice path start path.length] else parts

/-! ## Registration -/

/-- The method `Router.normalizePath`. -/
def normalizePath (path : Str) : Str :=
  if path = [] then ['/']
  else if path.head? ≠ some '/' then '/' :: path
  else path

/-- The function `convertToRouteHandler`; `none` is the panic of the default
case.  A string becomes the closure `func(c) { c.Send(v) }`. -/
def convertToRouteHandler : HandlerArg → Option Handler
  | .str v => some ⟨0, [Op.send ⟨Shape.str v, none⟩]⟩
  | .routeHandler h => some h
  | .func h => some h
  | .middleware h => some h
  | .other => none

/-- The conversion loop of `Add`: `none` as soon as one argument panics. -/
def convertAll : List HandlerArg → Option (List Handler)
  | [] => some []
  | a :: rest =>
    match convertToRouteHandler a with
    | none => none
    | some h =>
      match convertAll rest with
      | none => none
      | some hs => some (h :: hs)

/-- The method `Router.middlewareToHandlers` (a type conversion per entry). -/
def Router.middlewareToHandlers (r : Router) : List Handler := r.middleware

/-- The segment classification at the top of the loop of `Add`: the text kept
as `part`, `isParam` and `isWild`. -/
def classify (part : Str) : Str × Bool × Bool :=
  match part with
  | ':' :: rest => (rest, true, false)
  | '*' :: _ => (['*'], false, true)
  | _ => (part, false, false)

/-- The triple that `findChild` compares. -/
def RouteNode.triple (n : RouteNode) : Str × Bool × Bool := (n.part, n.isParam, n.isWild)

/-- The method `RouteNode.findChild`: the first child with the given triple. -/
def RouteNode.findChild (n : RouteNode) (part : Str) (isParam isWild : Bool) :
    Option RouteNode :=
  n.children.find? (fun child =>
    decide (child.part = part ∧ child.isParam = isParam ∧ child.isWild = isWild))

/-- The effect, on the slice of children, of mutating through the pointer that
`findChild` returned: the first child with the triple is replaced by `f` of it. -/
def replaceFirst (part : Str) (isParam isWild : Bool) (f : RouteNode → RouteNode) :
    List RouteNode → List RouteNode
  | [] => []
  | child :: cs =>
    if child.part = part ∧ child.isParam = isParam ∧ child.isWild = isWild then f child :: cs
    else child :: replaceFirst part isParam isWild f cs

/-- The loop `for i, part := range parts` of `Add`, started at `current`; the
list is `parts[i:]`, so `i == len(parts)-1` is `rest = []`. -/
def addLoop (path : Str) (mainHandler : Option (List Handler)) :
    List Str → RouteNode → RouteNode
  | [], current => current
  | part :: rest, current =>
    let t := classify part
    let visit : RouteNode → RouteNode := fun child =>
      addLoop path mainHandler rest
        (if rest = [] then child.setTerminal mainHandler path else child)
    match current.findChild t.1 t.2.1 t.2.2 with
    | none =>
      current.withChildren
        (current.children ++ [visit (RouteNode.mk [] t.1 [] none t.2.1 t.2.2)])
    | some _ =>
      current.withChildren (replaceFirst t.1 t.2.1 t.2.2 visit current.children)

/-- The method `Router.Add`.  `Except.error r` is a panic that leaves the
router as `r` (the maps are initialised before the handlers are converted). -/
def Router.Add (r : Router) (method path : Str) (handlers : List HandlerArg) :
    Except Router Router :=
  let routes0 : GoMap (GoMap Route) :=
    match r.routes method with
    | none => r.routes.set method GoMap.empty
    | some _ => r.routes
  match convertAll handlers with
  | none => Except.error { r with routes := routes0 }
  | some converted =>
    let routeHandlers := r.middlewareToHandlers ++ converted
    let mainHandler : Option (List Handler) :=
      if routeHandlers.length > 0 then some routeHandlers else none
    let path := normalizePath path
    let parts := getPathParts path
    let inner : GoMap Route := (routes0 method).getD GoMap.empty
    let routes1 := routes0.set method (inner.set path ⟨path, mainHandler, method, parts⟩)
    let current := r.router.getD RouteNode.zero
    Except.ok
      { routes := routes1
        router := some (addLoop path mainHandler parts current)
        middleware := r.middleware }

/-- The method `Router.Use`. -/
def Router.Use (r : Router) (middleware : List Handler) : Router :=
  { r with middleware := r.middleware ++ middleware }

/-! ## Lookup -/

/-- The loop `for _, child := range n.children` of `RouteNode.find`; `descend`
is the recursive call `child.find(parts, params)`.  The map is threaded
through because the code writes to it before it knows whether the branch
matches. -/
def findLoop (descend : RouteNode → GoMap Str → Option RouteNode × GoMap Str)
    (part : Str) (parts : List Str) :
    List RouteNode → GoMap Str → Option RouteNode × GoMap Str
  | [], params => (none, params)
  | child :: cs, params =>
    if child.isWild then
      (some child, params.set ['*'] (stringsJoin (part :: parts) ['/']))
    else if child.isParam then
      match descend child (params.set child.part part) with
      | (some m, ps) => (some m, ps)
      | (none, ps) => findLoop descend part parts cs ps
    else if child.part = part then
      match descend child params with
      | (some m, ps) => (some m, ps)
      | (none, ps) => findLoop descend part parts cs ps
    else findLoop descend part parts cs params

/-- The method `RouteNode.find` on a non-nil receiver: the node found (or nil)
and the parameter map as the call leaves it. -/
def RouteNode.find : List Str → RouteNode → GoMap Str → Option RouteNode × GoMap Str
  | [], n, params => (some n, params)
  | part :: parts, n, params =>
    findLoop (fun child ps => RouteNode.find parts child ps) part parts n.children params

/-- The method `Router.Find`.  The result `none` is the nil-pointer panic of
`r.router.find` on a nil root with a non-empty path; otherwise the pair is the
handler (the chain's slice, `none` for nil) and the parameter map (`none` for
nil). -/
def Router.Find (r : Router) (method path : Str) :
    Option (Option (List Handler) × Option (GoMap Str)) :=
  let direct : Option Route :=
    match r.routes method with
    | some methodRoutes => methodRoutes path
    | none => none
  match direct with
  | some route => some (route.handler, none)
  | none =>
    let parts := getPathParts path
    let params : GoMap Str := GoMap.empty
    let found : Option (Option RouteNode × GoMap Str) :=
      match r.router with
      | some root => some (root.find parts params)
      | none => if parts = [] then some (none, params) else none
    match found with
    | none => none
    | some (node, params) =>
      match node with
      | some node =>
        if node.handler ≠ none then
          match (r.routes method).bind (fun inner => inner node.path) with
          | some matchedRoute => some (matchedRoute.handler, some params)
          | none => some (none, none)
        else some (none, none)
      | none => some (none, none)

/-! ## The response sink and the request -/

/-- A call made on the `http.ResponseWriter`.  `serveFile` stands for the
whole of `http.ServeFile`, whose output depends on the file system. -/
inductive SinkEvent where
  | setHeader (key value : Str)
  | writeHeader (code : Int)
  | write (body : Str)
  | serveFile (filepath : Str)
  deriving DecidableEq, Repr

/-- The response sink: the calls it has received, oldest first. -/
abbrev Sink := List SinkEvent

/-- The status a recorder reports: the first `WriteHeader` wins, a `Write`
before any `WriteHeader` implies 200, and 200 is the default. -/
def Sink.status : Sink → Int
  | [] => 200
  | SinkEvent.writeHeader code :: _ => code
  | SinkEvent.write _ :: _ => 200
  | _ :: rest => Sink.status rest

/-- Whether the response writer has sent its header: `WriteHeader`, `Write` or
`http.ServeFile` has been called on it. -/
def Sink.wroteHeader : Sink → Bool
  | [] => false
  | SinkEvent.setHeader _ _ :: rest => Sink.wroteHeader rest
  | _ :: _ => true

/-- The call `w.WriteHeader(code)` on a response writer of the standard library
(`net/http`, `httptest.ResponseRecorder`): once the header is sent the call
changes nothing; before that, `checkWriteHeaderCode` panics (`none`) on a code
outside 100..999. -/
def Sink.WriteHeader (w : Sink) (code : Int) : Option Sink :=
  if w.wroteHeader = true ∨ (100 ≤ code ∧ code ≤ 999) then
    some (w ++ [SinkEvent.writeHeader code])
  else none

/-- The body a recorder reports: everything passed to `Write`, in order. -/
def Sink.body : Sink → Str
  | [] => []
  | SinkEvent.write b :: rest => b ++ Sink.body rest
  | _ :: rest => Sink.body rest

/-- The part of `*http.Request` the package reads: `r.Method`, `r.URL.Path`
and `r.URL.Query()`. -/
structure Request where
  Method : Str
  Path : Str
  Query : List (Str × List Str)
  deriving DecidableEq, Repr

/-! ## Context -/

/-- The struct `Context`.  `Response` and `Request` are nil (`none`) while the
Context sits in the pool; store and service values are kept opaque as `Str`. -/
structure Context where
  Response : Option Sink
  Request : Option Zinc.Request
  PathParams : Option (GoMap Str)
  QueryParams : Option (List (Str × List Str))
  Method : Str
  written : Bool
  handlers : List Handler
  index : Int
  Store : GoMap Str
  status : Int
  services : GoMap Str

/-- The Context built by `contextPool.New`. -/
def Context.poolNew : Context :=
  { Response := none, Request := none, PathParams := some GoMap.empty, QueryParams := none,
    Method := [], written := false, handlers := [], index := 0, Store := GoMap.empty,
    status := 0, services := GoMap.empty }

/-- The method `Context.reset`. -/
def Context.reset (c : Context) (w : Sink) (r : Zinc.Request) : Context :=
  { c with
    Response := some w
    Request := some r
    QueryParams := some r.Query
    Method := r.Method
    written := false
    index := -1
    status := 200
    PathParams := c.PathParams.map (fun _ => GoMap.empty)
    Store := GoMap.empty }

/-- The function `NewContext`; `pooled` is what `contextPool.Get` returned. -/
def NewContext (pooled : Context) (w : Sink) (r : Request) : Context :=
  pooled.reset w r

/-- The method `Context.release`: the Context as it is put back in the pool. -/
def Context.release (c : Context) : Context :=
  { c with Response := none, Request := none, handlers := [], QueryParams := none }

/-- The method `Context.Service`; `none` is the panic. -/
def Context.Service (c : Context) (name : Str) : Option Str :=
  c.services name

/-- The method `Context.setHandlers`. -/
def Context.setHandlers (c : Context) (handlers : List Handler) : Context :=
  { c with handlers := handlers, index := -1 }

/-- The method `Context.Set`. -/
def Context.Set (c : Context) (key value : Str) : Context :=
  { c with Store := c.Store.set key value }

/-- The method `Context.Get`. -/
def Context.Get (c : Context) (key : Str) : Option Str := c.Store key

/-- The method `Context.Status`. -/
def Context.Status (c : Context) (code : Int) : Context :=
  { c with status := code }

/-- The method `Context.Param` (a missing key reads as the empty string). -/
def Context.Param (c : Context) (name : Str) : Str :=
  ((c.PathParams.bind (fun m => m name)).getD [])

/-! ## Response helpers -/

/-- The error values the response helpers return. -/
inductive SendErr where
  | responseAlreadySent
  | encode
  deriving DecidableEq, Repr

/-- The step `if c.status == 0 { c.status = http.StatusOK }`. -/
def Context.defaultStatus (c : Context) : Context :=
  { c with status := if c.status = 0 then 200 else c.status }

/-- The call `json.NewEncoder(c.Response).Encode(data)` on sink `w`: the
encoding and a newline are written, or the encoder fails and writes nothing. -/
def encodeTo (w : Sink) (data : Value) : Option SendErr × Sink :=
  match data.json with
  | some enc => (none, w ++ [SinkEvent.write (enc ++ ['\n'])])
  | none => (some SendErr.encode, w)

/-- The method `Context.Send`: the returned error and the Context afterwards;
`Except.error c` is a panic that leaves the Context as `c`: the nil-pointer
panic on a Context without a sink, or the panic of `WriteHeader` on a pending
status that is not a valid code. -/
def Context.Send (c : Context) (data : Value) : Except Context (Option SendErr × Context) :=
  if c.written then Except.ok (some SendErr.responseAlreadySent, c)
  else
    let c := { c with written := true }
    let c := c.defaultStatus
    match c.Response with
    | none => Except.error c
    | some w =>
      match data.shape with
      | Shape.str v =>
        let w1 := w ++
          [SinkEvent.setHeader "Content-Type".toList "text/plain; charset=utf-8".toList]
        match w1.WriteHeader c.status with
        | none => Except.error { c with Response := some w1 }
        | some w2 => Except.ok (none, { c with Response := some (w2 ++ [SinkEvent.write v]) })
      | Shape.bytes v =>
        let w1 := w ++
          [SinkEvent.setHeader "Content-Type".toList "application/octet-stream".toList]
        match w1.WriteHeader c.status with
        | none => Except.error { c with Response := some w1 }
        | some w2 => Except.ok (none, { c with Response := some (w2 ++ [SinkEvent.write v]) })
      | Shape.null =>
        match w.WriteHeader c.status with
        | none => Except.error c
        | some w2 => Except.ok (none, { c with Response := some w2 })
      | Shape.other =>
        let w1 := w ++
          [SinkEvent.setHeader "Content-Type".toList "application/json; charset=utf-8".toList]
        match w1.WriteHeader c.status with
        | none => Except.error { c with Response := some w1 }
        | some w2 =>
          let r := encodeTo w2 data
          Except.ok (r.1, { c with Response := some r.2 })

/-- The method `Context.JSON`; `Except.error c` as for `Context.Send`. -/
def Context.JSON (c : Context) (data : Value) : Except Context (Option SendErr × Context) :=
  if c.written then Except.ok (some SendErr.responseAlreadySent, c)
  else
    let c := { c with written := true }
    let c := c.defaultStatus
    match c.Response with
    | none => Except.error c
    | some w =>
      let w1 := w ++
        [SinkEvent.setHeader "Content-Type".toList "application/json; charset=utf-8".toList,
         SinkEvent.setHeader "X-Content-Type-Options".toList "nosniff".toList]
      match w1.WriteHeader c.status with
      | none => Except.error { c with Response := some w1 }
      | some w2 =>
        if data.shape = Shape.null then
          Except.ok (none, { c with Response := some (w2 ++ [SinkEvent.write "null".toList]) })
        else
          let r := encodeTo w2 data
          Except.ok (r.1, { c with Response := some r.2 })

/-- The method `Context.HTML`; `Except.error c` as for `Context.Send`. -/
def Context.HTML (c : Context) (data : Str) : Except Context (Option SendErr × Context) :=
  let c := { c with written := true }
  match c.Response with
  | none => Except.error c
  | some w =>
    let w1 := w ++ [SinkEvent.setHeader "Content-Type".toList "text/html; charset=utf-8".toList]
    let c := c.defaultStatus
    match w1.WriteHeader c.status with
    | none => Except.error { c with Response := some w1 }
    | some w2 => Except.ok (none, { c with Response := some (w2 ++ [SinkEvent.write data]) })

/-- The method `Context.Static`. -/
def Context.Static (c : Context) (filepath : Str) :
    Except Context (Option SendErr × Context) :=
  let c := { c with written := true }
  match c.Response with
  | none => Except.error c
  | some w => Except.ok (none, { c with Response := some (w ++ [SinkEvent.serveFile filepath]) })

/-- The function `http.NotFound(w, r)` of the standard library, as calls on
the sink. -/
def httpNotFound (w : Sink) : Sink :=
  w ++ [SinkEvent.setHeader "Content-Type".toList "text/plain; charset=utf-8".toList,
        SinkEvent.setHeader "X-Content-Type-Options".toList "nosniff".toList,
        SinkEvent.writeHeader 404,
        SinkEvent.write "404 page not found\n".toList]

/-! ## Running handlers -/

/-- A record of one handler call (not part of the Go state): the handler, the
value of `written` at the moment of the call, and whether the call was made by
`Next` (otherwise by the loop of `chain`). -/
structure Invocation where
  handler : Handler
  written : Bool
  viaNext : Bool
  deriving DecidableEq, Repr

/-- The state a handler runs on: the Context and the record of calls so far. -/
structure Run where
  ctx : Context
  invoked : List Invocation

/-- How a call ends: it returns, it panics (leaving the state shown), or the
recursion budget of the embedding is used up. -/
inductive Outcome where
  | ok (s : Run)
  | panic (s : Run)
  | outOfFuel

/-- The effect of a response helper inside a handler body (the returned error
is dropped, as in `c.Send(v)` used as a statement). -/
def liftWrite (s : Run) : Except Context (Option SendErr × Context) → Outcome
  | Except.ok (_, c) => Outcome.ok { s with ctx := c }
  | Except.error c => Outcome.panic { s with ctx := c }

/-- One Context call of a handler body; `next` is `c.Next`. -/
def runOp (next : Run → Outcome) (op : Op) (s : Run) : Outcome :=
  match op with
  | Op.next => next s
  | Op.status code => Outcome.ok { s with ctx := s.ctx.Status code }
  | Op.send data => liftWrite s (s.ctx.Send data)
  | Op.json data => liftWrite s (s.ctx.JSON data)
  | Op.html data => liftWrite s (s.ctx.HTML data)
  | Op.static filepath => liftWrite s (s.ctx.Static filepath)
  | Op.set key value => Outcome.ok { s with ctx := s.ctx.Set key value }
  | Op.service name =>
    match s.ctx.Service name with
    | some _ => Outcome.ok s
    | none => Outcome.panic s

/-- The body of a handler, call by call; a panic or an exhausted budget ends it. -/
def runBody (next : Run → Outcome) : List Op → Run → Outcome
  | [], s => Outcome.ok s
  | op :: rest, s =>
    match runOp next op s with
    | Outcome.ok s1 => runBody next rest s1
    | o => o

/-- The call `handler(c)`: the call is recorded, then the body runs. -/
def callHandler (next : Run → Outcome) (viaNext : Bool) (h : Handler) (s : Run) : Outcome :=
  runBody next h.body { s with invoked := s.invoked ++ [⟨h, s.ctx.written, viaNext⟩] }

/-- The body of the method `Context.Next`.  `next` is `c.Next` as the invoked
handler sees it, `none` when the budget of the embedding is used up.  An index
below zero is Go's index-out-of-range panic. -/
def Context.nextBody (next : Option (Run → Outcome)) (s : Run) : Outcome :=
  let s1 : Run := { s with ctx := { s.ctx with index := s.ctx.index + 1 } }
  if s1.ctx.index < s1.ctx.handlers.length then
    match s1.ctx.handlers.get? s1.ctx.index.toNat, decide (0 ≤ s1.ctx.index) with
    | some h, true =>
      (match next with
       | some next => callHandler next true h s1
       | none => Outcome.outOfFuel)
    | _, _ => Outcome.panic s1
  else Outcome.ok s1

/-- The method `Context.Next`, with a budget for the nesting of `Next` calls
(one unit per handler entered). -/
def Context.Next : Nat → Run → Outcome
  | 0, s => Context.nextBody none s
  | fuel + 1, s => Context.nextBody (some (Context.Next fuel)) s

/-- The closure returned by `chain(handlers)`, applied to a Context; `call` is
the call `handler(c)`. -/
def chain (call : Handler → Run → Outcome) : List Handler → Run → Outcome
  | [], s => Outcome.ok s
  | handler :: rest, s =>
    match call handler s with
    | Outcome.ok s1 => if s1.ctx.written then Outcome.ok s1 else chain call rest s1
    | o => o

/-- A route handler as stored by `Add`, applied to a Context. -/
def runChain (fuel : Nat) (handlers : List Handler) (s : Run) : Outcome :=
  chain (callHandler (Context.Next fuel) false) handlers s

/-! ## The application -/

/-- The struct `App` (the router is held by value, the config is left out). -/
structure App where
  router : Router
  middleware : List Handler
  services : GoMap Str

/-- The function `New`. -/
def New : App := { router := Router.zero, middleware := [], services := GoMap.empty }

/-- The method `App.Use`. -/
def App.Use (a : App) (middleware : List Handler) : App :=
  { a with middleware := a.middleware ++ middleware }

/-- The method `App.Service`. -/
def App.Service (a : App) (name service : Str) : App :=
  { a with services := a.services.set name service }

/-- The per-method registration methods `App.Get`, `App.Post`, ...: each calls
`a.router.Add` with its method constant. -/
def App.handle (a : App) (method path : Str) (handlers : List HandlerArg) : Except App App :=
  match a.router.Add method path handlers with
  | Except.ok r => Except.ok { a with router := r }
  | Except.error r => Except.error { a with router := r }

def MethodGet : Str := "GET".toList

def MethodPost : Str := "POST".toList

/-- The method `App.Get`. -/
def App.Get (a : App) (path : Str) (handlers : List HandlerArg) : Except App App :=
  a.handle MethodGet path handlers

/-- The method `App.Post`. -/
def App.Post (a : App) (path : Str) (handlers : List HandlerArg) : Except App App :=
  a.handle MethodPost path handlers

/-- What `ServeHTTP` leaves behind: the sink as the caller sees it, the
Context as the deferred `release` put it back in the pool, and the record of
handler calls. -/
structure Served where
  response : Option Sink
  pooled : Context
  invoked : List Invocation

/-- How `ServeHTTP` ends. -/
inductive Dispatch where
  | returned (d : Served)
  | panicked (d : Served)
  | outOfFuel

/-- The deferred `ctx.release()`, and the sink read off before it. -/
def finish (s : Run) : Served :=
  { response := s.ctx.Response, pooled := s.ctx.release, invoked := s.invoked }

/-- The block `if len(a.middleware) > 0 { ctx.setHandlers(a.middleware); ctx.Next() }`. -/
def App.runMiddleware (fuel : Nat) (a : App) (s : Run) : Outcome :=
  if a.middleware.length > 0 then
    Context.Next fuel { s with ctx := s.ctx.setHandlers a.middleware }
  else Outcome.ok s

/-- The method `App.ServeHTTP`.  `pooled` is the Context that the pool hands
out, `w` the response sink on entry. -/
def App.ServeHTTP (fuel : Nat) (a : App) (pooled : Context) (w : Sink) (r : Request) :
    Dispatch :=
  let ctx := NewContext pooled w r
  let ctx := { ctx with services := a.services }
  match a.runMiddleware fuel ⟨ctx, []⟩ with
  | Outcome.outOfFuel => Dispatch.outOfFuel
  | Outcome.panic s => Dispatch.panicked (finish s)
  | Outcome.ok s =>
    if a.middleware.length > 0 ∧ s.ctx.written = true then Dispatch.returned (finish s)
    else
      match a.router.Find r.Method r.Path with
      | none => Dispatch.panicked (finish s)
      | some (some handler, params) =>
        (match runChain fuel handler { s with ctx := { s.ctx with PathParams := params } } with
         | Outcome.ok s1 => Dispatch.returned (finish s1)
         | Outcome.panic s1 => Dispatch.panicked (finish s1)
         | Outcome.outOfFuel => Dispatch.outOfFuel)
      | some (none, _) =>
        Dispatch.returned
          (finish { s with ctx := { s.ctx with Response := s.ctx.Response.map httpNotFound } })

/-! ## Sequences of registration calls -/

/-- A registration call on a router. -/
inductive RouterOp where
  | add (method path : Str) (handlers : List HandlerArg)
  | use (middleware : List Handler)

/-- One registration call; `none` when `Add` panics. -/
def Router.step (r : Router) : RouterOp → Option Router
  | RouterOp.add method path handlers =>
    match r.Add method path handlers with
    | Except.ok r1 => some r1
    | Except.error _ => none
  | RouterOp.use middleware => some (r.Use middleware)

/-- A sequence of registration calls, none of which panics. -/
def Router.run (r : Router) : List RouterOp → Option Router
  | [] => some r
  | op :: rest =>
    match r.step op with
    | some r1 => Router.run r1 rest
    | none => none

/-- The route-table read `r.routes[method][path]` (nil when either level is
missing). -/
def Router.lookup (r : Router) (method path : Str) : Option Route :=
  (r.routes method).bind (fun inner => inner path)

/-- Whether a call registers under the key `(method, path)`, `path` normalized. -/
def RouterOp.registers (method path : Str) : RouterOp → Prop
  | RouterOp.add m p _ => m = method ∧ normalizePath p = path
  | RouterOp.use _ => False

instance (method path : Str) (op : RouterOp) : Decidable (op.registers method path) := by
  cases op with
  | add m p hs =>
    unfold RouterOp.registers
    exact inferInstance
  | use mw =>
    unfold RouterOp.registers
    exact inferInstance

/-! ## The pattern grammar, as the specification words it -/

/-- A pattern segment that is neither a named parameter nor a wildcard. -/
def IsLiteral (seg : Str) : Prop := seg.head? ≠ some ':' ∧ seg.head? ≠ some '*'

instance (seg : Str) : Decidable (IsLiteral seg) := by
  unfold IsLiteral
  exact inferInstance

/-- A tokenized pattern matches a tokenized path segment by segment: literal
segments are equal, a `:name` segment stands against one non-empty segment,
and a final `*name` segment against one or more remaining segments. -/
inductive PatternMatches : List Str → List Str → Prop where
  | nil : PatternMatches [] []
  | wild (name s : Str) (ss : List Str) : PatternMatches [('*' :: name)] (s :: ss)
  | param (name s : Str) (ps ss : List Str) :
      s ≠ [] → PatternMatches ps ss → PatternMatches ((':' :: name) :: ps) (s :: ss)
  | lit (p : Str) (ps ss : List Str) :
      IsLiteral p → PatternMatches ps ss → PatternMatches (p :: ps) (p :: ss)

/-- The parameter bindings a pattern takes from a path it matches, written
into `m` left to right: `name -> segment` for `:name`, and the reserved key
`*` bound to the remaining segments joined by `/` for a wildcard. -/
def captured : List Str → List Str → GoMap Str → GoMap Str
  | ('*' :: _) :: _, s :: ss, m => m.set ['*'] (stringsJoin (s :: ss) ['/'])
  | (':' :: name) :: ps, s :: ss, m => captured ps ss (m.set name s)
  | _ :: ps, _ :: ss, m => captured ps ss m
  | _, _, m => m

/-- The names of the `:name` segments of a tokenized pattern, in order. -/
def paramNames : List Str → List Str
  | [] => []
  | (':' :: name) :: ps => name :: paramNames ps
  | _ :: ps => paramNames ps

/-! ## Registration history and trie invariants -/

/-- The handler `Add` stores for the router middleware `mw` and the arguments
`hs`: the chain over `mw` followed by the converted handlers, nil when there
is nothing to run. -/
def composeChain (mw : List Handler) (hs : List HandlerArg) : Option (List Handler) :=
  match convertAll hs with
  | some converted => if (mw ++ converted).length > 0 then some (mw ++ converted) else none
  | none => none

/-- The chain most recently registered under the key `(m, P)` by a sequence of
registration calls that starts with router middleware `mw`; `acc` is the answer
before the sequence, and `none` means that the key was never registered. -/
def lastRegistered (m P : Str) :
    List RouterOp → List Handler → Option (Option (List Handler)) →
      Option (Option (List Handler))
  | [], _, acc => acc
  | RouterOp.use mws :: rest, mw, acc => lastRegistered m P rest (mw ++ mws) acc
  | RouterOp.add m' p' hs :: rest, mw, acc =>
    if m' = m ∧ normalizePath p' = P then
      lastRegistered m P rest mw (some (composeChain mw hs))
    else lastRegistered m P rest mw acc

/-- Trie invariant: a node that carries a handler sits at the position its
`path` spells, that is, the classified segments of `path` are the triples on
the way from the root to the node (`pre`), and so for all nodes below. -/
inductive TrieOK : List (Str × Bool × Bool) → RouteNode → Prop where
  | mk (pre : List (Str × Bool × Bool)) (n : RouteNode) :
      (n.handler ≠ none → (getPathParts n.path).map classify = pre) →
      (∀ c ∈ n.children, TrieOK (pre ++ [c.triple]) c) → TrieOK pre n

/-- How `find` consumes path segments along a run of trie nodes, by triple:
a wildcard node ends the run on one or more segments, a parameter node takes
one segment, a literal node takes the segment equal to its text. -/
inductive TripleMatches : List (Str × Bool × Bool) → List Str → Prop where
  | nil : TripleMatches [] []
  | wild (t : Str × Bool × Bool) (s : Str) (ss : List Str) :
      t.2.2 = true → TripleMatches [t] (s :: ss)
  | param (t : Str × Bool × Bool) (τ : List (Str × Bool × Bool)) (s : Str) (ss : List Str) :
      t.2.2 = false → t.2.1 = true → TripleMatches τ ss → TripleMatches (t :: τ) (s :: ss)
  | lit (t : Str × Bool × Bool) (τ : List (Str × Bool × Bool)) (s : Str) (ss : List Str) :
      t.2.2 = false → t.2.1 = false → t.1 = s → TripleMatches τ ss →
      TripleMatches (t :: τ) (s :: ss)

/-- The trie of a router, when there is one, satisfies the invariant. -/
def Router.TrieInv (r : Router) : Prop := ∀ root, r.router = some root → TrieOK [] root

/-! ## Outcomes and invariants of handler execution -/

/-- A property holds of the state a call leaves behind, however the call ends
(nothing is claimed when the budget runs out). -/
def Outcome.All (P : Run → Prop) : Outcome → Prop
  | Outcome.ok s => P s
  | Outcome.panic s => P s
  | Outcome.outOfFuel => True

/-- A call ends (it returns or panics, the budget is not used up) in a state
with property `P`. -/
def Outcome.Ends (P : Run → Prop) : Outcome → Prop
  | Outcome.ok s => P s
  | Outcome.panic s => P s
  | Outcome.outOfFuel => False

/-- The state a call ended in (`s0` when the budget ran out). -/
def Outcome.state (o : Outcome) (s0 : Run) : Run :=
  match o with
  | Outcome.ok s => s
  | Outcome.panic s => s
  | Outcome.outOfFuel => s0

/-- What a dispatch that ended left behind. -/
def Dispatch.served : Dispatch → Option Served
  | Dispatch.returned d => some d
  | Dispatch.panicked d => some d
  | Dispatch.outOfFuel => none

/-- Invoking steps strictly in order, passing the same Context to each (the
specification's reading of a chain, without the stop on `written`): each
handler runs on the state the previous one left; a panic ends the run. -/
def runInOrder (call : Handler → Run → Outcome) : List Handler → Run → Outcome
  | [], s => Outcome.ok s
  | h :: rest, s =>
    match call h s with
    | Outcome.ok s1 => runInOrder call rest s1
    | o => o

/-- Every Context call other than `Next` that satisfies `A` ends and keeps `P`. -/
def OpsPreserve (P : Run → Prop) (A : Op → Prop) : Prop :=
  ∀ (next : Run → Outcome) (op : Op) (s : Run),
    A op → op ≠ Op.next → P s → (runOp next op s).Ends P

/-- Every call in the bodies of the installed handlers satisfies `A`. -/
def HandlersIn (A : Op → Prop) (s : Run) : Prop :=
  ∀ h ∈ s.ctx.handlers, ∀ op ∈ h.body, A op

/-- What a response helper that got past its `written` check does to the
Context: `written` is set, calls are appended to the sink (if there is one),
and only the pending status may change besides. -/
def Context.Wrote (c c1 : Context) : Prop :=
  c1.written = true ∧ c1.handlers = c.handlers ∧ c1.index = c.index ∧
    c1.services = c.services ∧ c1.PathParams = c.PathParams ∧ c1.Store = c.Store ∧
    ∃ evs, c1.Response = c.Response.map (fun w => w ++ evs)

/-- What one Context call other than `Next` does to the Context. -/
def OpEffect (op : Op) (c c1 : Context) : Prop :=
  match op with
  | Op.next => False
  | Op.status code => c1 = c.Status code
  | Op.set key value => c1 = c.Set key value
  | Op.service _ => c1 = c
  | Op.send _ => (c.written = true ∧ c1 = c) ∨ (c.written = false ∧ c.Wrote c1)
  | Op.json _ => (c.written = true ∧ c1 = c) ∨ (c.written = false ∧ c.Wrote c1)
  | Op.html _ => c.Wrote c1
  | Op.static _ => c.Wrote c1

/-- A Context call that neither writes a response nor panics, given the
services `sv` of the Context: `Next`, `Status`, `Set`, and `Service` for a
registered name. -/
def Op.Quiet (sv : GoMap Str) : Op → Prop
  | Op.next => True
  | Op.status _ => True
  | Op.set _ _ => True
  | Op.service name => sv name ≠ none
  | _ => False

/-- A handler that passes the request on: its body calls `Next` and otherwise
only sets the pending status or store entries or reads services, so it writes
no response and does not panic. -/
def Handler.Passes (sv : GoMap Str) (h : Handler) : Prop :=
  (∀ op ∈ h.body, op.Quiet sv) ∧ Op.next ∈ h.body

instance (sv : GoMap Str) (op : Op) : Decidable (op.Quiet sv) := by
  cases op <;> (unfold Op.Quiet; exact inferInstance)

instance (sv : GoMap Str) (h : Handler) : Decidable (h.Passes sv) := by
  unfold Handler.Passes
  exact inferInstance

/-- The cursor has reached the end of the installed chain: `Next` has no
handler left to call. -/
def Run.Exhausted (s : Run) : Prop :=
  (s.ctx.handlers.length : Int) ≤ s.ctx.index + 1

/-- The parts of the state that `Next`, `Status` and `Set` leave alone. -/
def Run.Same (s t : Run) : Prop :=
  t.ctx.handlers = s.ctx.handlers ∧ t.ctx.written = s.ctx.written ∧
    t.ctx.Response = s.ctx.Response ∧ t.ctx.services = s.ctx.services ∧
    t.ctx.PathParams = s.ctx.PathParams

/-- A Context call other than `HTML` and `Static`, the two response helpers
that write without looking at `written`. -/
def Op.NoRaw : Op → Prop
  | Op.html _ => False
  | Op.static _ => False
  | _ => True

instance (op : Op) : Decidable op.NoRaw := by
  cases op <;> (unfold Op.NoRaw; exact inferInstance)

/-- The sink `w1` is the sink `w0` after exactly one `Send` or `JSON` call on a
Context that had not written yet: the call returned, or it panicked in
`WriteHeader`. -/
def OneWrite (w0 w1 : Sink) : Prop :=
  ∃ (c c1 : Context) (data : Value) (e : Option SendErr),
    c.written = false ∧ c.Response = some w0 ∧
      (c.Send data = Except.ok (e, c1) ∨ c.JSON data = Except.ok (e, c1) ∨
        c.Send data = Except.error c1 ∨ c.JSON data = Except.error c1) ∧
      c1.Response = some w1

/-- The sink is untouched while `written` is false, and holds the output of
one `Send`/`JSON` call once it is true. -/
def SinkInv (w : Sink) (s : Run) : Prop :=
  (s.ctx.written = false ∧ s.ctx.Response = some w) ∨
    (s.ctx.written = true ∧ ∃ w1, s.ctx.Response = some w1 ∧ OneWrite w w1)

/-- Every recorded call that was made with `written` already true was made by
`Next`, not by the chain loop. -/
def LateOnlyViaNext (invoked : List Invocation) : Prop :=
  ∀ e ∈ invoked, e.written = true → e.viaNext = true

/-! ## Example data -/

/-- A middleware that only calls `Next`. -/
def hA : Handler := ⟨1, [Op.next]⟩

/-- A second middleware that only calls `Next`. -/
def hB : Handler := ⟨2, [Op.next]⟩

/-- A route handler that only calls `Next`. -/
def hC : Handler := ⟨3, [Op.next]⟩

/-- A route handler that sends a text body. -/
def hD : Handler := ⟨4, [Op.send ⟨Shape.str "done".toList, none⟩]⟩

/-- A middleware that answers 403 and does not call `Next`
(`TestMiddlewareTermination`). -/
def forbid : Handler := ⟨5, [Op.status 403, Op.send ⟨Shape.str "Forbidden".toList, none⟩]⟩

/-- A middleware that writes a response and then calls `Next`. -/
def writeThenNext : Handler := ⟨6, [Op.send ⟨Shape.str "first".toList, none⟩, Op.next]⟩

/-- The result of a registration that is known not to panic. -/
def okRouter (e : Except Router Router) : Router :=
  match e with
  | Except.ok r => r
  | Except.error r => r

/-- The result of a registration on an app that is known not to panic. -/
def okApp (e : Except App App) : App :=
  match e with
  | Except.ok a => a
  | Except.error a => a

/-- A router with the parameter route `GET /users/:id` registered. -/
def usersRouter : Router :=
  okRouter (Router.zero.Add MethodGet "/users/:id".toList [HandlerArg.func hA])

/-- Registration calls that leave the key `(GET, /users/me)` alone. -/
def laterCalls : List RouterOp :=
  [RouterOp.use [hB],
   RouterOp.add MethodPost "/users/me".toList [HandlerArg.func hC],
   RouterOp.add MethodGet "/users/*rest".toList [HandlerArg.func hC]]

/-- Two registration calls: `GET /users/:id` without a
handler, then `POST /users/:id` with one. -/
def emptyThenPost : List RouterOp :=
  [RouterOp.add MethodGet "/users/:id".toList [],
   RouterOp.add MethodPost "/users/:id".toList [HandlerArg.func hD]]

/-- The request `GET /test`. -/
def getTest : Request := ⟨MethodGet, "/test".toList, []⟩

/-- The app of `TestMiddlewareOrder`: process-wide middleware `hA`, `hB`, and
`GET /test` registered with the handlers `hC`, `hD`. -/
def orderApp : App :=
  okApp (((New.Use [hA]).Use [hB]).Get "/test".toList [HandlerArg.func hC, HandlerArg.func hD])

/-- The app of `TestMiddlewareTermination`. -/
def forbidApp : App := okApp ((New.Use [forbid]).Get "/test".toList [HandlerArg.func hD])

/-- An app whose first middleware writes and then calls `Next`. -/
def lateApp : App :=
  okApp (((New.Use [writeThenNext]).Use [hB]).Get "/test".toList [HandlerArg.func hD])

/-- A Context fresh from the pool on which `Send` has written a text response
once. -/
def sentOnce : Context :=
  match (NewContext Context.poolNew [] getTest).Send ⟨Shape.str "first".toList, none⟩ with
  | Except.ok (_, c) => c
  | Except.error c => c

/-! ## The tokenizer as the specification words it -/

/-- The function `getPathParts` with the buffer that `pathPartsCache.Get`
returned made explicit: `parts = parts[:0]` keeps none of its elements. -/
def getPathPartsIn (buf : List Str) (path : Str) : List Str :=
  let parts := buf.take 0
  if path = [] ∨ path = ['/'] then parts
  else
    let start := if path.head? = some '/' then 1 else 0
    let (start, parts) := getPathPartsLoop path (path.drop start) start start parts
    if start < path.length then parts ++ [slice path start path.length] else parts

/-- Splitting a string at every `/`: the pieces between the separators, in
order, empty pieces included (this follows the specification, not the code). -/
def splitAtSlash : Str → List Str
  | [] => [[]]
  | c :: cs =>
    if c = '/' then [] :: splitAtSlash cs
    else
      match splitAtSlash cs with
      | [] => [[c]]
      | piece :: pieces => (c :: piece) :: pieces

/-- The non-empty pieces of a string split at every `/` (the specification of
the tokenizer). -/
def segmentsOf (p : Str) : List Str := (splitAtSlash p).filter (fun s => decide (s ≠ []))

/-- The route `GET /users/:id` registered with `hA` and then again with `hD`. -/
def readdRouter : Router :=
  okRouter (usersRouter.Add MethodGet "/users/:id".toList [HandlerArg.func hD])

/-- A router with the middleware `hA`, `hB` installed before `GET /test` is
registered with the handlers `hC`, `hD`. -/
def orderRouter : Router :=
  okRouter (((Router.zero.Use [hA]).Use [hB]).Add MethodGet "/test".toList
    [HandlerArg.func hC, HandlerArg.func hD])

/-! ## The pending status, as the specification words it -/

/-- The status code the specification expects a response helper to emit after
the calls `Status(code)` for the codes of the list, in order: the one set
last, and 200 when none was set or the one set last is 0. -/
def pendingCode (codes : List Int) : Int :=
  match codes.getLast? with
  | none => 200
  | some code => if code = 0 then 200 else code

/-- The codes passed to `WriteHeader`, in order. -/
def Sink.writeHeaders : Sink → List Int
  | [] => []
  | SinkEvent.writeHeader code :: rest => code :: Sink.writeHeaders rest
  | _ :: rest => Sink.writeHeaders rest

/-- The handler of `TestServices`: it looks the service `users` up and answers
with a JSON body. -/
def useService : Handler :=
  ⟨7, [Op.service "users".toList, Op.json ⟨Shape.other, some "true".toList⟩]⟩

/-- An app with the route `GET /test` handled by `useService`, before any
service is registered. -/
def serviceApp : App := okApp (New.Get "/test".toList [HandlerArg.func useService])

/-! ## Groups -/

def MethodPut : Str := "PUT".toList

def MethodPatch : Str := "PATCH".toList

def MethodDelete : Str := "DELETE".toList

def MethodHead : Str := "HEAD".toList

def MethodOptions : Str := "OPTIONS".toList

/-- The method `App.Put`. -/
def App.Put (a : App) (path : Str) (handlers : List HandlerArg) : Except App App :=
  a.handle MethodPut path handlers

/-- The method `App.Delete`. -/
def App.Delete (a : App) (path : Str) (handlers : List HandlerArg) : Except App App :=
  a.handle MethodDelete path handlers

/-- The method `App.Patch`. -/
def App.Patch (a : App) (path : Str) (handlers : List HandlerArg) : Except App App :=
  a.handle MethodPatch path handlers

/-- The method `App.Head`. -/
def App.Head (a : App) (path : Str) (handlers : List HandlerArg) : Except App App :=
  a.handle MethodHead path handlers

/-- The method `App.Options`. -/
def App.Options (a : App) (path : Str) (handlers : List HandlerArg) : Except App App :=
  a.handle MethodOptions path handlers

/-- The struct `Group`: `pfx` is its field "prefix".  The field `app` is a
pointer to the app, which the registration methods below take as the app at
the moment of the call. -/
structure Group where
  pfx : Str

/-- The method `App.Group`. -/
def App.Group (_a : App) (p : Str) : Zinc.Group := ⟨stringsTrimSlash p⟩

/-- The local `fullPath` of the registration methods of `Group`. -/
def Group.fullPath (g : Zinc.Group) (path : Str) : Str :=
  ['/'] ++ g.pfx ++ ['/'] ++ stringsTrimSlash path

/-- The method `Group.Get`. -/
def Group.Get (g : Zinc.Group) (a : App) (path : Str) (handler : HandlerArg) : Except App App :=
  a.Get (g.fullPath path) [handler]

/-- The method `Group.Post`. -/
def Group.Post (g : Zinc.Group) (a : App) (path : Str) (handler : HandlerArg) : Except App App :=
  a.Post (g.fullPath path) [handler]

/-- The method `Group.Put`. -/
def Group.Put (g : Zinc.Group) (a : App) (path : Str) (handler : HandlerArg) : Except App App :=
  a.Put (g.fullPath path) [handler]

/-- The method `Group.Delete`. -/
def Group.Delete (g : Zinc.Group) (a : App) (path : Str) (handler : HandlerArg) : Except App App :=
  a.Delete (g.fullPath path) [handler]

/-- The method `Group.Patch`. -/
def Group.Patch (g : Zinc.Group) (a : App) (path : Str) (handler : HandlerArg) : Except App App :=
  a.Patch (g.fullPath path) [handler]

/-- The method `Group.Head`. -/
def Group.Head (g : Zinc.Group) (a : App) (path : Str) (handler : HandlerArg) : Except App App :=
  a.Head (g.fullPath path) [handler]

/-- The method `Group.Options`. -/
def Group.Options (g : Zinc.Group) (a : App) (path : Str) (handler : HandlerArg) : Except App App :=
  a.Options (g.fullPath path) [handler]

/-- The method `Group.Group`. -/
def Group.Group (g : Zinc.Group) (p : Str) : Zinc.Group :=
  ⟨g.pfx ++ ['/'] ++ stringsTrimSlash p⟩

/-- The group `app.Group(p1).Group(p2)...Group(pk)` for `ps = [p2, ..., pk]`. -/
def nestedGroup (a : App) (p1 : Str) (ps : List Str) : Zinc.Group :=
  ps.foldl Group.Group (a.Group p1)

/-- The path the specification gives for a registration through nested
groups: `"/" + trim(p1) + "/" + ... + "/" + trim(pk) + "/" + trim(q)`. -/
def groupPath (p1 : Str) (ps : List Str) (q : Str) : Str :=
  '/' :: stringsJoin ((p1 :: ps ++ [q]).map stringsTrimSlash) ['/']

/-- The registration methods of `Group`, each with the method it registers
under. -/
def groupMethods : List ((Zinc.Group → App → Str → HandlerArg → Except App App) × Str) :=
  [(Group.Get, MethodGet), (Group.Post, MethodPost), (Group.Put, MethodPut),
   (Group.Delete, MethodDelete), (Group.Patch, MethodPatch), (Group.Head, MethodHead),
   (Group.Options, MethodOptions)]

/-! ## Where the values of a parameter map come from -/

/-- Every binding of `ps` is a binding of `ps0`, or binds a segment of
`parts`, or binds the key `*` to the segments of a non-empty tail of `parts`
joined by `/`. -/
def BoundFrom (parts : List Str) (ps0 ps : GoMap Str) : Prop :=
  ∀ k v, ps k = some v → ps0 k = some v ∨ v ∈ parts ∨
    (k = ['*'] ∧ ∃ pre s ss, parts = pre ++ s :: ss ∧ v = stringsJoin (s :: ss) ['/'])

/-- A router whose only route is `GET /files/*filepath`. -/
def filesRouter : Router :=
  okRouter (Router.zero.Add MethodGet "/files/*filepath".toList [HandlerArg.func hD])

/-- Two routes under GET: `/:x/c/d` registered first, then `/a/:y`. -/
def shadowRouter : Router :=
  okRouter ((okRouter (Router.zero.Add MethodGet "/:x/c/d".toList [HandlerArg.func hA])).Add
    MethodGet "/a/:y".toList [HandlerArg.func hD])

/-- Two routes under GET: `/:x/b` registered first, then `/a/:y`. -/
def staleRouter : Router :=
  okRouter ((okRouter (Router.zero.Add MethodGet "/:x/b".toList [HandlerArg.func hA])).Add
    MethodGet "/a/:y".toList [HandlerArg.func hD])

/-- The request `GET /users`. -/
def getUsers : Request := ⟨MethodGet, "/users".toList, []⟩

/-- A Context in the middle of a dispatch whose cursor is at the last of its
two handlers. -/
def atEnd : Run :=
  ⟨{ NewContext Context.poolNew [] getTest with
      handlers := [hA, hB], index := 1, status := 201,
      PathParams := some (GoMap.empty.set "id".toList "7".toList),
      Store := GoMap.empty.set "k".toList "v".toList }, [⟨hA, false, true⟩, ⟨hB, false, true⟩]⟩

/-- The string begins with a slash. -/
def BeginsWithSlash (p : Str) : Prop := p.head? = some '/'

instance (p : Str) : Decidable (BeginsWithSlash p) := by
  unfold BeginsWithSlash
  exact inferInstance

/-- The string has a trailing slash without being the root path: the form
the specification rules out for a normalized path. -/
def TrailingSlash (p : Str) : Prop := p.getLast? = some '/' ∧ p ≠ ['/']

instance (p : Str) : Decidable (TrailingSlash p) := by
  unfold TrailingSlash
  exact inferInstance

/-! ## Shapes of the trie -/

/-- No node, here or below, has two children with the same
`(part, isParam, isWild)` triple. -/
inductive SiblingsDistinct : RouteNode → Prop where
  | mk (n : RouteNode) :
      (n.children.map RouteNode.triple).Nodup →
      (∀ c ∈ n.children, SiblingsDistinct c) → SiblingsDistinct n

/-- Every wildcard node, here or below, has no children. -/
inductive WildLeaves : RouteNode → Prop where
  | mk (n : RouteNode) :
      (n.isWild = true → n.children = []) →
      (∀ c ∈ n.children, WildLeaves c) → WildLeaves n

/-- A tokenized pattern in which only the last segment may begin with `*`. -/
def WildLast : List Str → Prop
  | [] => True
  | [_] => True
  | t :: u :: rest => t.head? ≠ some '*' ∧ WildLast (u :: rest)

/-- The child that the loop of `Add` creates for the segment `p`. -/
def newChild (p : Str) : RouteNode :=
  RouteNode.mk [] (classify p).1 [] none (classify p).2.1 (classify p).2.2

/-- What the rest of the loop of `Add` does to the child it has found or
created for a segment, `rest` being the segments that follow. -/
def visitChild (path : Str) (h : Option (List Handler)) (rest : List Str)
    (child : RouteNode) : RouteNode :=
  addLoop path h rest (if rest = [] then child.setTerminal h path else child)

/-- The node reached from `n` by taking, level by level, the child with the
given index. -/
def RouteNode.childAt : List Nat → RouteNode → Option RouteNode
  | [], n => some n
  | i :: is, n =>
    match n.children.get? i with
    | some c => RouteNode.childAt is c
    | none => none

/-- A router with the one route `GET /a/*x/b`, whose pattern goes on after a
wildcard segment. -/
def midWildRouter : Router :=
  okRouter (Router.zero.Add MethodGet "/a/*x/b".toList [HandlerArg.func hD])

/-- Registration calls that meet at the node `users`: `:id`, then `:name`,
then `:id` again. -/
def siblingCalls : List RouterOp :=
  [RouterOp.add MethodGet "/users/:id".toList [HandlerArg.func hA],
   RouterOp.add MethodGet "/users/:name".toList [HandlerArg.func hD],
   RouterOp.add MethodPost "/users/:id".toList [HandlerArg.func hD]]

/-- The router that `siblingCalls` build. -/
def siblingRouter : Router := (Router.zero.run siblingCalls).getD Router.zero

/-- The router that `laterCalls` build from the zero router. -/
def laterRouter : Router := (Router.zero.run laterCalls).getD Router.zero

/-- The branch for the tokenized pattern `pat` below `n` is taken through the
first child at every level, and ends at a node with handler `h` and path
`path`. -/
def FirstBranch (h : Option (List Handler)) (path : Str) : List Str → RouteNode → Prop
  | [], n => n.handler = h ∧ n.path = path
  | p :: rest, n =>
    ∃ c cs, n.children = c :: cs ∧ c.triple = classify p ∧ FirstBranch h path rest c

/-- Two routes under GET that part after `/users`: the parameter route
`/users/:id/posts` registered first, then the literal route `/users/me/:tab`. -/
def orderedRouter : Router :=
  okRouter ((okRouter (Router.zero.Add MethodGet "/users/:id/posts".toList
    [HandlerArg.func hA])).Add MethodGet "/users/me/:tab".toList [HandlerArg.func hD])

/-! ## The record of calls made through `Next` -/

/-- The calls recorded so far are those of the installed handlers before and at
the cursor, in order, each made once by `Next`; and a call recorded with
`written` true was made on a Context that still has `written` true. -/
def Run.InOrder (s : Run) : Prop :=
  s.invoked.map (fun e => e.handler) = s.ctx.handlers.take (s.ctx.index + 1).toNat ∧
    (∀ e ∈ s.invoked, e.viaNext = true) ∧
    (∀ e ∈ s.invoked, e.written = true → s.ctx.written = true) ∧
    -1 ≤ s.ctx.index

/-- A middleware that returns without calling `Next` and without writing. -/
def skip : Handler := ⟨8, [Op.set "seen".toList "1".toList]⟩

/-- An app whose first middleware does not call `Next`; the route `GET /test`
has the handlers `hC` (which calls `Next`) and `hD`. -/
def skipApp : App :=
  okApp (((New.Use [skip]).Use [hB]).Get "/test".toList [HandlerArg.func hC, HandlerArg.func hD])

/-- An app whose first middleware does not call `Next`; the route `GET /test`
has the handler `hD`. -/
def skipOnlyApp : App :=
  okApp (((New.Use [skip]).Use [hB]).Get "/test".toList [HandlerArg.func hD])

/-- The state in which the middleware phase of `orderApp` returns for the
request `GET /test`. -/
def orderMid : Run :=
  (orderApp.runMiddleware 2
    ⟨{ NewContext Context.poolNew [] getTest with services := orderApp.services }, []⟩).state
    ⟨Context.poolNew, []⟩

/-- The state in which the middleware phase of `skipOnlyApp` returns for the
request `GET /test`. -/
def skipMid : Run :=
  (skipOnlyApp.runMiddleware 2
    ⟨{ NewContext Context.poolNew [] getTest with services := skipOnlyApp.services }, []⟩).state
    ⟨Context.poolNew, []⟩

/-- The router `usersRouter` after `GET /users/me` is registered with an empty
handler list. -/
def hiddenRouter : Router :=
  okRouter (usersRouter.Add MethodGet "/users/me".toList [])

/-- The router `usersRouter` after `GET /users/:id` is registered again, this
time with an empty handler list. -/
def emptyAgain : Router :=
  okRouter (usersRouter.Add MethodGet "/users/:id".toList [])

/-- The handlers a run has called through `Next`, in the order of the calls. -/
def Run.nextCalls (s : Run) : List Handler :=
  (s.invoked.filter (fun e => e.viaNext)).map (fun e => e.handler)

/-- The calls made through `Next` are the installed handlers up to the cursor,
one call each, in the order of the list; the cursor is at least `-1`. -/
def Run.NextOrder (s : Run) : Prop :=
  s.nextCalls = s.ctx.handlers.take (s.ctx.index + 1).toNat ∧ -1 ≤ s.ctx.index

/-- A handler that calls `Next` twice. -/
def twice : Handler := ⟨9, [Op.next, Op.next]⟩

/-- The state in which the call `Next` returns after `setHandlers` installed
`twice`, `hA` and `hB`. -/
def twiceRun : Run :=
  (Context.Next 3 ⟨Context.poolNew.setHandlers [twice, hA, hB], []⟩).state
    ⟨Context.poolNew, []⟩

/-! ## Route table lemmas -/

theorem GoMap.set_same {V : Type} (m : GoMap V) (k : Str) (v : V) : (m.set k v) k = some v := by
  simp [GoMap.set]

theorem GoMap.set_other {V : Type} (m : GoMap V) (k k' : Str) (v : V) (h : k' ≠ k) :
    (m.set k v) k' = m k' := by
  simp [GoMap.set, h]

theorem Router.Add_ok_inv {r r1 : Router} {m p : Str} {hs : List HandlerArg}
    (h : r.Add m p hs = Except.ok r1) :
    ∃ converted, convertAll hs = some converted ∧
      r1.middleware = r.middleware ∧
      r1.router = some (addLoop (normalizePath p)
        (if (r.middleware ++ converted).length > 0 then some (r.middleware ++ converted) else none)
        (getPathParts (normalizePath p)) (r.router.getD RouteNode.zero)) ∧
      (∀ m' p', r1.lookup m' p' =
        if m' = m ∧ p' = normalizePath p then
          some ⟨normalizePath p,
            if (r.middleware ++ converted).length > 0 then some (r.middleware ++ converted)
            else none, m, getPathParts (normalizePath p)⟩
        else r.lookup m' p') := by
  unfold Router.Add at h
  cases hc : convertAll hs with
  | none => simp [hc] at h
  | some converted =>
    simp only [hc] at h
    injection h with h
    subst h
    refine ⟨converted, rfl, rfl, rfl, ?_⟩
    intro m' p'
    simp only [Router.lookup, Router.middlewareToHandlers]
    by_cases hm : m' = m
    · subst hm
      by_cases hp : p' = normalizePath p
      · subst hp
        simp [GoMap.set]
      · cases hr : r.routes m' <;> simp [GoMap.set, hp, hr, GoMap.empty]
    · cases hr : r.routes m <;> simp [GoMap.set, hm, hr]

theorem Router.step_lookup_other {r r1 : Router} {op : RouterOp} {m p : Str}
    (h : r.step op = some r1) (hop : ¬ op.registers m p) :
    r1.lookup m p = r.lookup m p := by
  cases op with
  | use mw =>
    simp only [Router.step, Option.some.injEq] at h
    subst h
    rfl
  | add m' p' hs =>
    simp only [Router.step] at h
    cases hadd : r.Add m' p' hs with
    | error e => simp [hadd] at h
    | ok r2 =>
      simp only [hadd, Option.some.injEq] at h
      subst h
      obtain ⟨_, _, _, _, hl⟩ := Router.Add_ok_inv hadd
      rw [hl]
      have : ¬ (m = m' ∧ p = normalizePath p') := by
        intro hh
        exact hop ⟨hh.1.symm, hh.2.symm⟩
      simp [this]

theorem Router.run_lookup_other {ops : List RouterOp} {r r1 : Router} {m p : Str}
    (h : r.run ops = some r1) (hops : ∀ op ∈ ops, ¬ op.registers m p) :
    r1.lookup m p = r.lookup m p := by
  induction ops generalizing r with
  | nil =>
    simp only [Router.run, Option.some.injEq] at h
    subst h
    rfl
  | cons op rest ih =>
    simp only [Router.run] at h
    cases hs : r.step op with
    | none => simp [hs] at h
    | some r2 =>
      simp only [hs] at h
      rw [ih h (fun o ho => hops o (List.mem_cons_of_mem _ ho))]
      exact Router.step_lookup_other hs (hops op (List.mem_cons_self _ _))

theorem Router.Find_of_lookup {r : Router} {m p : Str} {route : Route}
    (h : r.lookup m p = some route) : r.Find m p = some (route.handler, none) := by
  unfold Router.lookup at h
  unfold Router.Find
  cases hr : r.routes m with
  | none => simp [hr] at h
  | some inner =>
    simp only [hr, Option.bind] at h
    simp [h]

/-- C1: after `Add(m, p, hs)` with at least one handler, and any later
registration calls none of which registers the key `(m, normalizePath(p))`
again, `Find(m, normalizePath(p))` returns the chain composed at that `Add`
(the router middleware of that moment followed by the converted handlers) and a
nil parameter map, whatever else the table and the trie hold. -/
theorem find_registered_static (r0 r1 r : Router) (m p : Str) (hs : List HandlerArg)
    (later : List RouterOp)
    (hadd : r0.Add m p hs = Except.ok r1)
    (hne : hs ≠ [])
    (hlater : ∀ op ∈ later, ¬ op.registers m (normalizePath p))
    (hrun : r1.run later = some r) :
    ∃ converted, convertAll hs = some converted ∧
      r.Find m (normalizePath p) = some (some (r0.middleware ++ converted), none) := by
  obtain ⟨converted, hc, _, _, hl⟩ := Router.Add_ok_inv hadd
  refine ⟨converted, hc, ?_⟩
  have hlen : converted ≠ [] := by
    intro h0
    subst h0
    cases hs with
    | nil => exact hne rfl
    | cons a rest =>
      simp only [convertAll] at hc
      cases h1 : convertToRouteHandler a with
      | none => simp [h1] at hc
      | some h =>
        cases h2 : convertAll rest <;> simp [h1, h2] at hc
  have h1 := hl m (normalizePath p)
  simp only [and_self, if_true] at h1
  have h2 := Router.run_lookup_other hrun hlater
  rw [h1] at h2
  rw [Router.Find_of_lookup h2]
  have : (r0.middleware ++ converted).length > 0 := by
    cases converted with
    | nil => exact absurd rfl hlen
    | cons a b => simp
  simp only [this, if_true]

theorem classify_wild (name : Str) : classify ('*' :: name) = (['*'], false, true) := rfl

theorem classify_param (name : Str) : classify (':' :: name) = (name, true, false) := rfl

theorem classify_literal {p : Str} (h : IsLiteral p) : classify p = (p, false, false) := by
  unfold IsLiteral at h
  unfold classify
  split
  · simp at h
  · simp at h
  · rfl

@[simp] theorem RouteNode.withChildren_part (n : RouteNode) (cs : List RouteNode) :
    (n.withChildren cs).part = n.part := rfl
@[simp] theorem RouteNode.withChildren_isParam (n : RouteNode) (cs : List RouteNode) :
    (n.withChildren cs).isParam = n.isParam := rfl
@[simp] theorem RouteNode.withChildren_isWild (n : RouteNode) (cs : List RouteNode) :
    (n.withChildren cs).isWild = n.isWild := rfl
@[simp] theorem RouteNode.withChildren_children (n : RouteNode) (cs : List RouteNode) :
    (n.withChildren cs).children = cs := rfl
@[simp] theorem RouteNode.withChildren_handler (n : RouteNode) (cs : List RouteNode) :
    (n.withChildren cs).handler = n.handler := rfl
@[simp] theorem RouteNode.withChildren_path (n : RouteNode) (cs : List RouteNode) :
    (n.withChildren cs).path = n.path := rfl
@[simp] theorem RouteNode.setTerminal_part (n : RouteNode) (h : Option (List Handler)) (p : Str) :
    (n.setTerminal h p).part = n.part := rfl
@[simp] theorem RouteNode.setTerminal_isParam (n : RouteNode) (h : Option (List Handler)) (p : Str) :
    (n.setTerminal h p).isParam = n.isParam := rfl
@[simp] theorem RouteNode.setTerminal_isWild (n : RouteNode) (h : Option (List Handler)) (p : Str) :
    (n.setTerminal h p).isWild = n.isWild := rfl
@[simp] theorem RouteNode.setTerminal_children (n : RouteNode) (h : Option (List Handler)) (p : Str) :
    (n.setTerminal h p).children = n.children := rfl
@[simp] theorem RouteNode.setTerminal_handler (n : RouteNode) (h : Option (List Handler)) (p : Str) :
    (n.setTerminal h p).handler = h := rfl
@[simp] theorem RouteNode.setTerminal_path (n : RouteNode) (h : Option (List Handler)) (p : Str) :
    (n.setTerminal h p).path = p := rfl

theorem addLoop_triple (path : Str) (h : Option (List Handler)) (parts : List Str) (n : RouteNode) :
    (addLoop path h parts n).part = n.part ∧ (addLoop path h parts n).isParam = n.isParam ∧
      (addLoop path h parts n).isWild = n.isWild := by
  cases parts with
  | nil => simp [addLoop]
  | cons p rest =>
    simp only [addLoop]
    split <;> simp

theorem captured_literal {p : Str} (h : IsLiteral p) (ps ss : List Str) (m : GoMap Str) (s : Str) :
    captured (p :: ps) (s :: ss) m = captured ps ss m := by
  cases p with
  | nil => simp [captured]
  | cons c cs =>
    simp only [IsLiteral, List.head?_cons, ne_eq, Option.some.injEq] at h
    conv_lhs => unfold captured
    split
    · simp_all
    · simp_all
    · simp_all
    · rename_i hx
      exact (hx _ _ _ _ rfl rfl).elim

/-- The node `Add` starts a fresh branch with. -/
theorem addLoop_fresh (path : Str) (h : Option (List Handler)) (p : Str) (rest : List Str)
    (n : RouteNode) (hn : n.children = []) :
    addLoop path h (p :: rest) n =
      n.withChildren [addLoop path h rest
        (if rest = [] then
          (RouteNode.mk [] (classify p).1 [] none (classify p).2.1 (classify p).2.2).setTerminal h path
         else RouteNode.mk [] (classify p).1 [] none (classify p).2.1 (classify p).2.2)] := by
  simp [addLoop, RouteNode.findChild, hn]

theorem find_fresh_branch (path : Str) (h : Option (List Handler)) :
    ∀ (pat parts : List Str) (c : RouteNode) (ps0 : GoMap Str),
      c.children = [] → PatternMatches pat parts →
      ∃ d, (addLoop path h pat (if pat = [] then c.setTerminal h path else c)).find parts ps0 =
          (some d, captured pat parts ps0) ∧ d.handler = h ∧ d.path = path := by
  intro pat
  induction pat with
  | nil =>
    intro parts c ps0 hc hm
    cases hm
    exact ⟨c.setTerminal h path, by simp [addLoop, RouteNode.find, captured], rfl, rfl⟩
  | cons p rest ih =>
    intro parts c ps0 hc hm
    simp only [reduceCtorEq, if_false]
    rw [addLoop_fresh path h p rest c hc]
    cases hm with
    | wild name s ss =>
      refine ⟨(RouteNode.mk [] ['*'] [] none false true).setTerminal h path, ?_, rfl, rfl⟩
      simp [RouteNode.find, findLoop, classify_wild, addLoop, captured, RouteNode.setTerminal,
        RouteNode.isWild, RouteNode.part]
    | param name s ps ss hs hrest =>
      obtain ⟨d, hd, hh, hp⟩ := ih ss (RouteNode.mk [] name [] none true false)
        (ps0.set name s) rfl hrest
      refine ⟨d, ?_, hh, hp⟩
      have ht := addLoop_triple path h rest
        (if rest = [] then (RouteNode.mk [] name [] none true false).setTerminal h path
         else RouteNode.mk [] name [] none true false)
      simp only [RouteNode.find, RouteNode.withChildren_children, findLoop, classify_param]
      have hw : (addLoop path h rest
        (if rest = [] then (RouteNode.mk [] name [] none true false).setTerminal h path
         else RouteNode.mk [] name [] none true false)).isWild = false := by
        rw [ht.2.2]; split <;> rfl
      have hpa : (addLoop path h rest
        (if rest = [] then (RouteNode.mk [] name [] none true false).setTerminal h path
         else RouteNode.mk [] name [] none true false)).isParam = true := by
        rw [ht.2.1]; split <;> rfl
      have hpt : (addLoop path h rest
        (if rest = [] then (RouteNode.mk [] name [] none true false).setTerminal h path
         else RouteNode.mk [] name [] none true false)).part = name := by
        rw [ht.1]; split <;> rfl
      simp only [hw, hpa, hpt, Bool.false_eq_true, if_false, if_true, hd, captured]
    | lit _ _ ss hl hrest =>
      obtain ⟨d, hd, hh, hp⟩ := ih ss (RouteNode.mk [] p [] none false false) ps0 rfl hrest
      refine ⟨d, ?_, hh, hp⟩
      have ht := addLoop_triple path h rest
        (if rest = [] then (RouteNode.mk [] p [] none false false).setTerminal h path
         else RouteNode.mk [] p [] none false false)
      simp only [RouteNode.find, RouteNode.withChildren_children, findLoop, classify_literal hl]
      have hw : (addLoop path h rest
        (if rest = [] then (RouteNode.mk [] p [] none false false).setTerminal h path
         else RouteNode.mk [] p [] none false false)).isWild = false := by
        rw [ht.2.2]; split <;> rfl
      have hpa : (addLoop path h rest
        (if rest = [] then (RouteNode.mk [] p [] none false false).setTerminal h path
         else RouteNode.mk [] p [] none false false)).isParam = false := by
        rw [ht.2.1]; split <;> rfl
      have hpt : (addLoop path h rest
        (if rest = [] then (RouteNode.mk [] p [] none false false).setTerminal h path
         else RouteNode.mk [] p [] none false false)).part = p := by
        rw [ht.1]; split <;> rfl
      have hcap := captured_literal hl rest ss ps0 p
      simp only [hw, hpa, hpt, Bool.false_eq_true, if_false, if_true, hd, hcap]

theorem Router.Find_of_lookup_none {r : Router} {m p : Str} (h : r.lookup m p = none) :
    r.Find m p =
      match (match r.router with
             | some root => some (root.find (getPathParts p) GoMap.empty)
             | none => if getPathParts p = [] then some (none, GoMap.empty) else none) with
      | none => none
      | some (node, params) =>
        match node with
        | some node =>
          if node.handler ≠ none then
            match r.lookup m node.path with
            | some matchedRoute => some (matchedRoute.handler, some params)
            | none => some (none, none)
          else some (none, none)
        | none => some (none, none) := by
  unfold Router.lookup at h
  unfold Router.Find Router.lookup
  cases hr : r.routes m with
  | none => simp
  | some inner =>
    simp only [hr, Option.bind] at h
    simp [h]

theorem convertAll_ne_nil {hs : List HandlerArg} {converted : List Handler}
    (hne : hs ≠ []) (hc : convertAll hs = some converted) : converted ≠ [] := by
  intro h0
  subst h0
  cases hs with
  | nil => exact hne rfl
  | cons a rest =>
    simp only [convertAll] at hc
    cases h1 : convertToRouteHandler a with
    | none => simp [h1] at hc
    | some h =>
      cases h2 : convertAll rest <;> simp [h1, h2] at hc

/-- Lookup on a router that holds one route, for a path that the route's
pattern matches and that is not the pattern string itself. -/
theorem find_single_route {m P path : Str} {hs : List HandlerArg} {r : Router}
    (hadd : Router.zero.Add m P hs = Except.ok r) (hne : hs ≠ [])
    (hpat : getPathParts (normalizePath P) ≠ [])
    (hmatch : PatternMatches (getPathParts (normalizePath P)) (getPathParts path))
    (hneq : path ≠ normalizePath P) :
    ∃ converted, convertAll hs = some converted ∧
      r.Find m path = some (some converted,
        some (captured (getPathParts (normalizePath P)) (getPathParts path) GoMap.empty)) := by
  obtain ⟨converted, hc, _, hrt, hl⟩ := Router.Add_ok_inv hadd
  refine ⟨converted, hc, ?_⟩
  have hcne := convertAll_ne_nil hne hc
  have hlen : (Router.zero.middleware ++ converted).length > 0 := by
    cases converted with
    | nil => exact absurd rfl hcne
    | cons a b => simp
  simp only [hlen, if_true] at hrt hl
  have hmiss : r.lookup m path = none := by
    rw [hl]
    simp [hneq, Router.lookup, Router.zero, GoMap.empty]
  rw [Router.Find_of_lookup_none hmiss, hrt]
  obtain ⟨d, hd, hh, hp⟩ := find_fresh_branch (normalizePath P)
    (some (Router.zero.middleware ++ converted)) (getPathParts (normalizePath P))
    (getPathParts path) RouteNode.zero GoMap.empty rfl hmatch
  simp only [hpat, if_false] at hd
  have hz : Router.zero.router.getD RouteNode.zero = RouteNode.zero := rfl
  rw [hz]
  simp only [hd, hh, hp, hl]
  simp [Router.zero]

theorem captured_no_wild {pat parts : List Str} (hm : PatternMatches pat parts)
    (hnw : ∀ p ∈ pat, p.head? ≠ some '*') (hnd : (paramNames pat).Nodup) (m0 : GoMap Str)
    (k v : Str) :
    captured pat parts m0 k = some v ↔
      ((':' :: k, v) ∈ pat.zip parts ∨ (k ∉ paramNames pat ∧ m0 k = some v)) := by
  induction hm generalizing m0 with
  | nil => simp [captured, paramNames]
  | wild name s ss => simp at hnw
  | param name s ps ss hs hrest ih =>
    have hnw' : ∀ p ∈ ps, p.head? ≠ some '*' := fun p hp => hnw p (List.mem_cons_of_mem _ hp)
    simp only [paramNames, List.nodup_cons] at hnd
    rw [captured, ih hnw' hnd.2]
    simp only [List.zip_cons_cons, List.mem_cons, Prod.mk.injEq, List.cons.injEq, true_and,
      paramNames, not_or]
    constructor
    · rintro (h | ⟨h1, h2⟩)
      · exact Or.inl (Or.inr h)
      · by_cases hk : k = name
        · subst hk
          simp only [GoMap.set_same, Option.some.injEq] at h2
          exact Or.inl (Or.inl ⟨rfl, h2.symm⟩)
        · rw [GoMap.set_other _ _ _ _ hk] at h2
          exact Or.inr ⟨⟨hk, h1⟩, h2⟩
    · rintro ((⟨h1, h2⟩ | h) | ⟨⟨h1, h2⟩, h3⟩)
      · subst h1
        subst h2
        exact Or.inr ⟨hnd.1, GoMap.set_same _ _ _⟩
      · exact Or.inl h
      · exact Or.inr ⟨h2, by rw [GoMap.set_other _ _ _ _ h1]; exact h3⟩
  | lit p ps ss hl hrest ih =>
    have hnw' : ∀ q ∈ ps, q.head? ≠ some '*' := fun q hq => hnw q (List.mem_cons_of_mem _ hq)
    have hpn : paramNames (p :: ps) = paramNames ps := by
      cases p with
      | nil => simp [paramNames]
      | cons c cs =>
        simp only [IsLiteral, List.head?_cons, ne_eq, Option.some.injEq] at hl
        conv_lhs => unfold paramNames
        split
        · simp_all
        · simp_all
        · simp_all
    rw [hpn] at hnd ⊢
    rw [captured_literal hl, ih hnw' hnd]
    simp only [List.zip_cons_cons, List.mem_cons, Prod.mk.injEq]
    constructor
    · rintro (h | h)
      · exact Or.inl (Or.inr h)
      · exact Or.inr h
    · rintro ((⟨h1, _⟩ | h) | h)
      · exfalso
        subst h1
        simp [IsLiteral] at hl
      · exact Or.inl h
      · exact Or.inr h

theorem patternMatches_wild_suffix (L ss : List Str) (name : Str) (hl : ∀ l ∈ L, IsLiteral l)
    (hss : ss ≠ []) : PatternMatches (L ++ [('*' :: name)]) (L ++ ss) := by
  induction L with
  | nil =>
    cases ss with
    | nil => exact absurd rfl hss
    | cons s rest => exact PatternMatches.wild name s rest
  | cons l L ih =>
    exact PatternMatches.lit l _ _ (hl l (List.mem_cons_self _ _))
      (ih (fun x hx => hl x (List.mem_cons_of_mem _ hx)))

theorem captured_wild_suffix (L ss : List Str) (name : Str) (hl : ∀ l ∈ L, IsLiteral l)
    (hss : ss ≠ []) (m0 : GoMap Str) :
    captured (L ++ [('*' :: name)]) (L ++ ss) m0 = m0.set ['*'] (stringsJoin ss ['/']) := by
  induction L with
  | nil =>
    cases ss with
    | nil => exact absurd rfl hss
    | cons s rest => simp [captured]
  | cons l L ih =>
    rw [List.cons_append, List.cons_append, captured_literal (hl l (List.mem_cons_self _ _))]
    exact ih (fun x hx => hl x (List.mem_cons_of_mem _ hx))

/-- C2 (amended): on a router holding the single route `(m, P)`, registered
with at least one handler, whose pattern has only literal and distinctly named
`:name` segments, every path that the pattern matches segment by segment and
that is not the normalized pattern string itself resolves to the route's chain
with a parameter map holding exactly the bindings `name_i -> segment_i`. -/
theorem find_single_param_route (m P path : Str) (hs : List HandlerArg) (r : Router)
    (hadd : Router.zero.Add m P hs = Except.ok r) (hne : hs ≠ [])
    (hpat : getPathParts (normalizePath P) ≠ [])
    (hnw : ∀ p ∈ getPathParts (normalizePath P), p.head? ≠ some '*')
    (hnd : (paramNames (getPathParts (normalizePath P))).Nodup)
    (hmatch : PatternMatches (getPathParts (normalizePath P)) (getPathParts path))
    (hneq : path ≠ normalizePath P) :
    ∃ converted ps, convertAll hs = some converted ∧
      r.Find m path = some (some converted, some ps) ∧
      ∀ k v, ps k = some v ↔
        (':' :: k, v) ∈ (getPathParts (normalizePath P)).zip (getPathParts path) := by
  obtain ⟨converted, hc, hf⟩ := find_single_route hadd hne hpat hmatch hneq
  refine ⟨converted, _, hc, hf, ?_⟩
  intro k v
  rw [captured_no_wild hmatch hnw hnd]
  simp [GoMap.empty]

/-- C2 (amended) at `/users/:userID/posts/:postID` against `/users/7/posts/9`. -/
theorem find_single_param_route_witness :
    ∃ converted ps, convertAll [HandlerArg.func hD] = some converted ∧
      (okRouter (Router.zero.Add MethodGet "/users/:userID/posts/:postID".toList
          [HandlerArg.func hD])).Find MethodGet "/users/7/posts/9".toList =
        some (some converted, some ps) ∧
      ∀ k v, ps k = some v ↔
        (':' :: k, v) ∈
          (getPathParts (normalizePath "/users/:userID/posts/:postID".toList)).zip
            (getPathParts "/users/7/posts/9".toList) :=
  find_single_param_route MethodGet "/users/:userID/posts/:postID".toList
    "/users/7/posts/9".toList [HandlerArg.func hD] _ rfl (by decide) (by decide) (by decide)
    (by decide)
    (PatternMatches.lit _ _ _ (by decide)
      (PatternMatches.param _ _ _ _ (by decide)
        (PatternMatches.lit _ _ _ (by decide)
          (PatternMatches.param _ _ _ _ (by decide) PatternMatches.nil))))
    (by decide)

/-- C2 as stated fails when the requested path is the pattern string itself:
`/users/:id` matches its own pattern (the segment `:id` is non-empty), but the
route table answers first and the parameter map is nil, not `{id -> ":id"}`. -/
theorem find_param_route_pattern_string :
    PatternMatches (getPathParts (normalizePath "/users/:id".toList))
        (getPathParts "/users/:id".toList) ∧
      (okRouter (Router.zero.Add MethodGet "/users/:id".toList
          [HandlerArg.func hD])).Find MethodGet "/users/:id".toList =
        some (some [hD], none) :=
  ⟨PatternMatches.lit _ _ _ (by decide) (PatternMatches.param _ _ _ _ (by decide)
    PatternMatches.nil), rfl⟩

/-- C3 (amended): on a router holding the single route `(m, L/*name)`,
registered with at least one handler, every path whose segments are `L`
followed by one or more segments `s1 .. sn`, and that is not the normalized
pattern string itself, resolves to the route's chain with a parameter map whose
only key is `*`, bound to `s1/../sn`. -/
theorem find_single_wildcard_route (m P path name : Str) (L ss : List Str)
    (hs : List HandlerArg) (r : Router)
    (hadd : Router.zero.Add m P hs = Except.ok r) (hne : hs ≠ [])
    (hpat : getPathParts (normalizePath P) = L ++ [('*' :: name)])
    (hlit : ∀ l ∈ L, IsLiteral l)
    (hpath : getPathParts path = L ++ ss) (hss : ss ≠ [])
    (hneq : path ≠ normalizePath P) :
    ∃ converted, convertAll hs = some converted ∧
      r.Find m path =
        some (some converted, some (GoMap.empty.set ['*'] (stringsJoin ss ['/']))) := by
  have hmatch : PatternMatches (getPathParts (normalizePath P)) (getPathParts path) := by
    rw [hpat, hpath]
    exact patternMatches_wild_suffix L ss name hlit hss
  have hpne : getPathParts (normalizePath P) ≠ [] := by
    rw [hpat]
    simp
  obtain ⟨converted, hc, hf⟩ := find_single_route hadd hne hpne hmatch hneq
  refine ⟨converted, hc, ?_⟩
  rw [hf, hpat, hpath, captured_wild_suffix L ss name hlit hss]

/-- C3 (amended) at `/static/*filepath` against `/static/deep/nested/file.txt`. -/
theorem find_single_wildcard_route_witness :
    ∃ converted, convertAll [HandlerArg.func hD] = some converted ∧
      (okRouter (Router.zero.Add MethodGet "/static/*filepath".toList
          [HandlerArg.func hD])).Find MethodGet "/static/deep/nested/file.txt".toList =
        some (some converted, some (GoMap.empty.set ['*']
          (stringsJoin ["deep".toList, "nested".toList, "file.txt".toList] ['/']))) :=
  find_single_wildcard_route MethodGet "/static/*filepath".toList
    "/static/deep/nested/file.txt".toList "filepath".toList ["static".toList]
    ["deep".toList, "nested".toList, "file.txt".toList] [HandlerArg.func hD] _ rfl
    (by decide) (by decide) (by decide) (by decide) (by decide) (by decide)

/-- C3 as stated fails when the single remaining segment is the wildcard
segment of the pattern itself: `/static/*filepath` is `L/s1` with
`s1 = "*filepath"`, but the route table answers first and no `*` binding is
returned (the parameter map is nil). -/
theorem find_wildcard_route_pattern_string :
    getPathParts "/static/*filepath".toList = ["static".toList] ++ ["*filepath".toList] ∧
      (okRouter (Router.zero.Add MethodGet "/static/*filepath".toList
          [HandlerArg.func hD])).Find MethodGet "/static/*filepath".toList =
        some (some [hD], none) :=
  ⟨by decide, rfl⟩

/-! ## Trie invariant lemmas -/

theorem mem_replaceFirst {part : Str} {isParam isWild : Bool} {f : RouteNode → RouteNode}
    {cs : List RouteNode} {x : RouteNode}
    (h : x ∈ replaceFirst part isParam isWild f cs) :
    x ∈ cs ∨ ∃ c ∈ cs, c.triple = (part, isParam, isWild) ∧ x = f c := by
  induction cs with
  | nil => simp [replaceFirst] at h
  | cons c cs ih =>
    simp only [replaceFirst] at h
    split at h
    · rename_i hc
      simp only [List.mem_cons] at h
      rcases h with h | h
      · exact Or.inr ⟨c, List.mem_cons_self _ _, by simp [RouteNode.triple, hc], h⟩
      · exact Or.inl (List.mem_cons_of_mem _ h)
    · simp only [List.mem_cons] at h
      rcases h with h | h
      · exact Or.inl (h ▸ List.mem_cons_self _ _)
      · rcases ih h with h | ⟨c', hc', ht, hx⟩
        · exact Or.inl (List.mem_cons_of_mem _ h)
        · exact Or.inr ⟨c', List.mem_cons_of_mem _ hc', ht, hx⟩

theorem TrieOK.handler_path {pre : List (Str × Bool × Bool)} {n : RouteNode} (h : TrieOK pre n)
    (hh : n.handler ≠ none) : (getPathParts n.path).map classify = pre := by
  cases h with
  | mk _ _ h1 _ => exact h1 hh

theorem TrieOK.child {pre : List (Str × Bool × Bool)} {n : RouteNode} (h : TrieOK pre n)
    {c : RouteNode} (hc : c ∈ n.children) : TrieOK (pre ++ [c.triple]) c := by
  cases h with
  | mk _ _ _ h2 => exact h2 c hc

theorem addLoop_triple_eq (path : Str) (h : Option (List Handler)) (parts : List Str)
    (n : RouteNode) : (addLoop path h parts n).triple = n.triple := by
  obtain ⟨h1, h2, h3⟩ := addLoop_triple path h parts n
  simp [RouteNode.triple, h1, h2, h3]

/-- One round of the loop of `Add` keeps the invariant, given that the rest of
the loop does so below the child it visits. -/
theorem addLoop_step_ok (path : Str) (h : Option (List Handler)) (p : Str) (rest : List Str)
    (hrest : ∀ pre c, TrieOK pre c →
      pre ++ rest.map classify = (getPathParts path).map classify →
      TrieOK pre (addLoop path h rest (if rest = [] then c.setTerminal h path else c)))
    (pre : List (Str × Bool × Bool)) (n : RouteNode) (hn : TrieOK pre n)
    (hfull : pre ++ (p :: rest).map classify = (getPathParts path).map classify) :
    TrieOK pre (addLoop path h (p :: rest) n) := by
  have hfull' : (pre ++ [classify p]) ++ rest.map classify =
      (getPathParts path).map classify := by
    rw [← hfull]
    simp
  simp only [addLoop]
  split
  · -- a new child is appended
    refine TrieOK.mk _ _ (fun hh => hn.handler_path hh) ?_
    intro c hc
    simp only [RouteNode.withChildren_children, List.mem_append, List.mem_singleton] at hc
    rcases hc with hc | hc
    · exact hn.child hc
    · subst hc
      rw [addLoop_triple_eq]
      have hnew : TrieOK (pre ++ [classify p])
          (RouteNode.mk [] (classify p).1 [] none (classify p).2.1 (classify p).2.2) :=
        TrieOK.mk _ _ (fun hh => absurd rfl hh) (fun c hc => by simp [RouteNode.children] at hc)
      have ht : (if rest = [] then
          (RouteNode.mk [] (classify p).1 [] none (classify p).2.1 (classify p).2.2).setTerminal
            h path
          else RouteNode.mk [] (classify p).1 [] none (classify p).2.1 (classify p).2.2).triple =
          classify p := by
        split <;> rfl
      rw [ht]
      exact hrest _ _ hnew hfull'
  · -- an existing child is visited
    refine TrieOK.mk _ _ (fun hh => hn.handler_path hh) ?_
    intro c hc
    simp only [RouteNode.withChildren_children] at hc
    rcases mem_replaceFirst hc with hc | ⟨c0, hc0, ht0, hx⟩
    · exact hn.child hc
    · subst hx
      have ht1 : c0.triple = classify p := ht0
      rw [addLoop_triple_eq]
      have ht : (if rest = [] then c0.setTerminal h path else c0).triple = classify p := by
        rw [← ht1]
        split <;> rfl
      rw [ht]
      have h0 := hn.child hc0
      rw [ht1] at h0
      exact hrest _ _ h0 hfull'

theorem addLoop_visit_ok (path : Str) (h : Option (List Handler)) :
    ∀ (rest : List Str) (pre : List (Str × Bool × Bool)) (c : RouteNode), TrieOK pre c →
      pre ++ rest.map classify = (getPathParts path).map classify →
      TrieOK pre (addLoop path h rest (if rest = [] then c.setTerminal h path else c)) := by
  intro rest
  induction rest with
  | nil =>
    intro pre c hc hfull
    simp only [if_true, addLoop]
    simp only [List.map_nil, List.append_nil] at hfull
    exact TrieOK.mk _ _ (fun _ => by simp only [RouteNode.setTerminal_path]; exact hfull.symm)
      (fun x hx => hc.child hx)
  | cons p rest ih =>
    intro pre c hc hfull
    simp only [reduceCtorEq, if_false]
    exact addLoop_step_ok path h p rest ih pre c hc hfull

theorem addLoop_ok (path : Str) (h : Option (List Handler)) (n : RouteNode)
    (hn : TrieOK [] n) : TrieOK [] (addLoop path h (getPathParts path) n) := by
  cases hp : getPathParts path with
  | nil => simpa [addLoop] using hn
  | cons p rest =>
    exact addLoop_step_ok path h p rest (addLoop_visit_ok path h rest) [] n hn (by simp [hp])

theorem TrieOK_zero : TrieOK [] RouteNode.zero :=
  TrieOK.mk _ _ (fun hh => absurd rfl hh) (fun c hc => by simp [RouteNode.zero, RouteNode.children] at hc)

theorem Router.step_TrieInv {r r1 : Router} {op : RouterOp} (h : r.step op = some r1)
    (hr : r.TrieInv) : r1.TrieInv := by
  cases op with
  | use mw =>
    simp only [Router.step, Option.some.injEq] at h
    subst h
    exact hr
  | add m p hs =>
    simp only [Router.step] at h
    cases hadd : r.Add m p hs with
    | error e => simp [hadd] at h
    | ok r2 =>
      simp only [hadd, Option.some.injEq] at h
      subst h
      obtain ⟨_, _, _, hrt, _⟩ := Router.Add_ok_inv hadd
      intro root hroot
      rw [hrt] at hroot
      injection hroot with hroot
      subst hroot
      apply addLoop_ok
      cases hrr : r.router with
      | none => exact TrieOK_zero
      | some root0 => exact hr root0 hrr

theorem Router.run_TrieInv {ops : List RouterOp} {r r1 : Router} (h : r.run ops = some r1)
    (hr : r.TrieInv) : r1.TrieInv := by
  induction ops generalizing r with
  | nil =>
    simp only [Router.run, Option.some.injEq] at h
    subst h
    exact hr
  | cons op rest ih =>
    simp only [Router.run] at h
    cases hs : r.step op with
    | none => simp [hs] at h
    | some r2 =>
      simp only [hs] at h
      exact ih h (Router.step_TrieInv hs hr)

/-! ## Soundness of the trie walk -/

theorem findLoop_some {descend : RouteNode → GoMap Str → Option RouteNode × GoMap Str}
    {part : Str} {parts : List Str} {cs : List RouteNode} {ps0 ps : GoMap Str} {d : RouteNode}
    (h : findLoop descend part parts cs ps0 = (some d, ps)) :
    ∃ c ∈ cs, (c.isWild = true ∧ d = c) ∨
      (c.isWild = false ∧ c.isParam = true ∧ ∃ ps1 ps2, descend c ps1 = (some d, ps2)) ∨
      (c.isWild = false ∧ c.isParam = false ∧ c.part = part ∧
        ∃ ps1 ps2, descend c ps1 = (some d, ps2)) := by
  induction cs generalizing ps0 with
  | nil => simp [findLoop] at h
  | cons c cs ih =>
    have lift : (∃ c' ∈ cs, (c'.isWild = true ∧ d = c') ∨
        (c'.isWild = false ∧ c'.isParam = true ∧ ∃ ps1 ps2, descend c' ps1 = (some d, ps2)) ∨
        (c'.isWild = false ∧ c'.isParam = false ∧ c'.part = part ∧
          ∃ ps1 ps2, descend c' ps1 = (some d, ps2))) →
        ∃ c' ∈ c :: cs, (c'.isWild = true ∧ d = c') ∨
        (c'.isWild = false ∧ c'.isParam = true ∧ ∃ ps1 ps2, descend c' ps1 = (some d, ps2)) ∨
        (c'.isWild = false ∧ c'.isParam = false ∧ c'.part = part ∧
          ∃ ps1 ps2, descend c' ps1 = (some d, ps2)) := by
      rintro ⟨c', hc', hor⟩
      exact ⟨c', List.mem_cons_of_mem _ hc', hor⟩
    simp only [findLoop] at h
    by_cases hw : c.isWild = true
    · simp only [hw, if_true, Prod.mk.injEq, Option.some.injEq] at h
      exact ⟨c, List.mem_cons_self _ _, Or.inl ⟨hw, h.1.symm⟩⟩
    · have hw' : c.isWild = false := by simpa using hw
      simp only [hw', Bool.false_eq_true, if_false] at h
      by_cases hp : c.isParam = true
      · simp only [hp, if_true] at h
        cases hd : descend c (ps0.set c.part part) with
        | mk o ps1 =>
          cases o with
          | some m =>
            simp only [hd, Prod.mk.injEq, Option.some.injEq] at h
            exact ⟨c, List.mem_cons_self _ _, Or.inr (Or.inl ⟨hw', hp, _, _, h.1 ▸ hd⟩)⟩
          | none =>
            simp only [hd] at h
            exact lift (ih h)
      · have hp' : c.isParam = false := by simpa using hp
        simp only [hp', Bool.false_eq_true, if_false] at h
        by_cases he : c.part = part
        · simp only [he, if_true] at h
          cases hd : descend c ps0 with
          | mk o ps1 =>
            cases o with
            | some m =>
              simp only [hd, Prod.mk.injEq, Option.some.injEq] at h
              exact ⟨c, List.mem_cons_self _ _,
                Or.inr (Or.inr ⟨hw', hp', he, _, _, h.1 ▸ hd⟩)⟩
            | none =>
              simp only [hd] at h
              exact lift (ih h)
        · simp only [he, if_false] at h
          exact lift (ih h)

theorem find_sound_triples :
    ∀ (parts : List Str) (pre : List (Str × Bool × Bool)) (n : RouteNode)
      (ps0 ps : GoMap Str) (d : RouteNode),
      TrieOK pre n → n.find parts ps0 = (some d, ps) →
      ∃ τ, TrieOK (pre ++ τ) d ∧ TripleMatches τ parts := by
  intro parts
  induction parts with
  | nil =>
    intro pre n ps0 ps d hn hf
    simp only [RouteNode.find, Prod.mk.injEq, Option.some.injEq] at hf
    exact ⟨[], by rw [List.append_nil, ← hf.1]; exact hn, TripleMatches.nil⟩
  | cons s ss ih =>
    intro pre n ps0 ps d hn hf
    simp only [RouteNode.find] at hf
    obtain ⟨c, hc, hor⟩ := findLoop_some hf
    have hcok := hn.child hc
    rcases hor with ⟨hw, hd⟩ | ⟨hw, hp, ps1, ps2, hd⟩ | ⟨hw, hp, he, ps1, ps2, hd⟩
    · subst hd
      exact ⟨[d.triple], hcok, TripleMatches.wild _ _ _ hw⟩
    · obtain ⟨τ, hτ, hm⟩ := ih _ c ps1 ps2 d hcok hd
      refine ⟨c.triple :: τ, ?_, TripleMatches.param _ _ _ _ hw hp hm⟩
      simpa using hτ
    · obtain ⟨τ, hτ, hm⟩ := ih _ c ps1 ps2 d hcok hd
      refine ⟨c.triple :: τ, ?_, TripleMatches.lit _ _ _ _ hw hp he hm⟩
      simpa using hτ

theorem classify_isWild {p : Str} (h : (classify p).2.2 = true) : ∃ name, p = '*' :: name := by
  unfold classify at h
  split at h
  · simp at h
  · exact ⟨_, rfl⟩
  · simp at h

theorem classify_isParam {p : Str} (h : (classify p).2.1 = true) : ∃ name, p = ':' :: name := by
  unfold classify at h
  split at h
  · exact ⟨_, rfl⟩
  · simp at h
  · simp at h

theorem classify_plain {p : Str} (h1 : (classify p).2.1 = false) (h2 : (classify p).2.2 = false) :
    IsLiteral p ∧ (classify p).1 = p := by
  unfold classify at h1 h2 ⊢
  split at h1
  · simp at h1
  · simp at h2
  · rename_i hx hy
    refine ⟨⟨?_, ?_⟩, rfl⟩
    · intro hh
      cases p with
      | nil => simp at hh
      | cons c cs =>
        simp only [List.head?_cons, Option.some.injEq] at hh
        subst hh
        exact hx _ rfl
    · intro hh
      cases p with
      | nil => simp at hh
      | cons c cs =>
        simp only [List.head?_cons, Option.some.injEq] at hh
        subst hh
        exact hy _ rfl

theorem patternMatches_of_triples_aux {τ : List (Str × Bool × Bool)} {parts : List Str}
    (h : TripleMatches τ parts) :
    ∀ pat : List Str, pat.map classify = τ → (∀ s ∈ parts, s ≠ []) →
      PatternMatches pat parts := by
  induction h with
  | nil =>
    intro pat hpat _
    cases pat with
    | nil => exact PatternMatches.nil
    | cons a b => simp at hpat
  | wild t s ss hw =>
    intro pat hpat _
    cases pat with
    | nil => simp at hpat
    | cons p ps =>
      simp only [List.map_cons, List.cons.injEq, List.map_eq_nil_iff] at hpat
      obtain ⟨hp, hps⟩ := hpat
      subst hps
      subst hp
      obtain ⟨name, hp⟩ := classify_isWild hw
      subst hp
      exact PatternMatches.wild _ _ _
  | param t τ s ss hw hp _ ih =>
    intro pat hpat hne
    cases pat with
    | nil => simp at hpat
    | cons p ps =>
      simp only [List.map_cons, List.cons.injEq] at hpat
      obtain ⟨hpt, hps⟩ := hpat
      subst hpt
      obtain ⟨name, hpe⟩ := classify_isParam hp
      subst hpe
      exact PatternMatches.param _ _ _ _ (hne s (List.mem_cons_self _ _))
        (ih ps hps (fun x hx => hne x (List.mem_cons_of_mem _ hx)))
  | lit t τ s ss hw hp he _ ih =>
    intro pat hpat hne
    cases pat with
    | nil => simp at hpat
    | cons p ps =>
      simp only [List.map_cons, List.cons.injEq] at hpat
      obtain ⟨hpt, hps⟩ := hpat
      subst hpt
      obtain ⟨hl, h1⟩ := classify_plain hp hw
      rw [h1] at he
      subst he
      exact PatternMatches.lit _ _ _ hl
        (ih ps hps (fun x hx => hne x (List.mem_cons_of_mem _ hx)))

/-! ## Tokenizer: segments are non-empty -/

theorem slice_ne_nil {path : Str} {lo hi : Nat} (h1 : lo < hi) (h2 : hi ≤ path.length) :
    slice path lo hi ≠ [] := by
  intro h
  have hl : (slice path lo hi).length = 0 := by rw [h]; rfl
  simp only [slice, List.length_drop, List.length_take] at hl
  omega

theorem getPathPartsLoop_nonempty (path : Str) :
    ∀ (rest : List Char) (i start : Nat) (parts : List Str),
      path.drop i = rest → (∀ x ∈ parts, x ≠ []) →
      ∀ x ∈ (getPathPartsLoop path rest i start parts).2, x ≠ [] := by
  intro rest
  induction rest with
  | nil =>
    intro i start parts _ hparts
    simpa [getPathPartsLoop] using hparts
  | cons ch rest ih =>
    intro i start parts hdrop hparts
    have hi : i < path.length := by
      by_contra hge
      rw [List.drop_of_length_le (by omega)] at hdrop
      simp at hdrop
    have hnext : path.drop (i + 1) = rest := by
      rw [← List.tail_drop, hdrop]
      rfl
    simp only [getPathPartsLoop]
    split
    · apply ih _ _ _ hnext
      split
      · rename_i hgt
        intro x hx
        simp only [List.mem_append, List.mem_singleton] at hx
        rcases hx with hx | hx
        · exact hparts x hx
        · subst hx
          exact slice_ne_nil hgt (by omega)
      · exact hparts
    · exact ih _ _ _ hnext hparts

theorem getPathParts_nonempty (path : Str) : ∀ x ∈ getPathParts path, x ≠ [] := by
  unfold getPathParts
  by_cases h0 : path = [] ∨ path = ['/']
  · simp [h0]
  · simp only [h0, if_false]
    generalize (if path.head? = some '/' then 1 else 0) = st
    have hloop := getPathPartsLoop_nonempty path (path.drop st) st st [] rfl (by simp)
    cases hres : getPathPartsLoop path (path.drop st) st st [] with
    | mk s1 p1 =>
      rw [hres] at hloop
      simp only
      split
      · rename_i hlt
        intro x hx
        simp only [List.mem_append, List.mem_singleton] at hx
        rcases hx with hx | hx
        · exact hloop x hx
        · subst hx
          exact slice_ne_nil hlt (le_refl _)
      · exact hloop

/-! ## The route table records the latest registration -/

theorem composeChain_of_convertAll {mw : List Handler} {hs : List HandlerArg}
    {converted : List Handler} (h : convertAll hs = some converted) :
    composeChain mw hs =
      if (mw ++ converted).length > 0 then some (mw ++ converted) else none := by
  simp [composeChain, h]

theorem Router.run_lastRegistered {ops : List RouterOp} {r r1 : Router}
    (h : r.run ops = some r1) (m P : Str) :
    (r1.lookup m P).map (fun route => route.handler) =
      lastRegistered m P ops r.middleware ((r.lookup m P).map (fun route => route.handler)) := by
  induction ops generalizing r with
  | nil =>
    simp only [Router.run, Option.some.injEq] at h
    subst h
    rfl
  | cons op rest ih =>
    simp only [Router.run] at h
    cases hs : r.step op with
    | none => simp [hs] at h
    | some r2 =>
      simp only [hs] at h
      rw [ih h]
      cases op with
      | use mw =>
        simp only [Router.step, Option.some.injEq] at hs
        subst hs
        rfl
      | add m' p' hs' =>
        simp only [Router.step] at hs
        cases hadd : r.Add m' p' hs' with
        | error e => simp [hadd] at hs
        | ok r3 =>
          simp only [hadd, Option.some.injEq] at hs
          subst hs
          obtain ⟨converted, hc, hmw, _, hl⟩ := Router.Add_ok_inv hadd
          rw [hmw, hl]
          simp only [lastRegistered, composeChain_of_convertAll hc]
          by_cases hk : m' = m ∧ normalizePath p' = P
          · obtain ⟨hk1, hk2⟩ := hk
            subst hk1
            subst hk2
            simp
          · have hk' : ¬ (m = m' ∧ P = normalizePath p') := fun hh => hk ⟨hh.1.symm, hh.2.symm⟩
            simp only [if_neg hk, if_neg hk']

theorem lastRegistered_some {m P : Str} {ops : List RouterOp} {mw : List Handler}
    {x : Option (List Handler)} (h : lastRegistered m P ops mw none = some x) :
    ∃ p hs, RouterOp.add m p hs ∈ ops ∧ normalizePath p = P := by
  have key : ∀ (ops : List RouterOp) (mw : List Handler) (acc : Option (Option (List Handler))),
      lastRegistered m P ops mw acc = some x →
      acc = some x ∨ ∃ p hs, RouterOp.add m p hs ∈ ops ∧ normalizePath p = P := by
    intro ops
    induction ops with
    | nil =>
      intro mw acc h
      exact Or.inl h
    | cons op rest ih =>
      intro mw acc h
      cases op with
      | use mws =>
        simp only [lastRegistered] at h
        rcases ih _ _ h with h1 | ⟨p, hs, hmem, hp⟩
        · exact Or.inl h1
        · exact Or.inr ⟨p, hs, List.mem_cons_of_mem _ hmem, hp⟩
      | add m' p' hs' =>
        simp only [lastRegistered] at h
        split at h
        · rename_i hk
          obtain ⟨hk1, hk2⟩ := hk
          subst hk1
          exact Or.inr ⟨p', hs', List.mem_cons_self _ _, hk2⟩
        · rcases ih _ _ h with h1 | ⟨p, hs, hmem, hp⟩
          · exact Or.inl h1
          · exact Or.inr ⟨p, hs, List.mem_cons_of_mem _ hmem, hp⟩
  rcases key ops mw none h with h1 | h1
  · simp at h1
  · exact h1

theorem Router.step_router_some {r r1 : Router} {op : RouterOp} (h : r.step op = some r1)
    (hr : r.router ≠ none ∨ ∃ m p hs, op = RouterOp.add m p hs) : r1.router ≠ none := by
  cases op with
  | use mw =>
    simp only [Router.step, Option.some.injEq] at h
    subst h
    rcases hr with hr | ⟨_, _, _, hr⟩
    · exact hr
    · simp at hr
  | add m p hs =>
    simp only [Router.step] at h
    cases hadd : r.Add m p hs with
    | error e => simp [hadd] at h
    | ok r2 =>
      simp only [hadd, Option.some.injEq] at h
      subst h
      obtain ⟨_, _, _, hrt, _⟩ := Router.Add_ok_inv hadd
      rw [hrt]
      simp

theorem Router.run_router_some {ops : List RouterOp} {r r1 : Router} (h : r.run ops = some r1)
    (hr : r.router ≠ none ∨ ∃ m p hs, RouterOp.add m p hs ∈ ops) : r1.router ≠ none := by
  induction ops generalizing r with
  | nil =>
    simp only [Router.run, Option.some.injEq] at h
    subst h
    rcases hr with hr | ⟨_, _, _, hr⟩
    · exact hr
    · simp at hr
  | cons op rest ih =>
    simp only [Router.run] at h
    cases hs : r.step op with
    | none => simp [hs] at h
    | some r2 =>
      simp only [hs] at h
      apply ih h
      rcases hr with hr | ⟨m, p, hs', hmem⟩
      · exact Or.inl (Router.step_router_some hs (Or.inl hr))
      · simp only [List.mem_cons] at hmem
        rcases hmem with hmem | hmem
        · exact Or.inl (Router.step_router_some hs (Or.inr ⟨m, p, hs', hmem.symm⟩))
        · exact Or.inr ⟨m, p, hs', hmem⟩

theorem Outcome.Ends.all {P : Run → Prop} {o : Outcome} (h : o.Ends P) : o.All P := by
  cases o with
  | ok s => exact h
  | panic s => exact h
  | outOfFuel => trivial

theorem Outcome.ends_mono {P Q : Run → Prop} {o : Outcome} (h : o.Ends P)
    (hPQ : ∀ s, P s → Q s) : o.Ends Q := by
  cases o with
  | ok s => exact hPQ s h
  | panic s => exact hPQ s h
  | outOfFuel => exact h

theorem Outcome.all_mono {P Q : Run → Prop} {o : Outcome} (h : o.All P)
    (hPQ : ∀ s, P s → Q s) : o.All Q := by
  cases o with
  | ok s => exact hPQ s h
  | panic s => exact hPQ s h
  | outOfFuel => trivial

theorem runBody_ends {P : Run → Prop} {A : Op → Prop} {f : Run → Outcome}
    (hops : OpsPreserve P A) (hnext : ∀ s, P s → (f s).Ends P) :
    ∀ (body : List Op) (s : Run), (∀ op ∈ body, A op) → P s → (runBody f body s).Ends P := by
  intro body
  induction body with
  | nil =>
    intro s _ hs
    exact hs
  | cons op rest ih =>
    intro s hA hs
    have h1 : (runOp f op s).Ends P := by
      by_cases hop : op = Op.next
      · subst hop
        exact hnext s hs
      · exact hops f op s (hA op (List.mem_cons_self _ _)) hop hs
    simp only [runBody]
    cases hr : runOp f op s with
    | ok s1 =>
      rw [hr] at h1
      exact ih s1 (fun o ho => hA o (List.mem_cons_of_mem _ ho)) h1
    | panic s1 =>
      rw [hr] at h1
      exact h1
    | outOfFuel =>
      rw [hr] at h1
      exact h1

theorem runBody_all {P : Run → Prop} {A : Op → Prop} {next : Run → Outcome}
    (hops : OpsPreserve P A) (hnext : ∀ s, P s → (next s).All P) :
    ∀ (body : List Op) (s : Run), (∀ op ∈ body, A op) → P s → (runBody next body s).All P := by
  intro body
  induction body with
  | nil =>
    intro s _ hs
    exact hs
  | cons op rest ih =>
    intro s hA hs
    have h1 : (runOp next op s).All P := by
      by_cases hop : op = Op.next
      · subst hop
        exact hnext s hs
      · exact (hops next op s (hA op (List.mem_cons_self _ _)) hop hs).all
    simp only [runBody]
    cases hr : runOp next op s with
    | ok s1 =>
      rw [hr] at h1
      exact ih s1 (fun o ho => hA o (List.mem_cons_of_mem _ ho)) h1
    | panic s1 =>
      rw [hr] at h1
      exact h1
    | outOfFuel => trivial

theorem Context.nextBody_all {P : Run → Prop} {A : Op → Prop}
    (hops : OpsPreserve P A) (hH : ∀ s, P s → HandlersIn A s)
    (hidx : ∀ s : Run, P s → P { s with ctx := { s.ctx with index := s.ctx.index + 1 } })
    (hrec : ∀ (s : Run) (h : Handler), P s →
      P { s with invoked := s.invoked ++ [⟨h, s.ctx.written, true⟩] })
    (next : Option (Run → Outcome)) (hnext : ∀ f, next = some f → ∀ s, P s → (f s).All P)
    (s : Run) (hs : P s) : (Context.nextBody next s).All P := by
  have h1 := hidx s hs
  unfold Context.nextBody
  simp only
  split
  · split
    · rename_i h hget _
      cases next with
      | none => trivial
      | some f =>
        simp only [callHandler]
        apply runBody_all hops (hnext f rfl)
        · exact hH _ h1 h (List.get?_mem hget)
        · exact hrec _ h h1
    · exact h1
  · exact h1

theorem Context.Next_all {P : Run → Prop} {A : Op → Prop}
    (hops : OpsPreserve P A) (hH : ∀ s, P s → HandlersIn A s)
    (hidx : ∀ s : Run, P s → P { s with ctx := { s.ctx with index := s.ctx.index + 1 } })
    (hrec : ∀ (s : Run) (h : Handler), P s →
      P { s with invoked := s.invoked ++ [⟨h, s.ctx.written, true⟩] }) :
    ∀ (fuel : Nat) (s : Run), P s → (Context.Next fuel s).All P := by
  intro fuel
  induction fuel with
  | zero =>
    intro s hs
    exact Context.nextBody_all hops hH hidx hrec none (fun f hf => by simp at hf) s hs
  | succ fuel ih =>
    intro s hs
    exact Context.nextBody_all hops hH hidx hrec (some (Context.Next fuel))
      (fun f hf => by
        simp only [Option.some.injEq] at hf
        subst hf
        exact ih) s hs

theorem chain_all {P : Run → Prop} {call : Handler → Run → Outcome}
    (hcall : ∀ h s, P s → (call h s).All P) :
    ∀ (hs : List Handler) (s : Run), P s → (chain call hs s).All P := by
  intro hs
  induction hs with
  | nil =>
    intro s h
    exact h
  | cons h rest ih =>
    intro s hP
    have h1 := hcall h s hP
    simp only [chain]
    cases hr : call h s with
    | ok s1 =>
      rw [hr] at h1
      simp only
      by_cases hw : s1.ctx.written = true
      · simpa [hw] using h1
      · simpa [hw] using ih s1 h1
    | panic s1 =>
      rw [hr] at h1
      exact h1
    | outOfFuel => trivial

/-! ## What the Context calls do -/

theorem Context.Send_written {c : Context} (data : Value) (h : c.written = true) :
    c.Send data = Except.ok (some SendErr.responseAlreadySent, c) := by
  simp [Context.Send, h]

theorem Context.JSON_written {c : Context} (data : Value) (h : c.written = true) :
    c.JSON data = Except.ok (some SendErr.responseAlreadySent, c) := by
  simp [Context.JSON, h]

theorem Sink.WriteHeader_some {w w2 : Sink} {code : Int} (h : w.WriteHeader code = some w2) :
    w2 = w ++ [SinkEvent.writeHeader code] := by
  unfold Sink.WriteHeader at h
  split at h
  · simp only [Option.some.injEq] at h
    exact h.symm
  · simp at h

theorem Sink.WriteHeader_valid (w : Sink) {code : Int} (h : 100 ≤ code ∧ code ≤ 999) :
    w.WriteHeader code = some (w ++ [SinkEvent.writeHeader code]) := by
  unfold Sink.WriteHeader
  rw [if_pos (Or.inr h)]

theorem Sink.WriteHeader_invalid {w : Sink} {code : Int} (hw : w.wroteHeader = false)
    (h : ¬ (100 ≤ code ∧ code ≤ 999)) : w.WriteHeader code = none := by
  unfold Sink.WriteHeader
  rw [if_neg]
  rintro (h1 | h1)
  · rw [hw] at h1
    simp at h1
  · exact h h1

theorem Except.error_or_ok {α β : Type} (x : Except α (β × α)) :
    ∃ c1, x = Except.error c1 ∨ ∃ e, x = Except.ok (e, c1) := by
  cases x with
  | error c1 => exact ⟨c1, Or.inl rfl⟩
  | ok p => exact ⟨p.2, Or.inr ⟨p.1, rfl⟩⟩

theorem encodeTo_appends (w : Sink) (data : Value) : ∃ evs, (encodeTo w data).2 = w ++ evs := by
  unfold encodeTo
  split
  · exact ⟨_, rfl⟩
  · exact ⟨[], by simp⟩

theorem Context.Send_result {c c1 : Context} (data : Value) (h : c.written = false)
    (hor : c.Send data = Except.error c1 ∨ ∃ e, c.Send data = Except.ok (e, c1)) :
    c.Wrote c1 := by
  cases c with
  | mk R Rq PP QP M wr hs ix St st sv =>
    simp only at h
    subst h
    unfold Context.Send at hor
    simp only [Context.defaultStatus, Bool.false_eq_true, if_false] at hor
    cases R with
    | none =>
      simp only [Except.error.injEq, reduceCtorEq, exists_false, or_false] at hor
      subst hor
      exact ⟨rfl, rfl, rfl, rfl, rfl, rfl, [], rfl⟩
    | some w =>
      cases data with
      | mk shape json =>
        cases shape <;> simp only at hor <;> split at hor <;>
          simp only [Except.error.injEq, Except.ok.injEq, Prod.mk.injEq, reduceCtorEq,
            exists_false, or_false, false_or, exists_and_left, exists_eq_left'] at hor <;>
          subst hor
        · exact ⟨rfl, rfl, rfl, rfl, rfl, rfl, _, rfl⟩
        · rename_i hwh
          rw [Sink.WriteHeader_some hwh]
          exact ⟨rfl, rfl, rfl, rfl, rfl, rfl, _, by
            simp only [Option.map_some', List.append_assoc]; rfl⟩
        · exact ⟨rfl, rfl, rfl, rfl, rfl, rfl, _, rfl⟩
        · rename_i hwh
          rw [Sink.WriteHeader_some hwh]
          exact ⟨rfl, rfl, rfl, rfl, rfl, rfl, _, by
            simp only [Option.map_some', List.append_assoc]; rfl⟩
        · exact ⟨rfl, rfl, rfl, rfl, rfl, rfl, [], by simp⟩
        · rename_i hwh
          rw [Sink.WriteHeader_some hwh]
          exact ⟨rfl, rfl, rfl, rfl, rfl, rfl, _, rfl⟩
        · exact ⟨rfl, rfl, rfl, rfl, rfl, rfl, _, rfl⟩
        · rename_i hwh
          rw [Sink.WriteHeader_some hwh]
          obtain ⟨evs, hevs⟩ := encodeTo_appends (w ++
            [SinkEvent.setHeader "Content-Type".toList "application/json; charset=utf-8".toList] ++
            [SinkEvent.writeHeader (if st = 0 then 200 else st)]) ⟨Shape.other, json⟩
          exact ⟨rfl, rfl, rfl, rfl, rfl, rfl, _, by
            rw [hevs]; simp only [Option.map_some', List.append_assoc]; rfl⟩

theorem Context.Send_unwritten {c : Context} (data : Value) (h : c.written = false) :
    ∃ c1, c.Wrote c1 ∧
      (c.Send data = Except.error c1 ∨ ∃ e, c.Send data = Except.ok (e, c1)) := by
  obtain ⟨c1, hor⟩ := Except.error_or_ok (c.Send data)
  exact ⟨c1, Context.Send_result data h hor, hor⟩

theorem Context.JSON_result {c c1 : Context} (data : Value) (h : c.written = false)
    (hor : c.JSON data = Except.error c1 ∨ ∃ e, c.JSON data = Except.ok (e, c1)) :
    c.Wrote c1 := by
  cases c with
  | mk R Rq PP QP M wr hs ix St st sv =>
    simp only at h
    subst h
    unfold Context.JSON at hor
    simp only [Context.defaultStatus, Bool.false_eq_true, if_false] at hor
    cases R with
    | none =>
      simp only [Except.error.injEq, reduceCtorEq, exists_false, or_false] at hor
      subst hor
      exact ⟨rfl, rfl, rfl, rfl, rfl, rfl, [], rfl⟩
    | some w =>
      simp only at hor
      split at hor
      · simp only [Except.error.injEq, reduceCtorEq, exists_false, or_false] at hor
        subst hor
        exact ⟨rfl, rfl, rfl, rfl, rfl, rfl, _, rfl⟩
      · rename_i w2 hwh
        rw [Sink.WriteHeader_some hwh] at hor
        split at hor
        · simp only [Except.ok.injEq, Prod.mk.injEq, reduceCtorEq, false_or, exists_and_left,
            exists_eq_left'] at hor
          subst hor
          exact ⟨rfl, rfl, rfl, rfl, rfl, rfl, _, by
            simp only [Option.map_some', List.append_assoc]; rfl⟩
        · simp only [Except.ok.injEq, Prod.mk.injEq, reduceCtorEq, false_or, exists_and_left,
            exists_eq_left'] at hor
          subst hor
          obtain ⟨evs, hevs⟩ := encodeTo_appends (w ++
            [SinkEvent.setHeader "Content-Type".toList "application/json; charset=utf-8".toList,
             SinkEvent.setHeader "X-Content-Type-Options".toList "nosniff".toList] ++
            [SinkEvent.writeHeader (if st = 0 then 200 else st)]) data
          exact ⟨rfl, rfl, rfl, rfl, rfl, rfl, _, by
            rw [hevs]; simp only [Option.map_some', List.append_assoc]; rfl⟩

theorem Context.JSON_unwritten {c : Context} (data : Value) (h : c.written = false) :
    ∃ c1, c.Wrote c1 ∧
      (c.JSON data = Except.error c1 ∨ ∃ e, c.JSON data = Except.ok (e, c1)) := by
  obtain ⟨c1, hor⟩ := Except.error_or_ok (c.JSON data)
  exact ⟨c1, Context.JSON_result data h hor, hor⟩

theorem Context.HTML_wrote (c : Context) (data : Str) :
    ∃ c1, c.Wrote c1 ∧
      (c.HTML data = Except.error c1 ∨ c.HTML data = Except.ok (none, c1)) := by
  cases c with
  | mk R Rq PP QP M wr hs ix St st sv =>
    unfold Context.HTML
    simp only [Context.defaultStatus]
    cases R with
    | none =>
      refine ⟨_, ?_, Or.inl rfl⟩
      exact ⟨rfl, rfl, rfl, rfl, rfl, rfl, [], rfl⟩
    | some w =>
      simp only
      cases hwh : Sink.WriteHeader (w ++
          [SinkEvent.setHeader "Content-Type".toList "text/html; charset=utf-8".toList])
          (if st = 0 then 200 else st) with
      | none =>
        refine ⟨_, ?_, Or.inl rfl⟩
        exact ⟨rfl, rfl, rfl, rfl, rfl, rfl, _, rfl⟩
      | some w2 =>
        refine ⟨_, ?_, Or.inr rfl⟩
        rw [Sink.WriteHeader_some hwh]
        exact ⟨rfl, rfl, rfl, rfl, rfl, rfl, _, by
          simp only [Option.map_some', List.append_assoc]; rfl⟩

theorem Context.Static_wrote (c : Context) (filepath : Str) :
    ∃ c1, c.Wrote c1 ∧
      ((c.Response = none ∧ c.Static filepath = Except.error c1) ∨
        (c.Response ≠ none ∧ c.Static filepath = Except.ok (none, c1))) := by
  cases c with
  | mk R Rq PP QP M wr hs ix St st sv =>
    cases R with
    | none =>
      refine ⟨_, ?_, Or.inl ⟨rfl, rfl⟩⟩
      exact ⟨rfl, rfl, rfl, rfl, rfl, rfl, [], rfl⟩
    | some w =>
      refine ⟨_, ?_, Or.inr ⟨by simp, rfl⟩⟩
      exact ⟨rfl, rfl, rfl, rfl, rfl, rfl, _, rfl⟩

theorem runOp_effect (next : Run → Outcome) (op : Op) (s : Run) (hne : op ≠ Op.next) :
    ∃ c1, OpEffect op s.ctx c1 ∧
      (runOp next op s = Outcome.ok { s with ctx := c1 } ∨
        runOp next op s = Outcome.panic { s with ctx := c1 }) := by
  cases op with
  | next => exact absurd rfl hne
  | status code => exact ⟨_, rfl, Or.inl rfl⟩
  | set key value => exact ⟨_, rfl, Or.inl rfl⟩
  | service name =>
    refine ⟨s.ctx, rfl, ?_⟩
    simp only [runOp]
    split
    · exact Or.inl rfl
    · exact Or.inr rfl
  | send data =>
    by_cases hw : s.ctx.written = true
    · exact ⟨s.ctx, Or.inl ⟨hw, rfl⟩, Or.inl (by
        simp [runOp, Context.Send_written data hw, liftWrite])⟩
    · have hw' : s.ctx.written = false := by simpa using hw
      obtain ⟨c1, hc1, hor⟩ := Context.Send_unwritten data hw'
      refine ⟨c1, Or.inr ⟨hw', hc1⟩, ?_⟩
      rcases hor with he | ⟨e, he⟩
      · exact Or.inr (by simp [runOp, he, liftWrite])
      · exact Or.inl (by simp [runOp, he, liftWrite])
  | json data =>
    by_cases hw : s.ctx.written = true
    · exact ⟨s.ctx, Or.inl ⟨hw, rfl⟩, Or.inl (by
        simp [runOp, Context.JSON_written data hw, liftWrite])⟩
    · have hw' : s.ctx.written = false := by simpa using hw
      obtain ⟨c1, hc1, hor⟩ := Context.JSON_unwritten data hw'
      refine ⟨c1, Or.inr ⟨hw', hc1⟩, ?_⟩
      rcases hor with he | ⟨e, he⟩
      · exact Or.inr (by simp [runOp, he, liftWrite])
      · exact Or.inl (by simp [runOp, he, liftWrite])
  | html data =>
    obtain ⟨c1, hc1, hor⟩ := Context.HTML_wrote s.ctx data
    refine ⟨c1, hc1, ?_⟩
    rcases hor with he | he
    · exact Or.inr (by simp [runOp, he, liftWrite])
    · exact Or.inl (by simp [runOp, he, liftWrite])
  | static filepath =>
    obtain ⟨c1, hc1, hor⟩ := Context.Static_wrote s.ctx filepath
    refine ⟨c1, hc1, ?_⟩
    rcases hor with ⟨_, he⟩ | ⟨_, he⟩
    · exact Or.inr (by simp [runOp, he, liftWrite])
    · exact Or.inl (by simp [runOp, he, liftWrite])

theorem OpsPreserve.of_effect {P : Run → Prop} {A : Op → Prop}
    (h : ∀ (op : Op) (s : Run) (c1 : Context), A op → OpEffect op s.ctx c1 → P s →
      P { s with ctx := c1 }) : OpsPreserve P A := by
  intro next op s hA hne hP
  obtain ⟨c1, heff, hor⟩ := runOp_effect next op s hne
  rcases hor with hr | hr <;> rw [hr] <;> exact h op s c1 hA heff hP

/-- No Context call changes the installed handlers or the cursor, except `Next`. -/
theorem OpEffect.frame {op : Op} {c c1 : Context} (h : OpEffect op c c1) :
    c1.handlers = c.handlers ∧ c1.index = c.index ∧ c1.services = c.services ∧
      (c.written = true → c1.written = true) := by
  cases op with
  | next => exact h.elim
  | status code => subst h; exact ⟨rfl, rfl, rfl, id⟩
  | set key value => subst h; exact ⟨rfl, rfl, rfl, id⟩
  | service name => subst h; exact ⟨rfl, rfl, rfl, id⟩
  | send data =>
    rcases h with ⟨_, h⟩ | ⟨_, h⟩
    · subst h; exact ⟨rfl, rfl, rfl, id⟩
    · exact ⟨h.2.1, h.2.2.1, h.2.2.2.1, fun _ => h.1⟩
  | json data =>
    rcases h with ⟨_, h⟩ | ⟨_, h⟩
    · subst h; exact ⟨rfl, rfl, rfl, id⟩
    · exact ⟨h.2.1, h.2.2.1, h.2.2.2.1, fun _ => h.1⟩
  | html data => exact ⟨h.2.1, h.2.2.1, h.2.2.2.1, fun _ => h.1⟩
  | static filepath => exact ⟨h.2.1, h.2.2.1, h.2.2.2.1, fun _ => h.1⟩

/-- A Context call that leaves `written` false has not touched the sink. -/
theorem OpEffect.unwritten {op : Op} {c c1 : Context} (h : OpEffect op c c1)
    (hw : c1.written = false) : c1.Response = c.Response ∧ c.written = false := by
  cases op with
  | next => exact h.elim
  | status code => subst h; exact ⟨rfl, hw⟩
  | set key value => subst h; exact ⟨rfl, hw⟩
  | service name => subst h; exact ⟨rfl, hw⟩
  | send data =>
    rcases h with ⟨_, h⟩ | ⟨_, h⟩
    · subst h; exact ⟨rfl, hw⟩
    · rw [h.1] at hw; simp at hw
  | json data =>
    rcases h with ⟨_, h⟩ | ⟨_, h⟩
    · subst h; exact ⟨rfl, hw⟩
    · rw [h.1] at hw; simp at hw
  | html data => rw [h.1] at hw; simp at hw
  | static filepath => rw [h.1] at hw; simp at hw

/-! ## The sink stays untouched until `written` is set -/

theorem untouched_ops (w : Sink) :
    OpsPreserve (fun s => s.ctx.written = false → s.ctx.Response = some w) (fun _ => True) := by
  apply OpsPreserve.of_effect
  intro op s c1 _ heff hP hw
  obtain ⟨h1, h2⟩ := heff.unwritten hw
  rw [h1]
  exact hP h2

theorem App.runMiddleware_untouched {fuel : Nat} {a : App} {s0 s : Run} {w : Sink}
    (h : a.runMiddleware fuel s0 = Outcome.ok s)
    (h0 : s0.ctx.written = false → s0.ctx.Response = some w)
    (hw : s.ctx.written = false) : s.ctx.Response = some w := by
  unfold App.runMiddleware at h
  split at h
  · have hall := Context.Next_all (untouched_ops w) (fun _ _ _ _ _ _ => trivial)
      (fun _ hs => hs) (fun _ _ hs => hs) fuel
      { s0 with ctx := s0.ctx.setHandlers a.middleware } h0
    rw [h] at hall
    exact hall hw
  · injection h with h
    subst h
    exact h0 hw

theorem Sink.status_httpNotFound : Sink.status (httpNotFound []) = 404 := rfl

theorem Router.Find_no_method {r : Router} {m path : Str} (hrt : r.router ≠ none)
    (hl : ∀ P, r.lookup m P = none) : r.Find m path = some (none, none) := by
  rw [Router.Find_of_lookup_none (hl path)]
  cases hr : r.router with
  | none => exact absurd hr hrt
  | some root =>
    simp only
    cases hf : root.find (getPathParts path) GoMap.empty with
    | mk o ps1 =>
      cases o with
      | none => rfl
      | some node =>
        simp only [hl]
        split <;> rfl

/-- C5: on a router built by registration calls with at least one `Add` and
none under method `m`, `Find(m, path)` is the not-found result for every path;
and whenever `ServeHTTP` for such a request gets to the route lookup (the
process-wide middleware, if any, has returned without writing), it returns with
exactly the calls of `http.NotFound` added to the sink, which a fresh recorder
reports as status 404. -/
theorem find_unregistered_method (ops : List RouterOp) (r : Router) (m path : Str)
    (hrun : Router.zero.run ops = some r)
    (hadd : ∃ m' p' hs', RouterOp.add m' p' hs' ∈ ops)
    (hnone : ∀ p hs, RouterOp.add m p hs ∉ ops) :
    r.Find m path = some (none, none) ∧
      ∀ (fuel : Nat) (a : App) (pooled : Context) (w : Sink) (req : Request) (s : Run),
        a.router = r → req.Method = m → req.Path = path →
        a.runMiddleware fuel ⟨{ NewContext pooled w req with services := a.services }, []⟩ =
          Outcome.ok s →
        s.ctx.written = false →
        ∃ d, a.ServeHTTP fuel pooled w req = Dispatch.returned d ∧
          d.response = some (httpNotFound w) ∧ d.invoked = s.invoked ∧
          (w = [] → (httpNotFound w).status = 404) := by
  have hl : ∀ P, r.lookup m P = none := by
    intro P
    have h := Router.run_lookup_other (m := m) (p := P) hrun (by
      intro op hop hreg
      cases op with
      | use mw => exact hreg
      | add m' p' hs' =>
        obtain ⟨h1, _⟩ := hreg
        subst h1
        exact hnone p' hs' hop)
    rw [h]
    rfl
  have hfind : ∀ path, r.Find m path = some (none, none) := fun path =>
    Router.Find_no_method (Router.run_router_some hrun (Or.inr hadd)) hl
  refine ⟨hfind path, ?_⟩
  intro fuel a pooled w req s ha hm hp hmw hw
  have hresp : s.ctx.Response = some w :=
    App.runMiddleware_untouched hmw (fun _ => rfl) hw
  refine ⟨finish { s with ctx := { s.ctx with Response := s.ctx.Response.map httpNotFound } },
    ?_, ?_, rfl, fun h0 => by subst h0; rfl⟩
  · unfold App.ServeHTTP
    simp only [hmw, hw, ha, hm, hp, hfind path]
    simp
  · simp [finish, hresp]

/-- C5 at `TestMethodNotAllowed`: `GET /test` is registered and `POST /test`
is requested. -/
theorem find_unregistered_method_witness :
    (okRouter (Router.zero.Add MethodGet "/test".toList [HandlerArg.func hD])).Find
        MethodPost "/test".toList = some (none, none) ∧
      ∃ d, (App.mk (okRouter (Router.zero.Add MethodGet "/test".toList [HandlerArg.func hD]))
            [] GoMap.empty).ServeHTTP 0 Context.poolNew []
            ⟨MethodPost, "/test".toList, []⟩ = Dispatch.returned d ∧
          d.response = some (httpNotFound []) ∧ d.invoked = [] ∧
          ([] = ([] : Sink) → (httpNotFound []).status = 404) :=
  ⟨(find_unregistered_method [RouterOp.add MethodGet "/test".toList [HandlerArg.func hD]] _
      MethodPost "/test".toList rfl ⟨_, _, _, List.mem_cons_self _ _⟩
      (fun p hs h => by
        simp only [List.mem_singleton, RouterOp.add.injEq] at h
        exact absurd h.1 (by decide))).1,
   (find_unregistered_method [RouterOp.add MethodGet "/test".toList [HandlerArg.func hD]] _
      MethodPost "/test".toList rfl ⟨_, _, _, List.mem_cons_self _ _⟩
      (fun p hs h => by
        simp only [List.mem_singleton, RouterOp.add.injEq] at h
        exact absurd h.1 (by decide))).2
      0 (App.mk _ [] GoMap.empty) Context.poolNew [] ⟨MethodPost, "/test".toList, []⟩ _
      rfl rfl rfl rfl rfl⟩

/-- C6 fails on the code: the trie is shared by all methods and a node keeps
one `path`.  With `GET /files/*filepath` registered, `Find(GET, "/files/a.txt")`
returns the GET chain; after `Add(POST, "/files/*name", ..)` the shared wildcard
node carries the POST path, the GET table has no such key, and the same lookup
is not-found. -/
theorem find_changed_by_other_method :
    ((okRouter (Router.zero.Add MethodGet "/files/*filepath".toList
        [HandlerArg.func hD])).Find MethodGet "/files/a.txt".toList).map (fun res => res.1) =
      some (some [hD]) ∧
    (okRouter ((okRouter (Router.zero.Add MethodGet "/files/*filepath".toList
        [HandlerArg.func hD])).Add MethodPost "/files/*name".toList
        [HandlerArg.func hA])).Find MethodGet "/files/a.txt".toList = some (none, none) := by
  constructor
  · decide
  · rfl

/-- C1 at a concrete router: `GET /users/:id` is registered first, then
`GET users/me`, then a `Use`, a `POST /users/me` and a `GET /users/*rest`. -/
theorem find_registered_static_witness :
    ∃ converted, convertAll [HandlerArg.func hD] = some converted ∧
      ((okRouter (usersRouter.Add MethodGet "users/me".toList [HandlerArg.func hD])).run
          laterCalls).bind (fun r => r.Find MethodGet (normalizePath "users/me".toList)) =
        some (some (usersRouter.middleware ++ converted), none) := by
  obtain ⟨converted, hc, hf⟩ := find_registered_static usersRouter
    (okRouter (usersRouter.Add MethodGet "users/me".toList [HandlerArg.func hD]))
    (okRouter (((okRouter (((okRouter (usersRouter.Add MethodGet "users/me".toList
      [HandlerArg.func hD])).Use [hB]).Add MethodPost "/users/me".toList
      [HandlerArg.func hC])).Add MethodGet "/users/*rest".toList [HandlerArg.func hC])))
    MethodGet "users/me".toList [HandlerArg.func hD] laterCalls rfl (by decide) (by decide) rfl
  exact ⟨converted, hc, hf⟩

/-! ## `Next` at the end of the chain, and handlers that pass the request on -/

theorem Context.Next_exhausted (fuel : Nat) (s : Run) (h : s.Exhausted) :
    Context.Next fuel s =
      Outcome.ok { s with ctx := { s.ctx with index := s.ctx.index + 1 } } := by
  have hlt : ¬ (s.ctx.index + 1 < (s.ctx.handlers.length : Int)) := by
    unfold Run.Exhausted at h
    omega
  cases fuel <;> simp [Context.Next, Context.nextBody, hlt]

theorem Run.Same.refl (s : Run) : s.Same s := ⟨rfl, rfl, rfl, rfl, rfl⟩

theorem Run.Same.trans {s t u : Run} (h1 : s.Same t) (h2 : t.Same u) : s.Same u :=
  ⟨h2.1.trans h1.1, h2.2.1.trans h1.2.1, h2.2.2.1.trans h1.2.2.1,
    h2.2.2.2.1.trans h1.2.2.2.1, h2.2.2.2.2.trans h1.2.2.2.2⟩

/-- A quiet call other than `Next` returns, and changes only the pending
status or the store. -/
theorem runOp_quiet (next : Run → Outcome) (op : Op) (s : Run) (hq : op.Quiet s.ctx.services)
    (hne : op ≠ Op.next) :
    ∃ t, runOp next op s = Outcome.ok t ∧ s.Same t ∧ t.invoked = s.invoked ∧
      t.ctx.index = s.ctx.index := by
  cases op with
  | next => exact absurd rfl hne
  | status code => exact ⟨_, rfl, ⟨rfl, rfl, rfl, rfl, rfl⟩, rfl, rfl⟩
  | set key value => exact ⟨_, rfl, ⟨rfl, rfl, rfl, rfl, rfl⟩, rfl, rfl⟩
  | send data => exact hq.elim
  | json data => exact hq.elim
  | html data => exact hq.elim
  | static filepath => exact hq.elim
  | service name =>
    simp only [Op.Quiet] at hq
    refine ⟨s, ?_, Run.Same.refl s, rfl, rfl⟩
    simp only [runOp, Context.Service]
    cases hsv : s.ctx.services name with
    | none => exact absurd hsv hq
    | some v => rfl

/-- A quiet body run at the end of the chain returns and calls no handler. -/
theorem runBody_quiet_exhausted (fuel : Nat) :
    ∀ (body : List Op) (s : Run), (∀ op ∈ body, op.Quiet s.ctx.services) → s.Exhausted →
      ∃ t, runBody (Context.Next fuel) body s = Outcome.ok t ∧ s.Same t ∧
        t.invoked = s.invoked ∧ t.Exhausted := by
  intro body
  induction body with
  | nil =>
    intro s _ he
    exact ⟨s, rfl, Run.Same.refl s, rfl, he⟩
  | cons op rest ih =>
    intro s hq he
    have hrest : ∀ o ∈ rest, o.Quiet s.ctx.services :=
      fun o ho => hq o (List.mem_cons_of_mem _ ho)
    by_cases hop : op = Op.next
    · subst hop
      have he1 : Run.Exhausted { s with ctx := { s.ctx with index := s.ctx.index + 1 } } := by
        unfold Run.Exhausted at he ⊢
        simp only
        omega
      obtain ⟨t, ht, hsame, hinv, hex⟩ :=
        ih { s with ctx := { s.ctx with index := s.ctx.index + 1 } } hrest he1
      refine ⟨t, ?_, ?_, hinv, hex⟩
      · simp only [runBody, runOp, Context.Next_exhausted fuel s he]
        exact ht
      · exact Run.Same.trans ⟨rfl, rfl, rfl, rfl, rfl⟩ hsame
    · obtain ⟨s1, hs1, hsame1, hinv1, hidx1⟩ :=
        runOp_quiet (Context.Next fuel) op s (hq op (List.mem_cons_self _ _)) hop
      have he1 : s1.Exhausted := by
        unfold Run.Exhausted at he ⊢
        rw [hsame1.1, hidx1]
        exact he
      obtain ⟨t, ht, hsame, hinv, hex⟩ := ih s1 (hsame1.2.2.2.1 ▸ hrest) he1
      refine ⟨t, ?_, Run.Same.trans hsame1 hsame, hinv.trans hinv1, hex⟩
      simp only [runBody, hs1]
      exact ht

/-- A quiet body run from a state like `base` in which `Next` behaves as
`hnext` describes: without a `Next` call nothing but status and store changes;
the first `Next` call appends `extra` to the record and ends at the end of the
chain, and the rest of the body calls no further handler. -/
theorem runBody_quiet_first_next (fuel : Nat) (i : Int) (extra : List Invocation) (base : Run)
    (hnext : ∀ s : Run, base.Same s → s.ctx.index = i →
      ∃ t, Context.Next fuel s = Outcome.ok t ∧ s.Same t ∧
        t.invoked = s.invoked ++ extra ∧ t.Exhausted) :
    ∀ (body : List Op) (s : Run), (∀ op ∈ body, op.Quiet base.ctx.services) → base.Same s →
      s.ctx.index = i →
      ∃ t, runBody (Context.Next fuel) body s = Outcome.ok t ∧ s.Same t ∧
        ((Op.next ∈ body ∧ t.invoked = s.invoked ++ extra ∧ t.Exhausted) ∨
          (Op.next ∉ body ∧ t.invoked = s.invoked ∧ t.ctx.index = i)) := by
  intro body
  induction body with
  | nil =>
    intro s _ _ hi
    exact ⟨s, rfl, Run.Same.refl s, Or.inr ⟨by simp, rfl, hi⟩⟩
  | cons op rest ih =>
    intro s hq hb hi
    have hrest : ∀ o ∈ rest, o.Quiet base.ctx.services :=
      fun o ho => hq o (List.mem_cons_of_mem _ ho)
    by_cases hop : op = Op.next
    · subst hop
      obtain ⟨s1, hs1, hsame1, hinv1, hex1⟩ := hnext s hb hi
      obtain ⟨t, ht, hsame, hinv, hex⟩ := runBody_quiet_exhausted fuel rest s1
        ((Run.Same.trans hb hsame1).2.2.2.1 ▸ hrest) hex1
      refine ⟨t, ?_, Run.Same.trans hsame1 hsame,
        Or.inl ⟨List.mem_cons_self _ _, hinv.trans hinv1, hex⟩⟩
      simp only [runBody, runOp, hs1]
      exact ht
    · obtain ⟨s1, hs1, hsame1, hinv1, hidx1⟩ :=
        runOp_quiet (Context.Next fuel) op s (hb.2.2.2.1 ▸ hq op (List.mem_cons_self _ _)) hop
      obtain ⟨t, ht, hsame, hor⟩ := ih s1 hrest (Run.Same.trans hb hsame1) (hidx1.trans hi)
      refine ⟨t, ?_, Run.Same.trans hsame1 hsame, ?_⟩
      · simp only [runBody, hs1]
        exact ht
      · rcases hor with ⟨hm, hinv, hex⟩ | ⟨hm, hinv, hidx⟩
        · exact Or.inl ⟨List.mem_cons_of_mem _ hm, hinv1 ▸ hinv, hex⟩
        · refine Or.inr ⟨?_, hinv1 ▸ hinv, hidx⟩
          intro hmem
          simp only [List.mem_cons] at hmem
          rcases hmem with hmem | hmem
          · exact hop hmem.symm
          · exact hm hmem

/-- With the cursor before handler `i` of a chain whose remaining handlers all
pass the request on, and `written` false, `Next` returns after calling each
remaining handler once, in order, and leaves the cursor at the end. -/
theorem Context.Next_passes :
    ∀ (n fuel : Nat) (s : Run) (i : Nat), s.ctx.index = (i : Int) - 1 →
      s.ctx.handlers.length = i + n → n ≤ fuel → s.ctx.written = false →
      (∀ h ∈ s.ctx.handlers.drop i, h.Passes s.ctx.services) →
      ∃ t, Context.Next fuel s = Outcome.ok t ∧ s.Same t ∧
        t.invoked = s.invoked ++ (s.ctx.handlers.drop i).map (fun h => ⟨h, false, true⟩) ∧
        t.Exhausted := by
  intro n
  induction n with
  | zero =>
    intro fuel s i hi hlen _ _ _
    have hex : s.Exhausted := by
      unfold Run.Exhausted
      omega
    refine ⟨_, Context.Next_exhausted fuel s hex, ⟨rfl, rfl, rfl, rfl, rfl⟩, ?_, ?_⟩
    · have : s.ctx.handlers.drop i = [] := List.drop_eq_nil_of_le (by omega)
      simp [this]
    · unfold Run.Exhausted at hex ⊢
      simp only
      omega
  | succ n ih =>
    intro fuel s i hi hlen hfuel hw hpass
    cases fuel with
    | zero => omega
    | succ f =>
      have hilt : i < s.ctx.handlers.length := by omega
      have hdrop : s.ctx.handlers.drop i =
          s.ctx.handlers[i] :: s.ctx.handlers.drop (i + 1) := List.drop_eq_getElem_cons hilt
      have hget : s.ctx.handlers.get? i = some s.ctx.handlers[i] := by
        simp [List.getElem?_eq_getElem hilt]
      have hidx : s.ctx.index + 1 = (i : Int) := by omega
      have hp := hpass s.ctx.handlers[i] (by rw [hdrop]; exact List.mem_cons_self _ _)
      -- the state in which the body of handler `i` starts
      obtain ⟨t, ht, hsame, hor⟩ := runBody_quiet_first_next f (i : Int)
        ((s.ctx.handlers.drop (i + 1)).map (fun h => ⟨h, false, true⟩))
        { ctx := { s.ctx with index := s.ctx.index + 1 },
          invoked := s.invoked ++ [⟨s.ctx.handlers[i], s.ctx.written, true⟩] }
        (by
          intro u hu hui
          have hu1 : u.ctx.handlers = s.ctx.handlers := hu.1
          have hu2 : u.ctx.written = false := hu.2.1.trans hw
          have hu3 : u.ctx.services = s.ctx.services := hu.2.2.2.1
          obtain ⟨t, ht, hsame, hinv, hex⟩ := ih f u (i + 1) (by rw [hui]; push_cast; omega)
            (by rw [hu1]; omega) (by omega) hu2
            (by
              rw [hu1, hu3]
              intro h hh
              exact hpass h (by rw [hdrop]; exact List.mem_cons_of_mem _ hh))
          rw [hu1] at hinv
          exact ⟨t, ht, hsame, hinv, hex⟩)
        s.ctx.handlers[i].body _ hp.1 (Run.Same.refl _) hidx
      refine ⟨t, ?_, Run.Same.trans ⟨rfl, rfl, rfl, rfl, rfl⟩ hsame, ?_, ?_⟩
      · simp only [Context.Next, Context.nextBody, hidx, Int.toNat_ofNat, hget,
          Nat.cast_lt, hilt, if_true, Int.natCast_nonneg, decide_True, callHandler]
        simp only [hidx] at ht
        exact ht
      · rcases hor with ⟨_, hinv, _⟩ | ⟨hm, _, _⟩
        · rw [hinv, hw]
          simp only [List.append_assoc, List.singleton_append]
          rw [hdrop, List.map_cons]
        · exact absurd hp.2 hm
      · rcases hor with ⟨_, _, hex⟩ | ⟨hm, _, _⟩
        · exact hex
        · exact absurd hp.2 hm

/-! ## The route chain after the middleware has passed the request on -/

theorem chain_quiet_prefix (fuel : Nat) :
    ∀ (cs : List Handler) (s : Run),
      (∀ c ∈ cs, ∀ op ∈ c.body, op.Quiet s.ctx.services) → s.Exhausted →
      s.ctx.written = false →
      ∃ t, (∀ rest, chain (callHandler (Context.Next fuel) false) (cs ++ rest) s =
            chain (callHandler (Context.Next fuel) false) rest t) ∧
        s.Same t ∧ t.invoked = s.invoked ++ cs.map (fun h => ⟨h, false, false⟩) ∧
        t.Exhausted := by
  intro cs
  induction cs with
  | nil =>
    intro s _ hex _
    exact ⟨s, fun _ => rfl, Run.Same.refl s, by simp, hex⟩
  | cons c cs ih =>
    intro s hq hex hw
    obtain ⟨s1, hs1, hsame1, hinv1, hex1⟩ := runBody_quiet_exhausted fuel c.body
      { s with invoked := s.invoked ++ [⟨c, s.ctx.written, false⟩] }
      (hq c (List.mem_cons_self _ _)) hex
    have hw1 : s1.ctx.written = false := hsame1.2.1.trans hw
    obtain ⟨t, ht, hsame, hinv, hext⟩ := ih s1
      (by
        rw [hsame1.2.2.2.1]
        exact fun c' hc' => hq c' (List.mem_cons_of_mem _ hc'))
      hex1 hw1
    refine ⟨t, ?_, Run.Same.trans hsame1 hsame, ?_, hext⟩
    · intro rest
      simp only [List.cons_append, chain, callHandler, hs1, hw1, Bool.false_eq_true, if_false]
      exact ht rest
    · rw [hinv, hinv1, hw]
      simp

/-- A handler called by the chain loop at the end of the installed chain ends
(whatever its body does) without any further handler being called. -/
theorem callHandler_exhausted (fuel : Nat) (h : Handler) (s : Run) (hex : s.Exhausted) :
    (callHandler (Context.Next fuel) false h s).Ends
      (fun t => t.invoked = s.invoked ++ [⟨h, s.ctx.written, false⟩]) := by
  have key := runBody_ends
    (P := fun t => t.invoked = s.invoked ++ [⟨h, s.ctx.written, false⟩] ∧ t.Exhausted)
    (A := fun _ => True) (f := Context.Next fuel)
    (OpsPreserve.of_effect (by
      intro op u c1 _ heff hP
      obtain ⟨h1, h2, _, _⟩ := heff.frame
      refine ⟨hP.1, ?_⟩
      have := hP.2
      unfold Run.Exhausted at this ⊢
      simp only [h1, h2]
      exact this))
    (by
      intro u hP
      rw [Context.Next_exhausted fuel u hP.2]
      refine ⟨hP.1, ?_⟩
      have := hP.2
      unfold Run.Exhausted at this ⊢
      simp only
      omega)
    h.body { s with invoked := s.invoked ++ [⟨h, s.ctx.written, false⟩] }
    (fun _ _ => trivial) ⟨rfl, hex⟩
  exact Outcome.ends_mono key (fun _ hP => hP.1)

/-- Dispatch through middleware that passes the request on: every middleware
is called once, in order, through `Next`; then the route handlers are called
by the chain loop, in order, up to and including the first that is not known
to be quiet. -/
theorem App.ServeHTTP_passes (fuel : Nat) (a : App) (pooled : Context) (w : Sink)
    (req : Request) (cs : List Handler) (last : Handler) (params : Option (GoMap Str))
    (hne : a.middleware ≠ [])
    (hmw : ∀ h ∈ a.middleware, h.Passes a.services)
    (hcs : ∀ c ∈ cs, ∀ op ∈ c.body, op.Quiet a.services)
    (hfind : a.router.Find req.Method req.Path = some (some (cs ++ [last]), params))
    (hfuel : a.middleware.length ≤ fuel) :
    ∃ d, (a.ServeHTTP fuel pooled w req = Dispatch.returned d ∨
          a.ServeHTTP fuel pooled w req = Dispatch.panicked d) ∧
      d.invoked = a.middleware.map (fun h => ⟨h, false, true⟩) ++
        cs.map (fun h => ⟨h, false, false⟩) ++ [⟨last, false, false⟩] := by
  have hpos : a.middleware.length > 0 := List.length_pos.mpr hne
  obtain ⟨t, ht, hsame, hinv, hex⟩ := Context.Next_passes a.middleware.length fuel
    { ctx := ({ NewContext pooled w req with services := a.services }).setHandlers a.middleware,
      invoked := [] } 0 (by simp [Context.setHandlers]) (by simp [Context.setHandlers]) hfuel
    (by simp [Context.setHandlers, NewContext, Context.reset])
    (by simpa [Context.setHandlers] using hmw)
  have hw : t.ctx.written = false := by
    rw [hsame.2.1]
    simp [Context.setHandlers, NewContext, Context.reset]
  have hsv : t.ctx.services = a.services := by
    rw [hsame.2.2.2.1]
    simp [Context.setHandlers]
  simp only [List.drop_zero, List.nil_append, Context.setHandlers] at hinv
  obtain ⟨t2, ht2, hsame2, hinv2, hex2⟩ := chain_quiet_prefix fuel cs
    { t with ctx := { t.ctx with PathParams := params } }
    (by simpa [hsv] using hcs) hex hw
  have hlast := callHandler_exhausted fuel last t2 hex2
  have hw2 : t2.ctx.written = false := hsame2.2.1.trans hw
  have hchain : runChain fuel (cs ++ [last])
      { t with ctx := { t.ctx with PathParams := params } } =
      match callHandler (Context.Next fuel) false last t2 with
      | Outcome.ok s1 => Outcome.ok s1
      | Outcome.panic s1 => Outcome.panic s1
      | Outcome.outOfFuel => Outcome.outOfFuel := by
    unfold runChain
    rw [ht2 [last]]
    simp only [chain]
    cases callHandler (Context.Next fuel) false last t2 with
    | ok s1 => by_cases hws : s1.ctx.written = true <;> simp [hws]
    | panic s1 => rfl
    | outOfFuel => rfl
  have hserve : a.ServeHTTP fuel pooled w req =
      match callHandler (Context.Next fuel) false last t2 with
      | Outcome.ok s1 => Dispatch.returned (finish s1)
      | Outcome.panic s1 => Dispatch.panicked (finish s1)
      | Outcome.outOfFuel => Dispatch.outOfFuel := by
    unfold App.ServeHTTP App.runMiddleware
    simp only [hpos, if_true, ht]
    rw [if_neg (by simp [hw])]
    simp only [hfind]
    rw [hchain]
    cases callHandler (Context.Next fuel) false last t2 <;> rfl
  rw [hserve]
  cases hc : callHandler (Context.Next fuel) false last t2 with
  | ok s1 =>
    rw [hc] at hlast
    refine ⟨finish s1, Or.inl rfl, ?_⟩
    simp only [finish]
    rw [hlast, hinv2, hinv, hw2]
  | panic s1 =>
    rw [hc] at hlast
    refine ⟨finish s1, Or.inr rfl, ?_⟩
    simp only [finish]
    rw [hlast, hinv2, hinv, hw2]
  | outOfFuel =>
    rw [hc] at hlast
    exact hlast.elim

/-- C7: with process-wide middleware A then B and a matching route registered
with handlers C, D, where A, B and C pass the request on (each calls `Next`,
writes no response and does not panic), `ServeHTTP` calls exactly A, B, C, D,
each once, in that order, whatever D does. -/
theorem serve_order (fuel : Nat) (a : App) (pooled : Context) (w : Sink) (req : Request)
    (A B C D : Handler) (params : Option (GoMap Str))
    (hmw : a.middleware = [A, B])
    (hA : A.Passes a.services) (hB : B.Passes a.services) (hC : C.Passes a.services)
    (hfind : a.router.Find req.Method req.Path = some (some [C, D], params))
    (hfuel : 2 ≤ fuel) :
    ∃ d, (a.ServeHTTP fuel pooled w req = Dispatch.returned d ∨
          a.ServeHTTP fuel pooled w req = Dispatch.panicked d) ∧
      d.invoked.map (fun e => e.handler) = [A, B, C, D] := by
  obtain ⟨d, hd, hinv⟩ := App.ServeHTTP_passes fuel a pooled w req [C] D params
    (by rw [hmw]; simp)
    (by
      rw [hmw]
      intro h hh
      simp only [List.mem_cons, List.mem_singleton, List.not_mem_nil, or_false] at hh
      rcases hh with hh | hh <;> subst hh <;> assumption)
    (by
      intro c hc
      simp only [List.mem_singleton] at hc
      subst hc
      exact hC.1)
    hfind (by rw [hmw]; exact hfuel)
  refine ⟨d, hd, ?_⟩
  rw [hinv, hmw]
  rfl

/-- C7 at `TestMiddlewareOrder`. -/
theorem serve_order_witness :
    ∃ d, (orderApp.ServeHTTP 2 Context.poolNew [] getTest = Dispatch.returned d ∨
          orderApp.ServeHTTP 2 Context.poolNew [] getTest = Dispatch.panicked d) ∧
      d.invoked.map (fun e => e.handler) = [hA, hB, hC, hD] :=
  serve_order 2 orderApp Context.poolNew [] getTest hA hB hC hD none rfl (by decide) (by decide)
    (by decide) rfl (le_refl 2)

/-- C8: executing `chain(hs)` runs a prefix `hs[0..k)` of the handlers, in
list order, each on the Context the previous one left: none of the first `k-1`
left `written` true, and when the chain stops short (`k < len(hs)`) the last
one run left `written` true (or did not return).  So no handler after the
first that leaves `written` true is called, all handlers run when none sets
`written`, a non-empty chain always calls its first handler, and the empty
chain leaves the Context unchanged.  `call` is the call `handler(c)`; for the
handlers of the embedding it is `callHandler (Context.Next fuel) false`. -/
theorem chain_runs_prefix (call : Handler → Run → Outcome) (hs : List Handler) (s : Run) :
    chain call [] s = Outcome.ok s ∧
      ∃ k, k ≤ hs.length ∧ chain call hs s = runInOrder call (hs.take k) s ∧
        (∀ j, 0 < j → j < k → ∀ t, runInOrder call (hs.take j) s = Outcome.ok t →
          t.ctx.written = false) ∧
        (k < hs.length → ∀ t, runInOrder call (hs.take k) s = Outcome.ok t →
          t.ctx.written = true) ∧
        (hs ≠ [] → 0 < k) := by
  refine ⟨rfl, ?_⟩
  induction hs generalizing s with
  | nil => exact ⟨0, le_refl _, rfl, fun j h1 h2 => by omega, fun h => by simp at h,
      fun h => absurd rfl h⟩
  | cons h rest ih =>
    cases hc : call h s with
    | ok s1 =>
      by_cases hw : s1.ctx.written = true
      · refine ⟨1, by simp, ?_, fun j h1 h2 => by omega, ?_, fun _ => Nat.one_pos⟩
        · simp [chain, runInOrder, hc, hw]
        · intro _ t ht
          simp only [List.take_succ_cons, List.take_zero, runInOrder, hc] at ht
          injection ht with ht
          subst ht
          exact hw
      · obtain ⟨k, hk, hch, hpre, hstop, _⟩ := ih s1
        refine ⟨k + 1, by simpa using hk, ?_, ?_, ?_, fun _ => Nat.succ_pos _⟩
        · simp only [chain, hc, hw, if_false, List.take_succ_cons, runInOrder]
          exact hch
        · intro j h1 h2 t ht
          cases j with
          | zero => omega
          | succ j =>
            simp only [List.take_succ_cons, runInOrder, hc] at ht
            cases j with
            | zero =>
              simp only [List.take_zero, runInOrder] at ht
              injection ht with ht
              subst ht
              simpa using hw
            | succ j => exact hpre (j + 1) (Nat.succ_pos _) (by omega) t ht
        · intro hlt t ht
          simp only [List.take_succ_cons, runInOrder, hc] at ht
          exact hstop (by simpa using hlt) t ht
    | panic s1 =>
      refine ⟨1, by simp, ?_, fun j h1 h2 => by omega, ?_, fun _ => Nat.one_pos⟩
      · simp [chain, runInOrder, hc]
      · intro _ t ht
        simp [runInOrder, hc] at ht
    | outOfFuel =>
      refine ⟨1, by simp, ?_, fun j h1 h2 => by omega, ?_, fun _ => Nat.one_pos⟩
      · simp [chain, runInOrder, hc]
      · intro _ t ht
        simp [runInOrder, hc] at ht

/-! ## Dispatch ends when the budget covers the installed handlers -/

theorem OpsPreserve.and_frame {P : Run → Prop} {A : Op → Prop} (hops : OpsPreserve P A)
    (i : Int) (H : List Handler) :
    OpsPreserve (fun t => P t ∧ i ≤ t.ctx.index ∧ t.ctx.handlers = H) A := by
  intro next op s hA hne hP
  have h1 := hops next op s hA hne hP.1
  obtain ⟨c1, heff, hor⟩ := runOp_effect next op s hne
  obtain ⟨hf1, hf2, _, _⟩ := heff.frame
  rcases hor with hr | hr
  · rw [hr] at h1 ⊢
    exact ⟨h1, by simp only [hf2]; exact hP.2.1, by simp only [hf1]; exact hP.2.2⟩
  · rw [hr] at h1 ⊢
    exact ⟨h1, by simp only [hf2]; exact hP.2.1, by simp only [hf1]; exact hP.2.2⟩

/-- The call `Next` ends when the budget is at least the number of handlers still
ahead of the cursor; it keeps an invariant that the Context calls keep, moves
the cursor forward and leaves the installed handlers in place. -/
theorem Context.Next_ends {P : Run → Prop} {A : Op → Prop}
    (hops : OpsPreserve P A) (hH : ∀ s, P s → HandlersIn A s)
    (hidx : ∀ s : Run, P s → P { s with ctx := { s.ctx with index := s.ctx.index + 1 } })
    (hrec : ∀ (s : Run) (h : Handler), P s →
      P { s with invoked := s.invoked ++ [⟨h, s.ctx.written, true⟩] }) :
    ∀ (fuel : Nat) (s : Run), P s →
      (s.ctx.handlers.length : Int) ≤ s.ctx.index + 1 + fuel →
      (Context.Next fuel s).Ends
        (fun t => P t ∧ s.ctx.index + 1 ≤ t.ctx.index ∧ t.ctx.handlers = s.ctx.handlers) := by
  intro fuel
  induction fuel with
  | zero =>
    intro s hs hb
    have hex : s.Exhausted := by
      unfold Run.Exhausted
      simpa using hb
    rw [Context.Next_exhausted 0 s hex]
    exact ⟨hidx s hs, le_refl _, rfl⟩
  | succ fuel ih =>
    intro s hs hb
    have h1 := hidx s hs
    simp only [Context.Next, Context.nextBody]
    split
    · split
      · rename_i h hget _
        simp only [callHandler]
        apply runBody_ends (OpsPreserve.and_frame hops (s.ctx.index + 1) s.ctx.handlers)
        · intro u hu
          have hb' : (u.ctx.handlers.length : Int) ≤ u.ctx.index + 1 + fuel := by
            rw [hu.2.2]
            have := hu.2.1
            push_cast at hb
            omega
          refine Outcome.ends_mono (ih u hu.1 hb') ?_
          intro t ht
          exact ⟨ht.1, by have := hu.2.1; have := ht.2.1; omega, ht.2.2.trans hu.2.2⟩
        · exact hH _ h1 h (List.get?_mem hget)
        · exact ⟨hrec _ h h1, le_refl _, rfl⟩
      · exact ⟨h1, le_refl _, rfl⟩
    · exact ⟨h1, le_refl _, rfl⟩

theorem runChain_ends {P : Run → Prop} {A : Op → Prop}
    (hops : OpsPreserve P A) (hH : ∀ s, P s → HandlersIn A s)
    (hidx : ∀ s : Run, P s → P { s with ctx := { s.ctx with index := s.ctx.index + 1 } })
    (hrec : ∀ (s : Run) (h : Handler), P s →
      P { s with invoked := s.invoked ++ [⟨h, s.ctx.written, true⟩] })
    (hrecF : ∀ (s : Run) (h : Handler), P s → s.ctx.written = false →
      P { s with invoked := s.invoked ++ [⟨h, false, false⟩] })
    (fuel : Nat) (i : Int) (H : List Handler) (hb : (H.length : Int) ≤ i + 1 + fuel) :
    ∀ (hs : List Handler) (s : Run), P s → s.ctx.written = false →
      i ≤ s.ctx.index → s.ctx.handlers = H →
      (∀ h ∈ hs, ∀ op ∈ h.body, A op) →
      (runChain fuel hs s).Ends P := by
  intro hs
  induction hs with
  | nil =>
    intro s hP _ _ _ _
    exact hP
  | cons h rest ih =>
    intro s hP hw hi hH' hA
    have hbody := runBody_ends (OpsPreserve.and_frame hops i H)
      (f := Context.Next fuel)
      (by
        intro u hu
        have hb' : (u.ctx.handlers.length : Int) ≤ u.ctx.index + 1 + fuel := by
          rw [hu.2.2]
          have := hu.2.1
          omega
        refine Outcome.ends_mono (Context.Next_ends hops hH hidx hrec fuel u hu.1 hb') ?_
        intro t ht
        exact ⟨ht.1, by have := hu.2.1; have := ht.2.1; omega, ht.2.2.trans hu.2.2⟩)
      h.body { s with invoked := s.invoked ++ [⟨h, s.ctx.written, false⟩] }
      (hA h (List.mem_cons_self _ _))
      ⟨by rw [hw]; exact hrecF s h hP hw, hi, hH'⟩
    simp only [runChain, chain, callHandler]
    cases hr : runBody (Context.Next fuel) h.body
        { s with invoked := s.invoked ++ [⟨h, s.ctx.written, false⟩] } with
    | ok s1 =>
      rw [hr] at hbody
      simp only
      by_cases hw1 : s1.ctx.written = true
      · simp only [hw1, if_true]
        exact hbody.1
      · simp only [hw1, if_false]
        exact ih s1 hbody.1 (by simpa using hw1) hbody.2.1 hbody.2.2
          (fun h' hh' => hA h' (List.mem_cons_of_mem _ hh'))
    | panic s1 =>
      rw [hr] at hbody
      exact hbody.1
    | outOfFuel =>
      rw [hr] at hbody
      exact hbody

/-- The method `ServeHTTP` ends when the budget covers the process-wide middleware (and
whatever handlers the pooled Context still holds), and an invariant `P` of the
Context calls holds of the state it finishes in; on the 404 path that state is
the one before `http.NotFound` touched the sink. -/
theorem App.ServeHTTP_ends {P : Run → Prop} {A : Op → Prop}
    (hops : OpsPreserve P A) (hH : ∀ s, P s → HandlersIn A s)
    (hidx : ∀ s : Run, P s → P { s with ctx := { s.ctx with index := s.ctx.index + 1 } })
    (hrec : ∀ (s : Run) (h : Handler), P s →
      P { s with invoked := s.invoked ++ [⟨h, s.ctx.written, true⟩] })
    (hrecF : ∀ (s : Run) (h : Handler), P s → s.ctx.written = false →
      P { s with invoked := s.invoked ++ [⟨h, false, false⟩] })
    (fuel : Nat) (a : App) (pooled : Context) (w : Sink) (req : Request)
    (h0 : P ⟨{ NewContext pooled w req with services := a.services }, []⟩)
    (hset : P ⟨({ NewContext pooled w req with services := a.services }).setHandlers
      a.middleware, []⟩)
    (hparams : ∀ (s : Run) (params : Option (GoMap Str)), P s →
      P { s with ctx := { s.ctx with PathParams := params } })
    (hroute : ∀ hs params, a.router.Find req.Method req.Path = some (some hs, params) →
      ∀ h ∈ hs, ∀ op ∈ h.body, A op)
    (hfuel : a.middleware.length ≤ fuel) (hpool : pooled.handlers.length ≤ fuel) :
    ∃ s, P s ∧
      (a.ServeHTTP fuel pooled w req = Dispatch.returned (finish s) ∨
        a.ServeHTTP fuel pooled w req = Dispatch.panicked (finish s) ∨
        (s.ctx.written = false ∧
          a.ServeHTTP fuel pooled w req = Dispatch.returned
            (finish { s with ctx := { s.ctx with Response := s.ctx.Response.map httpNotFound } }))) := by
  -- the middleware phase
  have hmid : (a.runMiddleware fuel ⟨{ NewContext pooled w req with services := a.services }, []⟩).Ends
      (fun s => P s ∧ (-1 : Int) ≤ s.ctx.index ∧
        (s.ctx.handlers.length : Int) ≤ fuel ∧
        (a.middleware.length = 0 → s.ctx.written = false)) := by
    unfold App.runMiddleware
    split
    · rename_i hpos
      have := Context.Next_ends hops hH hidx hrec fuel
        ⟨({ NewContext pooled w req with services := a.services }).setHandlers a.middleware, []⟩
        hset (by simp only [Context.setHandlers]; omega)
      refine Outcome.ends_mono this ?_
      intro t ht
      refine ⟨ht.1, ?_, ?_, fun h => by omega⟩
      · have := ht.2.1
        simp only [Context.setHandlers] at this
        omega
      · rw [ht.2.2]
        simp only [Context.setHandlers]
        exact_mod_cast hfuel
    · refine ⟨h0, by simp [NewContext, Context.reset], ?_, fun _ => rfl⟩
      simp only [NewContext, Context.reset]
      exact_mod_cast hpool
  unfold App.ServeHTTP
  simp only
  cases hm : a.runMiddleware fuel
      ⟨{ NewContext pooled w req with services := a.services }, []⟩ with
  | outOfFuel =>
    rw [hm] at hmid
    exact hmid.elim
  | panic s =>
    rw [hm] at hmid
    exact ⟨s, hmid.1, Or.inr (Or.inl rfl)⟩
  | ok s =>
    rw [hm] at hmid
    obtain ⟨hP, hi, hlen, hw0⟩ := hmid
    simp only
    by_cases hret : a.middleware.length > 0 ∧ s.ctx.written = true
    · simp only [hret, and_self, if_true]
      exact ⟨s, hP, Or.inl rfl⟩
    · simp only [hret, if_false]
      have hw : s.ctx.written = false := by
        by_cases hz : a.middleware.length = 0
        · exact hw0 hz
        · have : ¬ s.ctx.written = true := fun h => hret ⟨by omega, h⟩
          simpa using this
      cases hf : a.router.Find req.Method req.Path with
      | none => exact ⟨s, hP, Or.inr (Or.inl rfl)⟩
      | some res =>
        obtain ⟨ho, params⟩ := res
        cases ho with
        | none => exact ⟨s, hP, Or.inr (Or.inr ⟨hw, rfl⟩)⟩
        | some hs =>
          simp only
          have hch := runChain_ends hops hH hidx hrec hrecF fuel (-1) s.ctx.handlers
            (by omega) hs { s with ctx := { s.ctx with PathParams := params } }
            (hparams s params hP) hw hi rfl (hroute hs params hf)
          cases hc : runChain fuel hs { s with ctx := { s.ctx with PathParams := params } } with
          | ok s1 =>
            rw [hc] at hch
            exact ⟨s1, hch, Or.inl rfl⟩
          | panic s1 =>
            rw [hc] at hch
            exact ⟨s1, hch, Or.inr (Or.inl rfl)⟩
          | outOfFuel =>
            rw [hc] at hch
            exact hch.elim

/-! ## What happens after `written` is set -/

theorem lateOnly_ops : OpsPreserve (fun s => LateOnlyViaNext s.invoked) (fun _ => True) :=
  OpsPreserve.of_effect (fun _ _ _ _ _ hP => hP)

theorem LateOnlyViaNext.snoc {l : List Invocation} (h : LateOnlyViaNext l) (e : Invocation)
    (he : e.written = true → e.viaNext = true) : LateOnlyViaNext (l ++ [e]) := by
  intro x hx hw
  simp only [List.mem_append, List.mem_singleton] at hx
  rcases hx with hx | hx
  · exact h x hx hw
  · subst hx
    exact he hw

theorem sinkInv_ops (w : Sink) :
    OpsPreserve (fun s => HandlersIn Op.NoRaw s ∧ SinkInv w s) Op.NoRaw := by
  intro next op s hA hne hP
  obtain ⟨hH, hS⟩ := hP
  have keep : ∀ c1 : Context, c1.handlers = s.ctx.handlers → c1.written = s.ctx.written →
      c1.Response = s.ctx.Response →
      HandlersIn Op.NoRaw { s with ctx := c1 } ∧ SinkInv w { s with ctx := c1 } := by
    intro c1 h1 h2 h3
    refine ⟨by unfold HandlersIn; simp only [h1]; exact hH, ?_⟩
    unfold SinkInv at hS ⊢
    simp only [h2, h3]
    exact hS
  have wrote : ∀ (c1 : Context) (w1 : Sink), s.ctx.Wrote c1 → c1.Response = some w1 →
      OneWrite w w1 →
      HandlersIn Op.NoRaw { s with ctx := c1 } ∧ SinkInv w { s with ctx := c1 } := by
    intro c1 w1 hc1 hr how
    refine ⟨by unfold HandlersIn; simp only [hc1.2.1]; exact hH, Or.inr ⟨hc1.1, w1, hr, how⟩⟩
  cases op with
  | next => exact absurd rfl hne
  | html data => exact hA.elim
  | static filepath => exact hA.elim
  | status code => exact keep _ rfl rfl rfl
  | set key value => exact keep _ rfl rfl rfl
  | service name =>
    simp only [runOp]
    split
    · exact keep _ rfl rfl rfl
    · exact keep _ rfl rfl rfl
  | send data =>
    by_cases hw : s.ctx.written = true
    · simp only [runOp, Context.Send_written data hw, liftWrite]
      exact keep _ rfl rfl rfl
    · have hw' : s.ctx.written = false := by simpa using hw
      have hresp : s.ctx.Response = some w := by
        rcases hS with ⟨_, h⟩ | ⟨h, _⟩
        · exact h
        · exact absurd h hw
      obtain ⟨c1, hc1, hor⟩ := Context.Send_unwritten data hw'
      obtain ⟨evs, hevs⟩ := hc1.2.2.2.2.2.2
      rw [hresp] at hevs
      rcases hor with he | ⟨e, he⟩
      · simp only [runOp, he, liftWrite]
        exact wrote c1 _ hc1 hevs
          ⟨s.ctx, c1, data, none, hw', hresp, Or.inr (Or.inr (Or.inl he)), hevs⟩
      · simp only [runOp, he, liftWrite]
        exact wrote c1 _ hc1 hevs ⟨s.ctx, c1, data, e, hw', hresp, Or.inl he, hevs⟩
  | json data =>
    by_cases hw : s.ctx.written = true
    · simp only [runOp, Context.JSON_written data hw, liftWrite]
      exact keep _ rfl rfl rfl
    · have hw' : s.ctx.written = false := by simpa using hw
      have hresp : s.ctx.Response = some w := by
        rcases hS with ⟨_, h⟩ | ⟨h, _⟩
        · exact h
        · exact absurd h hw
      obtain ⟨c1, hc1, hor⟩ := Context.JSON_unwritten data hw'
      obtain ⟨evs, hevs⟩ := hc1.2.2.2.2.2.2
      rw [hresp] at hevs
      rcases hor with he | ⟨e, he⟩
      · simp only [runOp, he, liftWrite]
        exact wrote c1 _ hc1 hevs
          ⟨s.ctx, c1, data, none, hw', hresp, Or.inr (Or.inr (Or.inr he)), hevs⟩
      · simp only [runOp, he, liftWrite]
        exact wrote c1 _ hc1 hevs
          ⟨s.ctx, c1, data, e, hw', hresp, Or.inr (Or.inl he), hevs⟩

theorem viaNext_ops : OpsPreserve (fun s => ∀ e ∈ s.invoked, e.viaNext = true) (fun _ => True) :=
  OpsPreserve.of_effect (fun _ _ _ _ _ hP => hP)

/-- C10: if `written` is true when the process-wide middleware chain returns,
`ServeHTTP` returns at once: the sink is exactly as the middleware left it (no
404 is added), and the record holds only calls made through `Next` by the
middleware chain, none by a route chain. -/
theorem middleware_terminates (fuel : Nat) (a : App) (pooled : Context) (w : Sink)
    (req : Request) (s : Run)
    (hmw : a.runMiddleware fuel ⟨{ NewContext pooled w req with services := a.services }, []⟩ =
      Outcome.ok s)
    (hw : s.ctx.written = true) :
    ∃ d, a.ServeHTTP fuel pooled w req = Dispatch.returned d ∧
      d.response = s.ctx.Response ∧ d.invoked = s.invoked ∧
      (∀ e ∈ d.invoked, e.viaNext = true) := by
  have hpos : a.middleware.length > 0 := by
    by_contra hz
    unfold App.runMiddleware at hmw
    simp only [hz, if_false] at hmw
    injection hmw with hmw
    subst hmw
    simp [NewContext, Context.reset] at hw
  refine ⟨finish s, ?_, rfl, rfl, ?_⟩
  · unfold App.ServeHTTP
    simp only [hmw, hpos, hw, and_self, if_true]
  · have hall := Context.Next_all viaNext_ops (fun _ _ _ _ _ _ => trivial) (fun _ h => h)
      (fun s h hP e he => by
        simp only [List.mem_append, List.mem_singleton] at he
        rcases he with he | he
        · exact hP e he
        · subst he
          rfl)
      fuel ⟨({ NewContext pooled w req with services := a.services }).setHandlers
        a.middleware, []⟩ (fun e he => by simp at he)
    unfold App.runMiddleware at hmw
    simp only [hpos, if_true] at hmw
    rw [hmw] at hall
    exact hall

/-- C10 at `TestMiddlewareTermination`: the middleware answers 403 with the
body `Forbidden` and the route handler is not called. -/
theorem middleware_terminates_witness :
    ∃ d, forbidApp.ServeHTTP 1 Context.poolNew [] getTest = Dispatch.returned d ∧
      d.response = some [SinkEvent.setHeader "Content-Type".toList
          "text/plain; charset=utf-8".toList,
        SinkEvent.writeHeader 403, SinkEvent.write "Forbidden".toList] ∧
      d.response.map Sink.status = some 403 ∧
      d.response.map Sink.body = some "Forbidden".toList ∧
      d.invoked = [⟨forbid, false, true⟩] ∧
      (∀ e ∈ d.invoked, e.viaNext = true) := by
  obtain ⟨d, h1, h2, h3, h4⟩ := middleware_terminates 1 forbidApp Context.poolNew [] getTest
    ((forbidApp.runMiddleware 1
      ⟨{ NewContext Context.poolNew [] getTest with services := forbidApp.services }, []⟩).state
      ⟨Context.poolNew, []⟩) rfl rfl
  have h2' : d.response = some [SinkEvent.setHeader "Content-Type".toList
      "text/plain; charset=utf-8".toList,
    SinkEvent.writeHeader 403, SinkEvent.write "Forbidden".toList] := h2
  refine ⟨d, h1, h2', ?_, ?_, h3, h4⟩
  · rw [h2']
    rfl
  · rw [h2']
    rfl

/-! ## The tokenizer splits at every slash -/

theorem splitAtSlash_ne_nil (p : Str) : splitAtSlash p ≠ [] := by
  cases p with
  | nil => simp [splitAtSlash]
  | cons c cs =>
    unfold splitAtSlash
    by_cases hc : c = '/'
    · simp [hc]
    · simp only [hc, if_false]
      cases splitAtSlash cs <;> simp

theorem splitAtSlash_eq_splitOn (p : Str) : splitAtSlash p = p.splitOn '/' := by
  induction p with
  | nil => rfl
  | cons c cs ih =>
    unfold splitAtSlash
    rw [List.splitOn, List.splitOnP_cons, ← List.splitOn, ← ih]
    by_cases hc : c = '/'
    · simp [hc]
    · simp only [hc, if_false, beq_iff_eq]
      cases hsp : splitAtSlash cs with
      | nil => exact (splitAtSlash_ne_nil cs hsp).elim
      | cons piece pieces => simp [List.modifyHead]

theorem splitAtSlash_noslash {cur : Str} (h : '/' ∉ cur) : splitAtSlash cur = [cur] := by
  induction cur with
  | nil => rfl
  | cons c cs ih =>
    have hc : c ≠ '/' := fun e => h (by simp [e])
    have hcs : '/' ∉ cs := fun e => h (by simp [e])
    simp [splitAtSlash, hc, ih hcs]

theorem splitAtSlash_append {cur : Str} (rest : Str) (h : '/' ∉ cur) :
    splitAtSlash (cur ++ '/' :: rest) = cur :: splitAtSlash rest := by
  induction cur with
  | nil => simp [splitAtSlash]
  | cons c cs ih =>
    have hc : c ≠ '/' := fun e => h (by simp [e])
    have hcs : '/' ∉ cs := fun e => h (by simp [e])
    simp [splitAtSlash, hc, ih hcs]

theorem splitAtSlash_pieces (p : Str) : ∀ s ∈ splitAtSlash p, '/' ∉ s := by
  induction p with
  | nil => simp [splitAtSlash]
  | cons c cs ih =>
    unfold splitAtSlash
    by_cases hc : c = '/'
    · simp only [hc, if_true]
      intro s hs
      rcases List.mem_cons.1 hs with h | h
      · simp [h]
      · exact ih s h
    · simp only [hc, if_false]
      cases hsp : splitAtSlash cs with
      | nil => simp; exact fun e => hc e.symm
      | cons piece pieces =>
        rw [hsp] at ih
        intro s hs
        rcases List.mem_cons.1 hs with h | h
        · subst h
          have := ih piece (by simp)
          simp [this]; exact fun e => hc e.symm
        · exact ih s (by simp [h])

theorem slice_mid (pre cur rest : Str) :
    slice (pre ++ cur ++ rest) pre.length (pre.length + cur.length) = cur := by
  simp [slice, List.take_append_eq_append_take, List.drop_append_eq_append_drop]


theorem getPathPartsLoop_spec (path : Str) :
    ∀ (rest pre cur : Str) (parts : List Str), path = pre ++ cur ++ rest → '/' ∉ cur →
      (let res := getPathPartsLoop path rest (pre.length + cur.length) pre.length parts
       if res.1 < path.length then res.2 ++ [slice path res.1 path.length] else res.2) =
        parts ++ segmentsOf (cur ++ rest) := by
  intro rest
  induction rest with
  | nil =>
    intro pre cur parts hp hcur
    subst hp
    simp only [getPathPartsLoop, List.append_nil, segmentsOf, splitAtSlash_noslash hcur]
    cases cur with
    | nil => simp
    | cons c cs =>
      have := slice_mid pre (c :: cs) []
      simp only [List.append_nil] at this
      simpa using this
  | cons ch rest ih =>
    intro pre cur parts hp hcur
    unfold getPathPartsLoop
    by_cases hc : ch = '/'
    · subst hc
      simp only [if_true]
      have h1 := ih (pre ++ cur ++ ['/']) [] 
        (if pre.length + cur.length > pre.length then
          parts ++ [slice path pre.length (pre.length + cur.length)] else parts)
        (by simp [hp]) (by simp)
      simp only [List.length_append, List.length_singleton, List.length_nil, Nat.add_zero,
        List.nil_append] at h1
      rw [h1]
      have hs : slice path pre.length (pre.length + cur.length) = cur := by
        rw [hp]; exact slice_mid pre cur _
      rw [hs]
      simp only [segmentsOf, splitAtSlash_append rest hcur]
      cases cur with
      | nil => simp
      | cons c cs => simp
    · simp only [hc, if_false]
      have h1 := ih pre (cur ++ [ch]) parts (by simp [hp]) (by
        simp only [List.mem_append, List.mem_singleton, not_or]
        exact ⟨hcur, fun e => hc e.symm⟩)
      simp only [List.length_append, List.length_singleton, ← Nat.add_assoc] at h1
      rw [h1]
      simp

theorem getPathParts_segmentsOf (p : Str) : getPathParts p = segmentsOf p := by
  unfold getPathParts
  by_cases h0 : p = [] ∨ p = ['/']
  · rw [if_pos h0]
    rcases h0 with h | h <;> subst h <;> simp [segmentsOf, splitAtSlash]
  · rw [if_neg h0]
    cases p with
    | nil => simp at h0
    | cons c t =>
      by_cases hc : c = '/'
      · subst hc
        have := getPathPartsLoop_spec ('/' :: t) t ['/'] [] [] (by simp) (by simp)
        simp only [List.length_singleton, List.length_nil, Nat.add_zero, List.nil_append] at this
        simp only [List.head?_cons, if_true, List.drop_succ_cons, List.drop_zero]
        rw [this]
        simp [segmentsOf, splitAtSlash]
      · have := getPathPartsLoop_spec (c :: t) (c :: t) [] [] [] (by simp) (by simp)
        simp only [List.length_nil, Nat.add_zero, List.nil_append] at this
        have hh : ¬ (some c = some '/') := by simpa using hc
        simp only [List.head?_cons, hh, if_false, List.drop_zero]
        rw [this]

theorem getPathPartsIn_eq (buf : List Str) (p : Str) : getPathPartsIn buf p = getPathParts p := by
  simp [getPathPartsIn, getPathParts]


/-- C14: the tokenizer returns, in order, the non-empty pieces of the path split
at every slash (both as the library function `List.splitOn` and as
`segmentsOf` spell it); every segment is non-empty and has no slash in it; the
empty path and the root path give no segment; a leading slash adds none; and
what the pooled buffer held has no influence on the result. -/
theorem getPathParts_split (p : Str) :
    getPathParts p = (p.splitOn '/').filter (fun s => decide (s ≠ [])) ∧
    getPathParts p = segmentsOf p ∧
    (∀ s ∈ getPathParts p, s ≠ [] ∧ '/' ∉ s) ∧
    getPathParts [] = [] ∧ getPathParts ['/'] = [] ∧
    getPathParts ('/' :: p) = getPathParts p ∧
    ∀ buf : List Str, getPathPartsIn buf p = getPathParts p := by
  refine ⟨?_, getPathParts_segmentsOf p, ?_, by simp [getPathParts], by simp [getPathParts],
    ?_, fun buf => getPathPartsIn_eq buf p⟩
  · rw [getPathParts_segmentsOf, segmentsOf, splitAtSlash_eq_splitOn]
  · intro s hs
    rw [getPathParts_segmentsOf, segmentsOf, List.mem_filter] at hs
    exact ⟨by simpa using hs.2, splitAtSlash_pieces p s hs.1⟩
  · rw [getPathParts_segmentsOf, getPathParts_segmentsOf]
    simp [segmentsOf, splitAtSlash]

/-! ## The written flag and the pooled Context -/

/-- C11: `Send` and `JSON` on a Context that has already written return
`ErrResponseAlreadySent` and leave the Context alone, but `HTML` and `Static`
do not look at `written`: on the same Context they return no error and append
a header, a status line and a body (or the served file) to the sink. -/
theorem html_static_after_written :
    sentOnce.written = true ∧
    sentOnce.Response = some
      [SinkEvent.setHeader "Content-Type".toList "text/plain; charset=utf-8".toList,
       SinkEvent.writeHeader 200, SinkEvent.write "first".toList] ∧
    (∀ data, sentOnce.Send data = Except.ok (some SendErr.responseAlreadySent, sentOnce)) ∧
    (∀ data, sentOnce.JSON data = Except.ok (some SendErr.responseAlreadySent, sentOnce)) ∧
    (∃ c1, sentOnce.HTML "second".toList = Except.ok (none, c1) ∧ c1.written = true ∧
      c1.Response = some
        [SinkEvent.setHeader "Content-Type".toList "text/plain; charset=utf-8".toList,
         SinkEvent.writeHeader 200, SinkEvent.write "first".toList,
         SinkEvent.setHeader "Content-Type".toList "text/html; charset=utf-8".toList,
         SinkEvent.writeHeader 200, SinkEvent.write "second".toList]) ∧
    (∃ c1, sentOnce.Static "index.html".toList = Except.ok (none, c1) ∧ c1.written = true ∧
      c1.Response = some
        [SinkEvent.setHeader "Content-Type".toList "text/plain; charset=utf-8".toList,
         SinkEvent.writeHeader 200, SinkEvent.write "first".toList,
         SinkEvent.serveFile "index.html".toList]) :=
  ⟨rfl, rfl, fun _ => rfl, fun _ => rfl, ⟨_, rfl, rfl, rfl⟩, ⟨_, rfl, rfl, rfl⟩⟩

/-- C12: whatever state a Context was left in, releasing it and taking it
again through `NewContext` gives a Context with no path parameter, an empty
store, the cursor at -1, `written` false, pending status 200 and no handler
installed. -/
theorem reset_after_release (c : Context) (w : Sink) (r : Request) :
    (∀ k, (NewContext c.release w r).PathParams.bind (fun m => m k) = none) ∧
    (∀ k, (NewContext c.release w r).Param k = []) ∧
    (∀ k, (NewContext c.release w r).Get k = none) ∧
    (NewContext c.release w r).index = -1 ∧
    (NewContext c.release w r).written = false ∧
    (NewContext c.release w r).status = 200 ∧
    (NewContext c.release w r).handlers = [] ∧
    (NewContext c.release w r).Response = some w := by
  have h : ∀ k, (NewContext c.release w r).PathParams.bind (fun m => m k) = none := by
    intro k
    cases hp : c.PathParams <;> simp [NewContext, Context.reset, Context.release, hp, GoMap.empty]
  refine ⟨h, ?_, ?_, rfl, rfl, rfl, rfl, rfl⟩
  · intro k
    simp [Context.Param, h k]
  · intro k
    simp [Context.Get, NewContext, Context.reset, GoMap.empty]

/-! ## Registering twice, the order of a chain, and unrecognized handlers -/

theorem Router.Find_congr {r r1 : Router} (hr : r1.router = r.router)
    (hl : ∀ m p, r1.lookup m p = r.lookup m p) (m path : Str) :
    r1.Find m path = r.Find m path := by
  have h1 : ∀ p, (match r1.routes m with
      | some methodRoutes => methodRoutes p
      | none => none) = r1.lookup m p := by
    intro p
    unfold Router.lookup
    cases r1.routes m <;> rfl
  have h2 : ∀ p, (match r.routes m with
      | some methodRoutes => methodRoutes p
      | none => none) = r.lookup m p := by
    intro p
    unfold Router.lookup
    cases r.routes m <;> rfl
  unfold Router.Find
  simp only [h1, h2, hr]
  have h3 : ∀ p, (r1.routes m).bind (fun inner => inner p) = (r.routes m).bind (fun inner => inner p) :=
    fun p => hl m p
  simp only [hl, h3]

theorem convertAll_eq_none {hs : List HandlerArg} (h : HandlerArg.other ∈ hs) :
    convertAll hs = none := by
  induction hs with
  | nil => simp at h
  | cons a rest ih =>
    rcases List.mem_cons.1 h with h1 | h1
    · subst h1
      simp [convertAll, convertToRouteHandler]
    · simp only [convertAll, ih h1]
      cases convertToRouteHandler a <;> rfl

theorem convertAll_pointwise {hs : List HandlerArg} {converted : List Handler}
    (h : convertAll hs = some converted) :
    List.Forall₂ (fun a c => convertToRouteHandler a = some c) hs converted := by
  induction hs generalizing converted with
  | nil =>
    simp only [convertAll, Option.some.injEq] at h
    subst h
    exact List.Forall₂.nil
  | cons a rest ih =>
    simp only [convertAll] at h
    cases h1 : convertToRouteHandler a with
    | none => simp [h1] at h
    | some c =>
      cases h2 : convertAll rest with
      | none => simp [h1, h2] at h
      | some cs =>
        simp only [h1, h2, Option.some.injEq] at h
        subst h
        exact List.Forall₂.cons h1 (ih h2)

/-- C13: registering the key `(m, p)` a second time overwrites the first
registration.  After `Add(m, p, H1)` and `Add(m, p, H2)` with `H2` non-empty
the route table holds, under `(m, normalizePath(p))`, the route whose chain is
the router middleware followed by the converted handlers of `H2`; `Find` on
the normalized path returns that chain, and so does `Find` on every path whose
trie walk ends at a node that carries a handler and the path of this route. -/
theorem readd_overwrites (r0 r1 r2 : Router) (m p : Str) (H1 H2 : List HandlerArg)
    (hadd1 : r0.Add m p H1 = Except.ok r1) (hadd2 : r1.Add m p H2 = Except.ok r2)
    (hne : H2 ≠ []) :
    ∃ c2, convertAll H2 = some c2 ∧
      r2.lookup m (normalizePath p) =
        some ⟨normalizePath p, some (r0.middleware ++ c2), m, getPathParts (normalizePath p)⟩ ∧
      r2.Find m (normalizePath p) = some (some (r0.middleware ++ c2), none) ∧
      ∀ (path : Str) (root d : RouteNode) (ps : GoMap Str),
        r2.lookup m path = none → r2.router = some root →
        root.find (getPathParts path) GoMap.empty = (some d, ps) →
        d.handler ≠ none → d.path = normalizePath p →
        r2.Find m path = some (some (r0.middleware ++ c2), some ps) := by
  obtain ⟨c1, _, hmw1, _, _⟩ := Router.Add_ok_inv hadd1
  obtain ⟨c2, hc2, _, _, hl⟩ := Router.Add_ok_inv hadd2
  have hc2ne : c2 ≠ [] := convertAll_ne_nil hne hc2
  have hlen : (r1.middleware ++ c2).length > 0 := by
    cases c2 with
    | nil => exact (hc2ne rfl).elim
    | cons a rest => simp
  rw [hmw1] at hl hlen
  have hkey := hl m (normalizePath p)
  simp only [and_self, if_true, hlen] at hkey
  refine ⟨c2, hc2, hkey, ?_, ?_⟩
  · rw [Router.Find_of_lookup hkey]
  · intro path root d ps hmiss hroot hfind hh hp
    unfold Router.lookup at hmiss hkey
    unfold Router.Find
    have hdirect : (match r2.routes m with
        | some methodRoutes => methodRoutes path
        | none => none) = none := by
      cases hr : r2.routes m with
      | none => rfl
      | some inner => simpa [hr] using hmiss
    simp only [hdirect, hroot, hfind, hh, hp, hkey, ne_eq, not_false_eq_true, if_true]

/-- C13 at a concrete router: `GET /users/:id` registered with `hA` and then
with `hD`; the table entry, `Find` on the pattern string and `Find` on
`/users/42` (through the trie) all give the chain of `hD`. -/
theorem readd_overwrites_witness :
    ∃ c2, convertAll [HandlerArg.func hD] = some c2 ∧
      readdRouter.lookup MethodGet (normalizePath "/users/:id".toList) =
        some ⟨normalizePath "/users/:id".toList, some (Router.zero.middleware ++ c2), MethodGet,
          getPathParts (normalizePath "/users/:id".toList)⟩ ∧
      readdRouter.Find MethodGet (normalizePath "/users/:id".toList) =
        some (some (Router.zero.middleware ++ c2), none) ∧
      ∃ ps, ps "id".toList = some "42".toList ∧
        readdRouter.Find MethodGet "/users/42".toList =
          some (some (Router.zero.middleware ++ c2), some ps) := by
  obtain ⟨c2, hc, hl, hf, hall⟩ := readd_overwrites Router.zero usersRouter readdRouter MethodGet
    "/users/:id".toList [HandlerArg.func hA] [HandlerArg.func hD] rfl rfl (by decide)
  exact ⟨c2, hc, hl, hf, _, by decide,
    hall "/users/42".toList _ _ _ rfl rfl rfl (by decide) (by decide)⟩

/-- C16: `convertToRouteHandler` fails (the panic of its default case) exactly
on an argument that is none of a string, a `RouteHandler`, a `func(*Context)`
or a `Middleware`; and `Add` with such an argument among its handlers panics,
leaving the trie and the middleware untouched and every route-table read and
every `Find` result as before the call. -/
theorem add_unrecognized_handler (r : Router) (m p : Str) (hs : List HandlerArg)
    (hbad : HandlerArg.other ∈ hs) :
    (∀ a, convertToRouteHandler a = none ↔ a = HandlerArg.other) ∧
    ∃ r1, r.Add m p hs = Except.error r1 ∧ r1.router = r.router ∧
      r1.middleware = r.middleware ∧
      (∀ m1 p1, r1.lookup m1 p1 = r.lookup m1 p1) ∧
      ∀ m1 path, r1.Find m1 path = r.Find m1 path := by
  refine ⟨fun a => by cases a <;> simp [convertToRouteHandler], ?_⟩
  have hl : ∀ m1 p1, Router.lookup { r with routes :=
      (match r.routes m with
        | none => r.routes.set m GoMap.empty
        | some _ => r.routes) } m1 p1 = r.lookup m1 p1 := by
    intro m1 p1
    unfold Router.lookup
    cases hr : r.routes m with
    | some inner => rfl
    | none =>
      by_cases hm : m1 = m
      · subst hm
        simp [GoMap.set, hr, GoMap.empty]
      · simp [GoMap.set, hm]
  have hadd : r.Add m p hs = Except.error { r with routes :=
      (match r.routes m with
        | none => r.routes.set m GoMap.empty
        | some _ => r.routes) } := by
    simp only [Router.Add, convertAll_eq_none hbad]
  exact ⟨_, hadd, rfl, rfl, hl, fun m1 path => by
    refine @Router.Find_congr r _ ?_ hl m1 path
    rfl⟩

/-- C16 at a concrete router: adding `GET /users/me` to `usersRouter` with an
unrecognized handler after a recognized one panics, and `Find` for the route
that was there and for the new path answer as before. -/
theorem add_unrecognized_handler_witness :
    (∀ a, convertToRouteHandler a = none ↔ a = HandlerArg.other) ∧
    ∃ r1, usersRouter.Add MethodGet "/users/me".toList [HandlerArg.func hD, HandlerArg.other] =
        Except.error r1 ∧ r1.router = usersRouter.router ∧
      r1.middleware = usersRouter.middleware ∧
      (∀ m1 p1, r1.lookup m1 p1 = usersRouter.lookup m1 p1) ∧
      ∀ m1 path, r1.Find m1 path = usersRouter.Find m1 path :=
  add_unrecognized_handler usersRouter MethodGet "/users/me".toList
    [HandlerArg.func hD, HandlerArg.other] (by decide)

/-! ## The status a response helper emits -/

theorem Context.Status_foldl (codes : List Int) (c : Context) :
    (codes.foldl Context.Status c).status = (codes.getLast?).getD c.status ∧
    (codes.foldl Context.Status c).written = c.written ∧
    (codes.foldl Context.Status c).Response = c.Response := by
  induction codes generalizing c with
  | nil => exact ⟨rfl, rfl, rfl⟩
  | cons code rest ih =>
    obtain ⟨h1, h2, h3⟩ := ih (c.Status code)
    simp only [List.foldl_cons]
    refine ⟨?_, h2, h3⟩
    rw [h1]
    cases rest with
    | nil => rfl
    | cons b rest =>
      cases hl : (b :: rest).getLast? with
      | none => simp at hl
      | some l =>
        rw [List.getLast?_cons_cons, hl]
        rfl

theorem Context.Send_emits {c : Context} {w : Sink} (data : Value)
    (hw : c.written = false) (hr : c.Response = some w)
    (hcode : 100 ≤ (if c.status = 0 then 200 else c.status) ∧
      (if c.status = 0 then 200 else c.status) ≤ 999) :
    ∃ e c1 evs, c.Send data = Except.ok (e, c1) ∧ c1.Response = some (w ++ evs) ∧
      Sink.writeHeaders evs = [if c.status = 0 then 200 else c.status] ∧
      Sink.status evs = (if c.status = 0 then 200 else c.status) := by
  cases c with
  | mk Response Request PathParams QueryParams Method written handlers index Store status services =>
    simp only at hw hr hcode
    subst hw hr
    unfold Context.Send
    simp only [Context.defaultStatus, Bool.false_eq_true, if_false,
      Sink.WriteHeader_valid _ hcode]
    cases data with
    | mk shape json =>
      cases shape with
      | str v =>
        exact ⟨_, _, [SinkEvent.setHeader _ _, SinkEvent.writeHeader _, SinkEvent.write _],
          rfl, by simp only [List.append_assoc]; rfl, rfl, rfl⟩
      | bytes v =>
        exact ⟨_, _, [SinkEvent.setHeader _ _, SinkEvent.writeHeader _, SinkEvent.write _],
          rfl, by simp only [List.append_assoc]; rfl, rfl, rfl⟩
      | null => exact ⟨_, _, [SinkEvent.writeHeader _], rfl, rfl, rfl, rfl⟩
      | other =>
        cases json with
        | none =>
          exact ⟨_, _, [SinkEvent.setHeader _ _, SinkEvent.writeHeader _], rfl,
            by simp only [encodeTo, List.append_assoc]; rfl, rfl, rfl⟩
        | some enc =>
          exact ⟨_, _, [SinkEvent.setHeader _ _, SinkEvent.writeHeader _, SinkEvent.write _],
            rfl, by simp only [encodeTo, List.append_assoc]; rfl, rfl, rfl⟩

theorem Context.JSON_emits {c : Context} {w : Sink} (data : Value)
    (hw : c.written = false) (hr : c.Response = some w)
    (hcode : 100 ≤ (if c.status = 0 then 200 else c.status) ∧
      (if c.status = 0 then 200 else c.status) ≤ 999) :
    ∃ e c1 evs, c.JSON data = Except.ok (e, c1) ∧ c1.Response = some (w ++ evs) ∧
      Sink.writeHeaders evs = [if c.status = 0 then 200 else c.status] ∧
      Sink.status evs = (if c.status = 0 then 200 else c.status) := by
  cases c with
  | mk Response Request PathParams QueryParams Method written handlers index Store status services =>
    simp only at hw hr hcode
    subst hw hr
    unfold Context.JSON
    simp only [Context.defaultStatus, Bool.false_eq_true, if_false,
      Sink.WriteHeader_valid _ hcode]
    cases data with
    | mk shape json =>
      by_cases hn : shape = Shape.null
      · simp only [hn, if_true]
        exact ⟨_, _, [SinkEvent.setHeader _ _, SinkEvent.setHeader _ _, SinkEvent.writeHeader _,
          SinkEvent.write _], rfl, by simp only [List.append_assoc]; rfl, rfl, rfl⟩
      · simp only [hn, if_false]
        cases json with
        | none =>
          exact ⟨_, _, [SinkEvent.setHeader _ _, SinkEvent.setHeader _ _,
            SinkEvent.writeHeader _], rfl,
            by simp only [encodeTo, List.append_assoc]; rfl, rfl, rfl⟩
        | some enc =>
          exact ⟨_, _, [SinkEvent.setHeader _ _, SinkEvent.setHeader _ _,
            SinkEvent.writeHeader _, SinkEvent.write _], rfl,
            by simp only [encodeTo, List.append_assoc]; rfl, rfl, rfl⟩

theorem Sink.wroteHeader_setHeader (w : Sink) (k v : Str) (rest : Sink) :
    Sink.wroteHeader (w ++ SinkEvent.setHeader k v :: rest) = Sink.wroteHeader (w ++ rest) := by
  induction w with
  | nil => rfl
  | cons a w1 ih =>
    cases a with
    | setHeader k1 v1 => exact ih
    | writeHeader code => rfl
    | write b => rfl
    | serveFile f => rfl

theorem Context.Send_invalid {c : Context} {w : Sink} (data : Value)
    (hw : c.written = false) (hr : c.Response = some w) (hfresh : w.wroteHeader = false)
    (hcode : ¬ (100 ≤ (if c.status = 0 then 200 else c.status) ∧
      (if c.status = 0 then 200 else c.status) ≤ 999)) :
    ∃ c1 evs, c.Send data = Except.error c1 ∧ c1.Response = some (w ++ evs) ∧
      Sink.writeHeaders evs = [] := by
  have hset : ∀ k v, Sink.wroteHeader (w ++ [SinkEvent.setHeader k v]) = false := by
    intro k v
    rw [Sink.wroteHeader_setHeader, List.append_nil]
    exact hfresh
  cases c with
  | mk Response Request PathParams QueryParams Method written handlers index Store status services =>
    simp only at hw hr hcode
    subst hw hr
    unfold Context.Send
    simp only [Context.defaultStatus, Bool.false_eq_true, if_false,
      Sink.WriteHeader_invalid (hset _ _) hcode, Sink.WriteHeader_invalid hfresh hcode]
    cases data with
    | mk shape json =>
      cases shape with
      | str v => exact ⟨_, [SinkEvent.setHeader _ _], rfl, rfl, rfl⟩
      | bytes v => exact ⟨_, [SinkEvent.setHeader _ _], rfl, rfl, rfl⟩
      | null => exact ⟨_, [], rfl, by simp, rfl⟩
      | other => exact ⟨_, [SinkEvent.setHeader _ _], rfl, rfl, rfl⟩

theorem Context.JSON_invalid {c : Context} {w : Sink} (data : Value)
    (hw : c.written = false) (hr : c.Response = some w) (hfresh : w.wroteHeader = false)
    (hcode : ¬ (100 ≤ (if c.status = 0 then 200 else c.status) ∧
      (if c.status = 0 then 200 else c.status) ≤ 999)) :
    ∃ c1 evs, c.JSON data = Except.error c1 ∧ c1.Response = some (w ++ evs) ∧
      Sink.writeHeaders evs = [] := by
  have hset : ∀ k v k2 v2,
      Sink.wroteHeader (w ++ [SinkEvent.setHeader k v, SinkEvent.setHeader k2 v2]) = false := by
    intro k v k2 v2
    rw [Sink.wroteHeader_setHeader, Sink.wroteHeader_setHeader, List.append_nil]
    exact hfresh
  cases c with
  | mk Response Request PathParams QueryParams Method written handlers index Store status services =>
    simp only at hw hr hcode
    subst hw hr
    unfold Context.JSON
    simp only [Context.defaultStatus, Bool.false_eq_true, if_false,
      Sink.WriteHeader_invalid (hset _ _ _ _) hcode]
    exact ⟨_, [SinkEvent.setHeader _ _, SinkEvent.setHeader _ _], rfl, rfl, rfl⟩

/-- C19 as stated fails: after `Status(99)` on a fresh Context the pending code
is 99, but `Send` and `JSON` do not emit it: `WriteHeader` panics on a code
outside 100..999, the call does not return, and no status has reached the
sink. -/
theorem send_invalid_status_panics :
    pendingCode [99] = 99 ∧
    (∃ c1, ([99].foldl Context.Status (NewContext Context.poolNew [] getTest)).Send
        ⟨Shape.str "x".toList, none⟩ = Except.error c1 ∧
      c1.Response.map Sink.writeHeaders = some []) ∧
    (∃ c1, ([99].foldl Context.Status (NewContext Context.poolNew [] getTest)).JSON
        ⟨Shape.other, some "1".toList⟩ = Except.error c1 ∧
      c1.Response.map Sink.writeHeaders = some []) :=
  ⟨by decide, ⟨_, rfl, rfl⟩, ⟨_, rfl, rfl⟩⟩

/-- C19 (amended): on a Context fresh from `NewContext`, after the calls
`Status(code)` for any list of codes whose pending code (the one set last, and
200 when `Status` was never called or the code set last is 0) lies in
100..999, `Send` and `JSON` return and pass exactly that code to `WriteHeader`,
once; it is the status the sink reports for the calls it received.  With a
pending code outside 100..999 and a response writer that has not sent its
header, `Send` and `JSON` do not return: `WriteHeader` panics and no code is
emitted. -/
theorem send_status_code (pooled : Context) (w : Sink) (r : Request) (codes : List Int)
    (data : Value) :
    (100 ≤ pendingCode codes ∧ pendingCode codes ≤ 999 →
      (∃ e c1 evs, (codes.foldl Context.Status (NewContext pooled w r)).Send data =
          Except.ok (e, c1) ∧ c1.Response = some (w ++ evs) ∧
        Sink.writeHeaders evs = [pendingCode codes] ∧ Sink.status evs = pendingCode codes) ∧
      (∃ e c1 evs, (codes.foldl Context.Status (NewContext pooled w r)).JSON data =
          Except.ok (e, c1) ∧ c1.Response = some (w ++ evs) ∧
        Sink.writeHeaders evs = [pendingCode codes] ∧ Sink.status evs = pendingCode codes)) ∧
    (¬ (100 ≤ pendingCode codes ∧ pendingCode codes ≤ 999) → w.wroteHeader = false →
      (∃ c1 evs, (codes.foldl Context.Status (NewContext pooled w r)).Send data =
          Except.error c1 ∧ c1.Response = some (w ++ evs) ∧ Sink.writeHeaders evs = []) ∧
      (∃ c1 evs, (codes.foldl Context.Status (NewContext pooled w r)).JSON data =
          Except.error c1 ∧ c1.Response = some (w ++ evs) ∧ Sink.writeHeaders evs = [])) := by
  obtain ⟨hs, hw, hr⟩ := Context.Status_foldl codes (NewContext pooled w r)
  have hw1 : (codes.foldl Context.Status (NewContext pooled w r)).written = false := hw
  have hr1 : (codes.foldl Context.Status (NewContext pooled w r)).Response = some w := hr
  have hcode : (if (codes.foldl Context.Status (NewContext pooled w r)).status = 0 then 200
      else (codes.foldl Context.Status (NewContext pooled w r)).status) = pendingCode codes := by
    rw [hs]
    unfold pendingCode
    cases codes.getLast? with
    | none => simp [NewContext, Context.reset]
    | some code => simp
  constructor
  · intro hrange
    have hS := Context.Send_emits data hw1 hr1 (by rw [hcode]; exact hrange)
    have hJ := Context.JSON_emits data hw1 hr1 (by rw [hcode]; exact hrange)
    rw [hcode] at hS hJ
    exact ⟨hS, hJ⟩
  · intro hrange hfresh
    exact ⟨Context.Send_invalid data hw1 hr1 hfresh (by rw [hcode]; exact hrange),
      Context.JSON_invalid data hw1 hr1 hfresh (by rw [hcode]; exact hrange)⟩

/-- C19 (amended) at `TestErrorHandling`: after `Status(404)` and then
`Status(201)` the pending code is 201, and `Send` and `JSON` emit 201. -/
theorem send_status_code_witness :
    (100 ≤ pendingCode [404, 201] ∧ pendingCode [404, 201] ≤ 999) ∧
    pendingCode [404, 201] = 201 ∧
    (∃ e c1 evs, ([404, 201].foldl Context.Status (NewContext Context.poolNew [] getTest)).Send
        ⟨Shape.str "x".toList, none⟩ = Except.ok (e, c1) ∧ c1.Response = some ([] ++ evs) ∧
      Sink.writeHeaders evs = [pendingCode [404, 201]] ∧
      Sink.status evs = pendingCode [404, 201]) ∧
    (∃ e c1 evs, ([404, 201].foldl Context.Status (NewContext Context.poolNew [] getTest)).JSON
        ⟨Shape.str "x".toList, none⟩ = Except.ok (e, c1) ∧ c1.Response = some ([] ++ evs) ∧
      Sink.writeHeaders evs = [pendingCode [404, 201]] ∧
      Sink.status evs = pendingCode [404, 201]) :=
  ⟨by decide, by decide,
    (send_status_code Context.poolNew [] getTest [404, 201] ⟨Shape.str "x".toList, none⟩).1
      (by decide)⟩

/-! ## Services -/

theorem services_ops (sv : GoMap Str) :
    OpsPreserve (fun s => s.ctx.services = sv) (fun _ => True) :=
  OpsPreserve.of_effect (fun _ _ _ _ heff hP => heff.frame.2.2.1.trans hP)

theorem Context.Next_services (fuel : Nat) (s : Run) :
    (Context.Next fuel s).All (fun t => t.ctx.services = s.ctx.services) :=
  Context.Next_all (services_ops s.ctx.services) (fun _ _ _ _ _ _ => trivial) (fun _ h => h)
    (fun _ _ h => h) fuel s rfl

theorem runChain_services (fuel : Nat) (hs : List Handler) (s : Run) :
    (runChain fuel hs s).All (fun t => t.ctx.services = s.ctx.services) := by
  unfold runChain
  refine chain_all (P := fun t => t.ctx.services = s.ctx.services) ?_ hs s rfl
  intro h u hu
  unfold callHandler
  refine runBody_all (services_ops s.ctx.services) ?_ h.body _ (fun _ _ => trivial) hu
  intro t ht
  exact Outcome.all_mono (Context.Next_services fuel t) (fun x hx => hx.trans ht)

/-- A lookup of a registered service placed anywhere in a handler body
returns and changes nothing: the body runs as it does without the lookup. -/
theorem runBody_service_insert (fuel : Nat) (n v : Str) (post : List Op) :
    ∀ (pre : List Op) (s : Run), s.ctx.services n = some v →
      runBody (Context.Next fuel) (pre ++ Op.service n :: post) s =
        runBody (Context.Next fuel) (pre ++ post) s := by
  intro pre
  induction pre with
  | nil =>
    intro s hs
    simp only [List.nil_append, runBody, runOp, Context.Service, hs]
  | cons op rest ih =>
    intro s hs
    have h1 : (runOp (Context.Next fuel) op s).All (fun t => t.ctx.services = s.ctx.services) := by
      by_cases hop : op = Op.next
      · subst hop
        exact Context.Next_services fuel s
      · exact (services_ops s.ctx.services (Context.Next fuel) op s trivial hop rfl).all
    simp only [List.cons_append, runBody]
    cases hr : runOp (Context.Next fuel) op s with
    | ok s1 =>
      rw [hr] at h1
      exact ih s1 (by rw [h1]; exact hs)
    | panic s1 => rfl
    | outOfFuel => rfl

/-- C17: after `App.Service(n, v)` the services of the app map `n` to `v`
(the value registered last), so `Context.Service(n)` returns `v` on every
Context that carries them, and inside a handler the call returns: placed
anywhere in a handler body, it leaves the run of the body as it is.  `ServeHTTP`
installs the services of the app on the Context before any handler runs, no
Context call, `Next` or route chain changes them, and the Context still
carries them when the dispatch ends.  For a name the services do not hold,
`Context.Service` panics, and an app built from `New` by `Service` calls holds
no name that was not registered. -/
theorem service_lookup (a : App) (n v : Str) (fuel : Nat) (pooled : Context) (w : Sink)
    (req : Request) (hfuel : (a.Service n v).middleware.length ≤ fuel)
    (hpool : pooled.handlers.length ≤ fuel) :
    (∀ c : Context, c.services = (a.Service n v).services → c.Service n = some v) ∧
    (∀ (next : Run → Outcome) (s : Run), s.ctx.services = (a.Service n v).services →
      runOp next (Op.service n) s = Outcome.ok s) ∧
    (∀ (next : Run → Outcome) (op : Op) (s : Run), op ≠ Op.next →
      (runOp next op s).Ends (fun t => t.ctx.services = s.ctx.services)) ∧
    (∀ (k : Nat) (pre post : List Op) (s : Run),
      s.ctx.services = (a.Service n v).services →
      runBody (Context.Next k) (pre ++ Op.service n :: post) s =
        runBody (Context.Next k) (pre ++ post) s) ∧
    (∀ (k : Nat) (s : Run), (Context.Next k s).All (fun t => t.ctx.services = s.ctx.services)) ∧
    (∀ (k : Nat) (hs : List Handler) (s : Run),
      (runChain k hs s).All (fun t => t.ctx.services = s.ctx.services)) ∧
    (∀ sv : GoMap Str, (a.Service n v).ServeHTTP fuel { pooled with services := sv } w req =
      (a.Service n v).ServeHTTP fuel pooled w req) ∧
    (∃ s : Run, s.ctx.services = (a.Service n v).services ∧ s.ctx.Service n = some v ∧
      ((a.Service n v).ServeHTTP fuel pooled w req = Dispatch.returned (finish s) ∨
        (a.Service n v).ServeHTTP fuel pooled w req = Dispatch.panicked (finish s) ∨
        (a.Service n v).ServeHTTP fuel pooled w req = Dispatch.returned
          (finish { s with ctx := { s.ctx with Response := s.ctx.Response.map httpNotFound } }))) ∧
    (∀ (c : Context) (k : Str), c.services k = none → c.Service k = none) ∧
    (∀ (next : Run → Outcome) (s : Run) (k : Str), s.ctx.services k = none →
      runOp next (Op.service k) s = Outcome.panic s) ∧
    (∀ (regs : List (Str × Str)) (k : Str), k ∉ regs.map Prod.fst →
      (regs.foldl (fun b p => b.Service p.1 p.2) New).services k = none) := by
  have hv : (a.Service n v).services n = some v := GoMap.set_same _ _ _
  refine ⟨?_, ?_, ?_,
    fun k pre post s hs => runBody_service_insert k n v post pre s (by rw [hs]; exact hv),
    Context.Next_services, runChain_services, fun _ => rfl, ?_, fun _ _ h => h, ?_, ?_⟩
  · intro c hc
    simp only [Context.Service, hc, hv]
  · intro next s hs
    simp only [runOp, Context.Service, hs, hv]
  · intro next op s hne
    exact services_ops s.ctx.services next op s trivial hne rfl
  · obtain ⟨s, hs, hor⟩ := App.ServeHTTP_ends (services_ops (a.Service n v).services)
      (fun _ _ _ _ _ _ => trivial) (fun _ h => h) (fun _ _ h => h) (fun _ _ h _ => h)
      fuel (a.Service n v) pooled w req rfl rfl (fun _ _ h => h) (fun _ _ _ _ _ _ _ => trivial)
      hfuel hpool
    refine ⟨s, hs, by simp only [Context.Service, hs, hv], ?_⟩
    rcases hor with h | h | h
    · exact Or.inl h
    · exact Or.inr (Or.inl h)
    · exact Or.inr (Or.inr h.2)
  · intro next s k hk
    simp only [runOp, Context.Service, hk]
  · intro regs k hk
    have : ∀ (b : App), b.services k = none →
        (regs.foldl (fun b p => b.Service p.1 p.2) b).services k = none := by
      induction regs with
      | nil => exact fun b hb => hb
      | cons p rest ih =>
        intro b hb
        simp only [List.map_cons, List.mem_cons, not_or] at hk
        simp only [List.foldl_cons]
        apply ih hk.2
        simp only [App.Service, GoMap.set, hk.1, if_false]
        exact hb
    exact this New rfl

/-- C17 at `TestServices`: with the service `users` registered, the handler
that looks it up and answers with JSON returns and the sink reports 200; the
same app without the registration panics in the handler. -/
theorem service_lookup_witness :
    (∃ s : Run, s.ctx.Service "users".toList = some "User-".toList ∧
      (serviceApp.Service "users".toList "User-".toList).ServeHTTP 1 Context.poolNew []
        getTest = Dispatch.returned (finish s) ∧
      (finish s).response.map Sink.status = some 200) ∧
    (∃ d, serviceApp.ServeHTTP 1 Context.poolNew [] getTest = Dispatch.panicked d ∧
      d.response = some []) := by
  obtain ⟨h1, _⟩ := service_lookup serviceApp "users".toList
    "User-".toList 1 Context.poolNew [] getTest (by decide) (by decide)
  refine ⟨⟨_, ?_, rfl, ?_⟩, ⟨_, rfl, rfl⟩⟩
  · exact h1 _ rfl
  · rfl

/-! ## Registration through groups -/

theorem stringsJoin_snoc (xs : List Str) (x y sep : Str) :
    stringsJoin ((x :: xs) ++ [y]) sep = stringsJoin (x :: xs) sep ++ sep ++ y := by
  induction xs generalizing x with
  | nil => simp [stringsJoin]
  | cons z zs ih =>
    have := ih z
    simp only [List.cons_append] at this ⊢
    simp only [stringsJoin, this, List.append_assoc]

theorem nestedGroup_pfx (a : App) (p1 : Str) (ps : List Str) :
    (nestedGroup a p1 ps).pfx = stringsJoin ((p1 :: ps).map stringsTrimSlash) ['/'] := by
  induction ps using List.reverseRecOn with
  | nil => simp [nestedGroup, App.Group, stringsJoin]
  | append_singleton ps p ih =>
    have h1 : nestedGroup a p1 (ps ++ [p]) = (nestedGroup a p1 ps).Group p := by
      simp [nestedGroup, List.foldl_append]
    rw [h1]
    simp only [Group.Group, ih]
    have := stringsJoin_snoc (ps.map stringsTrimSlash) (stringsTrimSlash p1)
      (stringsTrimSlash p) ['/']
    simp only [List.map_cons, List.map_append, List.map_nil, List.cons_append] at this ⊢
    rw [this]

theorem nestedGroup_fullPath (a : App) (p1 : Str) (ps : List Str) (q : Str) :
    (nestedGroup a p1 ps).fullPath q = groupPath p1 ps q := by
  unfold Group.fullPath groupPath
  rw [nestedGroup_pfx]
  have := stringsJoin_snoc (ps.map stringsTrimSlash) (stringsTrimSlash p1)
    (stringsTrimSlash q) ['/']
  simp only [List.map_cons, List.map_append, List.map_nil, List.cons_append] at this ⊢
  rw [this]
  simp

theorem App.handle_registers (a : App) (method path : Str) (h : HandlerArg) (c : Handler)
    (hpath : path.head? = some '/') (hc : convertToRouteHandler h = some c) :
    ∃ a1, a.handle method path [h] = Except.ok a1 ∧
      a1.middleware = a.middleware ∧ a1.services = a.services ∧
      a1.router.lookup method path =
        some ⟨path, some (a.router.middleware ++ [c]), method, getPathParts path⟩ ∧
      (∀ m1 p1, ¬ (m1 = method ∧ p1 = path) →
        a1.router.lookup m1 p1 = a.router.lookup m1 p1) ∧
      a1.router.Find method path = some (some (a.router.middleware ++ [c]), none) := by
  have hnorm : normalizePath path = path := by
    unfold normalizePath
    cases path with
    | nil => simp at hpath
    | cons x xs => simp only [List.head?_cons] at hpath; simp [hpath]
  have hconv : convertAll [h] = some [c] := by simp [convertAll, hc]
  cases hadd : a.router.Add method path [h] with
  | error e => simp [Router.Add, hconv] at hadd
  | ok r1 =>
    obtain ⟨converted, hcv, _, _, hl⟩ := Router.Add_ok_inv hadd
    rw [hconv] at hcv
    injection hcv with hcv
    subst hcv
    rw [hnorm] at hl
    have hkey := hl method path
    simp only [and_self, if_true, List.length_append, List.length_singleton,
      gt_iff_lt, Nat.lt_add_left_iff_pos, Nat.zero_lt_one, Nat.add_pos_iff_pos_or_pos,
      or_true] at hkey
    refine ⟨{ a with router := r1 }, by simp [App.handle, hadd], rfl, rfl, hkey, ?_, ?_⟩
    · intro m1 p1 hne
      have := hl m1 p1
      simpa [hne] using this
    · exact Router.Find_of_lookup hkey

/-- C18: registering a handler through `app.Group(p1).Group(p2)...Group(pk)`
with one of the registration methods of `Group` registers, under the method of
that call, exactly the path `"/" + trim(p1) + "/" + ... + "/" + trim(pk) + "/" +
trim(q)`: the route table gets a route with that path and the chain of the
handler (after the router middleware), no other key changes, and `Find` for
that method and path returns the chain. -/
theorem group_registers (a : App) (p1 : Str) (ps : List Str) (q : Str) (h : HandlerArg)
    (c : Handler) (reg : Zinc.Group → App → Str → HandlerArg → Except App App) (method : Str)
    (hreg : (reg, method) ∈ groupMethods) (hc : convertToRouteHandler h = some c) :
    ∃ a1, reg (nestedGroup a p1 ps) a q h = Except.ok a1 ∧
      a1.middleware = a.middleware ∧ a1.services = a.services ∧
      a1.router.lookup method (groupPath p1 ps q) =
        some ⟨groupPath p1 ps q, some (a.router.middleware ++ [c]), method,
          getPathParts (groupPath p1 ps q)⟩ ∧
      (∀ m1 path, ¬ (m1 = method ∧ path = groupPath p1 ps q) →
        a1.router.lookup m1 path = a.router.lookup m1 path) ∧
      a1.router.Find method (groupPath p1 ps q) =
        some (some (a.router.middleware ++ [c]), none) := by
  have hreg1 : reg (nestedGroup a p1 ps) a q h = a.handle method (groupPath p1 ps q) [h] := by
    rw [← nestedGroup_fullPath a p1 ps q]
    simp only [groupMethods, List.mem_cons, Prod.mk.injEq, List.mem_singleton,
      List.not_mem_nil, or_false] at hreg
    rcases hreg with ⟨h1, h2⟩ | ⟨h1, h2⟩ | ⟨h1, h2⟩ | ⟨h1, h2⟩ | ⟨h1, h2⟩ | ⟨h1, h2⟩ | ⟨h1, h2⟩ <;>
      subst h1 <;> subst h2 <;> rfl
  rw [hreg1]
  exact App.handle_registers a method (groupPath p1 ps q) h c rfl hc

/-- C18 at the groups of the example app: `app.Group("/api").Group("/v1")
.Group("/your-api").Group("/users").Get("/", h)` registers `GET
/api/v1/your-api/users/`, and `Find` returns the chain of `h` for it. -/
theorem group_registers_witness :
    groupPath "/api".toList ["/v1".toList, "/your-api".toList, "/users".toList] "/".toList =
        "/api/v1/your-api/users/".toList ∧
    ∃ a1, (nestedGroup New "/api".toList
          ["/v1".toList, "/your-api".toList, "/users".toList]).Get New "/".toList
          (HandlerArg.func hD) = Except.ok a1 ∧
      a1.router.Find MethodGet "/api/v1/your-api/users/".toList = some (some [hD], none) := by
  obtain ⟨a1, h1, _, _, _, _, h2⟩ := group_registers New "/api".toList
    ["/v1".toList, "/your-api".toList, "/users".toList] "/".toList (HandlerArg.func hD) hD
    Group.Get MethodGet (List.Mem.head _) rfl
  exact ⟨by decide, a1, h1, h2⟩

/-! ## Parameter values are path segments -/

theorem BoundFrom.id_bound (parts : List Str) (ps : GoMap Str) : BoundFrom parts ps ps :=
  fun _ _ h => Or.inl h

theorem BoundFrom.comp {parts : List Str} {a b c : GoMap Str} (h1 : BoundFrom parts a b)
    (h2 : BoundFrom parts b c) : BoundFrom parts a c := by
  intro k v hv
  rcases h2 k v hv with h | h | h
  · exact h1 k v h
  · exact Or.inr (Or.inl h)
  · exact Or.inr (Or.inr h)

theorem BoundFrom.cons {parts : List Str} {a b : GoMap Str} (part : Str)
    (h : BoundFrom parts a b) : BoundFrom (part :: parts) a b := by
  intro k v hv
  rcases h k v hv with h | h | ⟨hk, pre, s, ss, hp, hj⟩
  · exact Or.inl h
  · exact Or.inr (Or.inl (List.mem_cons_of_mem _ h))
  · exact Or.inr (Or.inr ⟨hk, part :: pre, s, ss, by simp [hp], hj⟩)

theorem BoundFrom.set_param (part : Str) (parts : List Str) (ps : GoMap Str) (name : Str) :
    BoundFrom (part :: parts) ps (ps.set name part) := by
  intro k v hv
  unfold GoMap.set at hv
  split at hv
  · simp only [Option.some.injEq] at hv
    exact Or.inr (Or.inl (by simp [hv]))
  · exact Or.inl hv

theorem BoundFrom.set_wild (part : Str) (parts : List Str) (ps : GoMap Str) :
    BoundFrom (part :: parts) ps (ps.set ['*'] (stringsJoin (part :: parts) ['/'])) := by
  intro k v hv
  unfold GoMap.set at hv
  split at hv
  · rename_i hk
    simp only [Option.some.injEq] at hv
    exact Or.inr (Or.inr ⟨hk, [], part, parts, rfl, hv.symm⟩)
  · exact Or.inl hv

theorem findLoop_bound {descend : RouteNode → GoMap Str → Option RouteNode × GoMap Str}
    {part : Str} {parts : List Str}
    (hd : ∀ c ps, BoundFrom parts ps (descend c ps).2) :
    ∀ (cs : List RouteNode) (ps0 : GoMap Str),
      BoundFrom (part :: parts) ps0 (findLoop descend part parts cs ps0).2 := by
  intro cs
  induction cs with
  | nil =>
    intro ps0
    exact BoundFrom.id_bound _ _
  | cons c cs ih =>
    intro ps0
    simp only [findLoop]
    by_cases hw : c.isWild = true
    · simp only [hw, if_true]
      exact BoundFrom.set_wild part parts ps0
    · have hw' : c.isWild = false := by simpa using hw
      simp only [hw', Bool.false_eq_true, if_false]
      by_cases hp : c.isParam = true
      · simp only [hp, if_true]
        have h1 := (hd c (ps0.set c.part part)).cons part
        have h0 := BoundFrom.set_param part parts ps0 c.part
        cases hdd : descend c (ps0.set c.part part) with
        | mk o ps1 =>
          rw [hdd] at h1
          cases o with
          | some m => exact h0.comp h1
          | none => exact (h0.comp h1).comp (ih ps1)
      · have hp' : c.isParam = false := by simpa using hp
        simp only [hp', Bool.false_eq_true, if_false]
        by_cases he : c.part = part
        · simp only [he, if_true]
          have h1 := (hd c ps0).cons part
          cases hdd : descend c ps0 with
          | mk o ps1 =>
            rw [hdd] at h1
            cases o with
            | some m => exact h1
            | none => exact h1.comp (ih ps1)
        · simp only [he, if_false]
          exact ih ps0

theorem RouteNode.find_bound :
    ∀ (parts : List Str) (n : RouteNode) (ps0 : GoMap Str),
      BoundFrom parts ps0 (n.find parts ps0).2 := by
  intro parts
  induction parts with
  | nil =>
    intro n ps0
    exact BoundFrom.id_bound _ _
  | cons part parts ih =>
    intro n ps0
    simp only [RouteNode.find]
    exact findLoop_bound (fun c ps => ih c ps) n.children ps0

theorem Router.Find_params {r : Router} {m path : Str} {h : Option (List Handler)}
    {ps : GoMap Str} (hf : r.Find m path = some (h, some ps)) :
    ∃ root node, r.router = some root ∧
      root.find (getPathParts path) GoMap.empty = (some node, ps) := by
  cases hl : r.lookup m path with
  | some route =>
    rw [Router.Find_of_lookup hl] at hf
    simp at hf
  | none =>
    rw [Router.Find_of_lookup_none hl] at hf
    cases hrt : r.router with
    | none =>
      simp only [hrt] at hf
      by_cases hp : getPathParts path = []
      · simp [hp] at hf
      · simp [hp] at hf
    | some root =>
      simp only [hrt] at hf
      cases hfd : root.find (getPathParts path) GoMap.empty with
      | mk o ps1 =>
        simp only [hfd] at hf
        cases o with
        | none => simp at hf
        | some node =>
          simp only at hf
          split at hf
          · split at hf
            · simp only [Option.some.injEq, Prod.mk.injEq] at hf
              exact ⟨root, node, rfl, by rw [← hf.2]; exact hfd⟩
            · simp at hf
          · simp at hf

theorem stringsJoin_ne_nil {s : Str} (ss : List Str) (sep : Str) (hs : s ≠ []) :
    stringsJoin (s :: ss) sep ≠ [] := by
  cases ss with
  | nil => simpa [stringsJoin] using hs
  | cons b rest => simp [stringsJoin, hs]

theorem TripleMatches.length_le {τ : List (Str × Bool × Bool)} {parts : List Str}
    (h : TripleMatches τ parts) : τ.length ≤ parts.length := by
  induction h with
  | nil => simp
  | wild t s ss _ => simp
  | param t τ s ss _ _ _ ih => simpa using ih
  | lit t τ s ss _ _ _ _ ih => simpa using ih

/-- C20: in a parameter map returned by `Find`, every value is a segment of
the tokenized path, or (under the key `*` only) one or more consecutive
segments up to the end of the path joined by `/`; so every value is non-empty
and a value under a key other than `*` has no slash in it.  And a router whose
only route has the segments `L` followed by one more segment (a `:name` or
`*name` segment in particular) gives not-found for every path whose segments
are just `L`, with or without a trailing slash. -/
theorem param_values_are_segments :
    (∀ (r : Router) (m path : Str) (h : Option (List Handler)) (ps : GoMap Str),
      r.Find m path = some (h, some ps) → ∀ k v, ps k = some v →
        (v ∈ getPathParts path ∨
          (k = ['*'] ∧ ∃ pre s ss, getPathParts path = pre ++ s :: ss ∧
            v = stringsJoin (s :: ss) ['/'])) ∧
        v ≠ [] ∧ (k ≠ ['*'] → v ∈ getPathParts path ∧ '/' ∉ v)) ∧
    (∀ (mw : List Handler) (m0 P : Str) (hs : List HandlerArg) (r : Router) (L : List Str)
      (last : Str) (m path : Str),
      (Router.zero.Use mw).Add m0 P hs = Except.ok r →
      getPathParts (normalizePath P) = L ++ [last] →
      getPathParts path = L →
      r.Find m path = some (none, none)) := by
  constructor
  · intro r m path h ps hf k v hv
    obtain ⟨root, node, _, hfd⟩ := Router.Find_params hf
    have hb := RouteNode.find_bound (getPathParts path) root GoMap.empty
    rw [hfd] at hb
    have hseg : ∀ s ∈ getPathParts path, s ≠ [] ∧ '/' ∉ s := by
      intro s hs
      rw [getPathParts_segmentsOf, segmentsOf, List.mem_filter] at hs
      exact ⟨by simpa using hs.2, splitAtSlash_pieces path s hs.1⟩
    rcases hb k v hv with h0 | h1 | ⟨hk, pre, s, ss, hp, hj⟩
    · simp [GoMap.empty] at h0
    · exact ⟨Or.inl h1, (hseg v h1).1, fun _ => ⟨h1, (hseg v h1).2⟩⟩
    · refine ⟨Or.inr ⟨hk, pre, s, ss, hp, hj⟩, ?_, fun hne => (hne hk).elim⟩
      rw [hj]
      exact stringsJoin_ne_nil ss _ (hseg s (by rw [hp]; simp)).1
  · intro mw m0 P hs r L last m path hadd htok hpath
    obtain ⟨converted, _, _, hroot, hl⟩ := Router.Add_ok_inv hadd
    have hinv : r.TrieInv := by
      have hrun : Router.zero.run [RouterOp.use mw, RouterOp.add m0 P hs] = some r := by
        simp [Router.run, Router.step, hadd]
      exact Router.run_TrieInv hrun (by
        intro root hr
        simp [Router.zero] at hr)
    have hkey : ∀ m1 p1 route, r.lookup m1 p1 = some route → p1 = normalizePath P := by
      intro m1 p1 route h1
      rw [hl] at h1
      by_cases hk : m1 = m0 ∧ p1 = normalizePath P
      · exact hk.2
      · simp [hk, Router.lookup, Router.Use, Router.zero, GoMap.empty] at h1
    cases hlk : r.lookup m path with
    | some route =>
      have := hkey m path route hlk
      rw [this, htok] at hpath
      have := congrArg List.length hpath
      simp at this
    | none =>
      rw [Router.Find_of_lookup_none hlk, hroot]
      simp only
      cases hfd : RouteNode.find (getPathParts path) _ GoMap.empty with
      | mk o ps1 =>
        cases o with
        | none => rfl
        | some node =>
          simp only
          by_cases hh : node.handler = none
          · simp [hh]
          · simp only [ne_eq, hh, not_false_eq_true, if_true]
            cases hl2 : r.lookup m node.path with
            | none => rfl
            | some mr =>
              exfalso
              have hnp := hkey m node.path mr hl2
              obtain ⟨τ, hτ, hm⟩ := find_sound_triples _ [] _ _ _ node
                (hinv _ hroot) hfd
              have hτp := hτ.handler_path hh
              simp only [List.nil_append] at hτp
              have hlen := hm.length_le
              rw [← hτp, hnp, htok, hpath] at hlen
              simp at hlen

/-- C20 at concrete routers: `Find(GET, "/users/42")` on the route
`/users/:id` binds `id` to the segment `42`; `/users` and `/users/` are
not-found there, and so are `/files` and `/files/` on the route
`/files/*filepath`. -/
theorem param_values_are_segments_witness :
    (∃ ps, usersRouter.Find MethodGet "/users/42".toList = some (some [hA], some ps) ∧
      ps "id".toList = some "42".toList ∧
      "42".toList ∈ getPathParts "/users/42".toList ∧ '/' ∉ "42".toList) ∧
    usersRouter.Find MethodGet "/users".toList = some (none, none) ∧
    usersRouter.Find MethodGet "/users/".toList = some (none, none) ∧
    filesRouter.Find MethodGet "/files".toList = some (none, none) ∧
    filesRouter.Find MethodGet "/files/".toList = some (none, none) := by
  have h1 := param_values_are_segments.1 usersRouter MethodGet "/users/42".toList _ _ rfl
    "id".toList "42".toList rfl
  have h2 := param_values_are_segments.2 [] MethodGet "/users/:id".toList [HandlerArg.func hA]
    usersRouter ["users".toList] ":id".toList MethodGet
  have h3 := param_values_are_segments.2 [] MethodGet "/files/*filepath".toList
    [HandlerArg.func hD] filesRouter ["files".toList] "*filepath".toList MethodGet
  exact ⟨⟨_, rfl, rfl, h1.2.2 (by decide)⟩, h2 "/users".toList rfl (by decide) (by decide),
    h2 "/users/".toList rfl (by decide) (by decide),
    h3 "/files".toList rfl (by decide) (by decide),
    h3 "/files/".toList rfl (by decide) (by decide)⟩

/-! ## Lookups that miss, and `Next` at the end -/

/-- C27: `Find` is not complete.  With `GET /:x/c/d` registered before
`GET /a/:y`, the path `/a/c` matches the pattern `/a/:y`, whose route has a
handler, but the walk takes the parameter child `:x` first, ends on its
child `c` (which carries no handler) and `Find` reports not-found. -/
theorem find_misses_matching_route :
    PatternMatches (getPathParts (normalizePath "/a/:y".toList)) (getPathParts "/a/c".toList) ∧
    (shadowRouter.lookup MethodGet "/a/:y".toList).map (fun route => route.handler) =
      some (some [hD]) ∧
    shadowRouter.Find MethodGet "/a/c".toList = some (none, none) :=
  ⟨PatternMatches.lit _ _ _ (by decide) (PatternMatches.param _ _ _ _ (by decide)
    PatternMatches.nil), rfl, rfl⟩

/-- C28: the parameter map keeps the binding of a branch that failed.  With
`GET /:x/b` registered before `GET /a/:y`, `Find(GET, "/a/c")` resolves to the
route `/a/:y`, whose only parameter is `y`, and returns a map that binds `y`
to `c` and also `x` to `a`. -/
theorem find_keeps_stale_binding :
    paramNames (getPathParts (normalizePath "/a/:y".toList)) = ["y".toList] ∧
    ∃ ps, staleRouter.Find MethodGet "/a/c".toList = some (some [hD], some ps) ∧
      ps "y".toList = some "c".toList ∧ ps "x".toList = some "a".toList :=
  ⟨by decide, _, rfl, rfl, rfl⟩

/-- C29: on a router without any route the trie root is nil, and `Find` for a
path with at least one segment calls `find` on it, which dereferences the nil
receiver: `Find` panics, and so does `ServeHTTP` of an app without routes.
Only a path without segments gets the not-found result. -/
theorem find_faults_without_root :
    (∀ m path, getPathParts path ≠ [] → Router.zero.Find m path = none) ∧
    (∀ m path, getPathParts path = [] → Router.zero.Find m path = some (none, none)) ∧
    getPathParts "/users".toList ≠ [] ∧
    Router.zero.Find MethodGet "/users".toList = none ∧
    (∃ d, New.ServeHTTP 0 Context.poolNew [] getUsers = Dispatch.panicked d) := by
  refine ⟨?_, ?_, by decide, rfl, ⟨_, rfl⟩⟩
  · intro m path hp
    simp [Router.Find, Router.zero, GoMap.empty, hp]
  · intro m path hp
    simp [Router.Find, Router.zero, GoMap.empty, hp]

/-- C23: when the cursor has reached the end of the installed handlers
(`index >= len(handlers) - 1`, an empty list included), `Next` returns without
calling a handler and leaves the parameter map, the store, `written`, the
pending status, the sink and the handlers as they are; it does move the cursor
one further. -/
theorem next_at_end (fuel : Nat) (s : Run)
    (h : (s.ctx.handlers.length : Int) - 1 ≤ s.ctx.index) :
    ∃ t, Context.Next fuel s = Outcome.ok t ∧ t.invoked = s.invoked ∧
      t.ctx.PathParams = s.ctx.PathParams ∧ t.ctx.Store = s.ctx.Store ∧
      t.ctx.written = s.ctx.written ∧ t.ctx.status = s.ctx.status ∧
      t.ctx.Response = s.ctx.Response ∧ t.ctx.handlers = s.ctx.handlers ∧
      t.ctx.index = s.ctx.index + 1 := by
  have hex : s.Exhausted := by
    unfold Run.Exhausted
    omega
  exact ⟨_, Context.Next_exhausted fuel s hex, rfl, rfl, rfl, rfl, rfl, rfl, rfl, rfl⟩

/-- C23 at a Context whose cursor is at the last of two handlers, and at a
Context fresh from the pool (no handlers installed). -/
theorem next_at_end_witness :
    (∃ t, Context.Next 0 atEnd = Outcome.ok t ∧ t.invoked = atEnd.invoked ∧
      t.ctx.PathParams = atEnd.ctx.PathParams ∧ t.ctx.Store = atEnd.ctx.Store ∧
      t.ctx.written = atEnd.ctx.written ∧ t.ctx.status = atEnd.ctx.status ∧
      t.ctx.Response = atEnd.ctx.Response ∧ t.ctx.handlers = atEnd.ctx.handlers ∧
      t.ctx.index = atEnd.ctx.index + 1) ∧
    (∃ t, Context.Next 0 ⟨NewContext Context.poolNew [] getTest, []⟩ = Outcome.ok t ∧
      t.invoked = [] ∧ t.ctx.index = 0) := by
  refine ⟨next_at_end 0 atEnd (by decide), ?_⟩
  obtain ⟨t, ht, hi, _, _, _, _, _, _, hx⟩ :=
    next_at_end 0 ⟨NewContext Context.poolNew [] getTest, []⟩ (by decide)
  exact ⟨t, ht, hi, hx⟩

/-! ## Normalized paths -/

theorem normalizePath_head (p : Str) : (normalizePath p).head? = some '/' := by
  unfold normalizePath
  cases p with
  | nil => rfl
  | cons c cs =>
    by_cases hc : c = '/'
    · simp [hc]
    · simp [hc]

theorem normalizePath_of_slash {p : Str} (h : p.head? = some '/') : normalizePath p = p := by
  unfold normalizePath
  cases p with
  | nil => simp at h
  | cons c cs => simp at h; simp [h]

/-- Every key of the route table of a router built by registration calls is a
normalized path, and the route stored under it records that key and method. -/
theorem Router.run_keys {ops : List RouterOp} {r r1 : Router} (h : r.run ops = some r1)
    (hr : ∀ m k route, r.lookup m k = some route →
      ∃ p, k = normalizePath p ∧ route.path = k ∧ route.method = m) :
    ∀ m k route, r1.lookup m k = some route →
      ∃ p, k = normalizePath p ∧ route.path = k ∧ route.method = m := by
  induction ops generalizing r with
  | nil =>
    simp only [Router.run, Option.some.injEq] at h
    subst h
    exact hr
  | cons op rest ih =>
    simp only [Router.run] at h
    cases hs : r.step op with
    | none => simp [hs] at h
    | some r2 =>
      simp only [hs] at h
      apply ih h
      cases op with
      | use mw =>
        simp only [Router.step, Option.some.injEq] at hs
        subst hs
        exact hr
      | add m' p' hs' =>
        simp only [Router.step] at hs
        cases hadd : r.Add m' p' hs' with
        | error e => simp [hadd] at hs
        | ok r3 =>
          simp only [hadd, Option.some.injEq] at hs
          subst hs
          obtain ⟨converted, _, _, _, hl⟩ := Router.Add_ok_inv hadd
          intro m k route hk
          rw [hl] at hk
          by_cases hkey : m = m' ∧ k = normalizePath p'
          · simp only [hkey, and_self, if_true, Option.some.injEq] at hk
            subst hk
            exact ⟨p', hkey.2, hkey.2.symm, hkey.1.symm⟩
          · simp only [hkey, if_false] at hk
            exact hr m k route hk

/-- C26 as stated fails: `normalizePath` keeps a trailing slash, so
`normalizePath("/users/")` is `/users/`, and `Add` stores the route under
that key. -/
theorem normalizePath_keeps_trailing_slash :
    normalizePath "/users/".toList = "/users/".toList ∧
    TrailingSlash (normalizePath "/users/".toList) ∧
    ((okRouter (Router.zero.Add MethodGet "/users/".toList [HandlerArg.func hD])).lookup
      MethodGet "/users/".toList).map (fun route => route.path) = some "/users/".toList :=
  ⟨by decide, by decide, rfl⟩

/-- C26 (amended): `normalizePath(p)` begins with a slash: it is `/` for the
empty string, `p` with a slash put in front when `p` does not begin with one,
and `p` itself otherwise (a trailing slash is kept); normalizing twice changes
nothing more.  Every key under which a router built by registration calls
holds a route is such a normalized path, and the route records it. -/
theorem normalizePath_form (p : Str) (ops : List RouterOp) (r : Router) (m k : Str)
    (route : Route) (hrun : Router.zero.run ops = some r) (hl : r.lookup m k = some route) :
    BeginsWithSlash (normalizePath p) ∧
    normalizePath [] = ['/'] ∧
    (BeginsWithSlash p → normalizePath p = p) ∧
    (p ≠ [] → ¬ BeginsWithSlash p → normalizePath p = '/' :: p) ∧
    normalizePath (normalizePath p) = normalizePath p ∧
    BeginsWithSlash k ∧ (∃ q, k = normalizePath q) ∧ route.path = k ∧ route.method = m := by
  have hk := Router.run_keys hrun (by
    intro m k route h
    simp [Router.lookup, Router.zero, GoMap.empty] at h) m k route hl
  obtain ⟨q, hq, hp, hm⟩ := hk
  refine ⟨normalizePath_head p, rfl, normalizePath_of_slash, ?_,
    normalizePath_of_slash (normalizePath_head p), ?_, ⟨q, hq⟩, hp, hm⟩
  · intro hne hns
    unfold BeginsWithSlash at hns
    simp [normalizePath, hne, hns]
  · rw [hq]
    exact normalizePath_head q

/-- C26 (amended) at the path `users/me` and the route table of
`usersRouter`. -/
theorem normalizePath_form_witness :
    BeginsWithSlash (normalizePath "users/me".toList) ∧
    normalizePath "users/me".toList = "/users/me".toList ∧
    BeginsWithSlash "/users/:id".toList := by
  obtain ⟨h1, _, _, h4, _, h6, _⟩ := normalizePath_form "users/me".toList
    [RouterOp.add MethodGet "/users/:id".toList [HandlerArg.func hA]] usersRouter MethodGet
    "/users/:id".toList ⟨"/users/:id".toList, some [hA], MethodGet,
      getPathParts "/users/:id".toList⟩ rfl rfl
  exact ⟨h1, h4 (by decide) (by decide), h6⟩

/-! ## How `Add` changes the children of a node -/

theorem replaceFirst_split (t : Str × Bool × Bool) (f : RouteNode → RouteNode) :
    ∀ cs : List RouteNode,
      (∃ pre c post, cs = pre ++ c :: post ∧ c.triple = t ∧ (∀ x ∈ pre, x.triple ≠ t) ∧
        cs.find? (fun child => decide (child.part = t.1 ∧ child.isParam = t.2.1 ∧
          child.isWild = t.2.2)) = some c ∧
        replaceFirst t.1 t.2.1 t.2.2 f cs = pre ++ f c :: post) ∨
      ((∀ x ∈ cs, x.triple ≠ t) ∧
        cs.find? (fun child => decide (child.part = t.1 ∧ child.isParam = t.2.1 ∧
          child.isWild = t.2.2)) = none) := by
  intro cs
  induction cs with
  | nil => exact Or.inr ⟨fun x hx => by simp at hx, rfl⟩
  | cons c cs ih =>
    by_cases hc : c.part = t.1 ∧ c.isParam = t.2.1 ∧ c.isWild = t.2.2
    · refine Or.inl ⟨[], c, cs, rfl, ?_, fun x hx => by simp at hx, ?_, ?_⟩
      · obtain ⟨h1, h2, h3⟩ := hc
        simp [RouteNode.triple, h1, h2, h3]
      · simp [List.find?, hc]
      · simp [replaceFirst, hc]
    · have hne : c.triple ≠ t := by
        intro h
        apply hc
        rw [← h]
        exact ⟨rfl, rfl, rfl⟩
      rcases ih with ⟨pre, c0, post, hcs, ht, hpre, hfind, hrep⟩ | ⟨hall, hfind⟩
      · refine Or.inl ⟨c :: pre, c0, post, by simp [hcs], ht, ?_, ?_, ?_⟩
        · intro x hx
          rcases List.mem_cons.1 hx with hx | hx
          · subst hx; exact hne
          · exact hpre x hx
        · simp only [List.find?, hc, decide_False]
          exact hfind
        · simp only [replaceFirst, hc, if_false, hrep, List.cons_append]
      · refine Or.inr ⟨?_, ?_⟩
        · intro x hx
          rcases List.mem_cons.1 hx with hx | hx
          · subst hx; exact hne
          · exact hall x hx
        · simp only [List.find?, hc, decide_False]
          exact hfind

/-- One round of the loop of `Add` at a node: either the first child with the
triple of the segment is visited in place, or no child has that triple and a
new child is appended after the others. -/
theorem addLoop_children (path : Str) (h : Option (List Handler)) (p : Str) (rest : List Str)
    (n : RouteNode) :
    (∃ pre c post, n.children = pre ++ c :: post ∧ c.triple = classify p ∧
      (∀ x ∈ pre, x.triple ≠ classify p) ∧
      (addLoop path h (p :: rest) n).children = pre ++ visitChild path h rest c :: post) ∨
    ((∀ x ∈ n.children, x.triple ≠ classify p) ∧
      (addLoop path h (p :: rest) n).children =
        n.children ++ [visitChild path h rest (newChild p)]) := by
  rcases replaceFirst_split (classify p) (visitChild path h rest) n.children with
    ⟨pre, c, post, hcs, ht, hpre, hfind, hrep⟩ | ⟨hall, hfind⟩
  · refine Or.inl ⟨pre, c, post, hcs, ht, hpre, ?_⟩
    simp only [addLoop, RouteNode.findChild, hfind, RouteNode.withChildren_children]
    exact hrep
  · refine Or.inr ⟨hall, ?_⟩
    simp only [addLoop, RouteNode.findChild, hfind, RouteNode.withChildren_children]
    rfl

theorem visitChild_triple (path : Str) (h : Option (List Handler)) (rest : List Str)
    (c : RouteNode) : (visitChild path h rest c).triple = c.triple := by
  unfold visitChild
  rw [addLoop_triple_eq]
  split <;> rfl

theorem visitChild_nil (path : Str) (h : Option (List Handler)) (c : RouteNode) :
    visitChild path h [] c = c.setTerminal h path := by
  simp [visitChild, addLoop]

theorem visitChild_cons (path : Str) (h : Option (List Handler)) (p : Str) (rest : List Str)
    (c : RouteNode) : visitChild path h (p :: rest) c = addLoop path h (p :: rest) c := by
  simp [visitChild]

theorem newChild_triple (p : Str) : (newChild p).triple = classify p := rfl

/-! ## Sibling nodes stay distinct -/

theorem SiblingsDistinct.of_children {n n1 : RouteNode} (h : SiblingsDistinct n)
    (hc : n1.children = n.children) : SiblingsDistinct n1 := by
  cases h with
  | mk _ h1 h2 => exact SiblingsDistinct.mk _ (by rw [hc]; exact h1) (by rw [hc]; exact h2)

theorem siblingsDistinct_newChild (p : Str) : SiblingsDistinct (newChild p) :=
  SiblingsDistinct.mk _ (by simp [newChild, RouteNode.children])
    (fun c hc => by simp [newChild, RouteNode.children] at hc)

theorem visitChild_distinct (path : Str) (h : Option (List Handler)) :
    ∀ (rest : List Str) (c : RouteNode), SiblingsDistinct c →
      SiblingsDistinct (visitChild path h rest c) := by
  intro rest
  induction rest with
  | nil =>
    intro c hc
    rw [visitChild_nil]
    exact hc.of_children rfl
  | cons p rest ih =>
    intro c hc
    rw [visitChild_cons]
    cases hc with
    | mk _ hnd hch =>
      rcases addLoop_children path h p rest c with
        ⟨pre, c0, post, hcs, ht, _, hnew⟩ | ⟨hall, hnew⟩
      · refine SiblingsDistinct.mk _ ?_ ?_
        · rw [hnew]
          rw [hcs] at hnd
          simpa [visitChild_triple] using hnd
        · intro x hx
          rw [hnew] at hx
          simp only [List.mem_append, List.mem_cons] at hx
          rcases hx with hx | hx | hx
          · exact hch x (by rw [hcs]; simp [hx])
          · subst hx
            exact ih c0 (hch c0 (by rw [hcs]; simp))
          · exact hch x (by rw [hcs]; simp [hx])
      · refine SiblingsDistinct.mk _ ?_ ?_
        · rw [hnew, List.map_append, List.nodup_append]
          refine ⟨hnd, by simp, ?_⟩
          intro a ha hb
          simp only [List.map_cons, List.map_nil, List.mem_singleton] at hb
          rw [visitChild_triple, newChild_triple] at hb
          obtain ⟨x, hx, hxa⟩ := List.mem_map.1 ha
          exact hall x hx (hxa.trans hb)
        · intro x hx
          rw [hnew] at hx
          simp only [List.mem_append, List.mem_singleton] at hx
          rcases hx with hx | hx
          · exact hch x hx
          · subst hx
            exact ih _ (siblingsDistinct_newChild p)

theorem addLoop_distinct (path : Str) (h : Option (List Handler)) (parts : List Str)
    (n : RouteNode) (hn : SiblingsDistinct n) : SiblingsDistinct (addLoop path h parts n) := by
  cases parts with
  | nil => simpa [addLoop] using hn
  | cons p rest =>
    rw [← visitChild_cons]
    exact visitChild_distinct path h (p :: rest) n hn

/-- An invariant of the trie root that every `Add` keeps (for normalized paths
that satisfy `G`) holds of the root of every router built from the zero router
by registration calls. -/
theorem Router.run_root {Q : RouteNode → Prop} {G : Str → Prop}
    (hQ : ∀ path h n, G path → Q n → Q (addLoop path h (getPathParts path) n))
    (hz : Q RouteNode.zero) :
    ∀ (ops : List RouterOp) (r r1 : Router), r.run ops = some r1 →
      (∀ root, r.router = some root → Q root) →
      (∀ m p hs, RouterOp.add m p hs ∈ ops → G (normalizePath p)) →
      ∀ root, r1.router = some root → Q root := by
  intro ops
  induction ops with
  | nil =>
    intro r r1 h hr _
    simp only [Router.run, Option.some.injEq] at h
    subst h
    exact hr
  | cons op rest ih =>
    intro r r1 h hr hG
    simp only [Router.run] at h
    cases hs : r.step op with
    | none => simp [hs] at h
    | some r2 =>
      simp only [hs] at h
      refine ih r2 r1 h ?_ (fun m p hs' hm => hG m p hs' (List.mem_cons_of_mem _ hm))
      cases op with
      | use mw =>
        simp only [Router.step, Option.some.injEq] at hs
        subst hs
        exact hr
      | add m p hs' =>
        simp only [Router.step] at hs
        cases hadd : r.Add m p hs' with
        | error e => simp [hadd] at hs
        | ok r3 =>
          simp only [hadd, Option.some.injEq] at hs
          subst hs
          obtain ⟨_, _, _, hrt, _⟩ := Router.Add_ok_inv hadd
          intro root hroot
          rw [hrt] at hroot
          injection hroot with hroot
          subst hroot
          apply hQ _ _ _ (hG m p hs' (List.mem_cons_self _ _))
          cases hr0 : r.router with
          | none => exact hz
          | some root0 => exact hr root0 hr0

/-- C24: in the trie of every router built by registration calls no node has
two children with the same `(part, isParam, isWild)` triple.  And one round of
the loop of `Add` at a node either visits, in place, the first child that has
the triple of the segment (the children before and after it stay as they
are, in their order), or finds no child with that triple and appends a new
child with it after all the others. -/
theorem siblings_distinct (ops : List RouterOp) (r : Router) (root : RouteNode)
    (hrun : Router.zero.run ops = some r) (hroot : r.router = some root) :
    SiblingsDistinct root ∧
    ∀ (path : Str) (h : Option (List Handler)) (p : Str) (rest : List Str) (n : RouteNode),
      (∃ pre c post c1, n.children = pre ++ c :: post ∧ c.triple = classify p ∧
        (∀ x ∈ pre, x.triple ≠ classify p) ∧ c1.triple = classify p ∧
        (addLoop path h (p :: rest) n).children = pre ++ c1 :: post) ∨
      ((∀ x ∈ n.children, x.triple ≠ classify p) ∧
        ∃ c1, c1.triple = classify p ∧
          (addLoop path h (p :: rest) n).children = n.children ++ [c1]) := by
  constructor
  · exact Router.run_root (Q := SiblingsDistinct) (G := fun _ => True)
      (fun path h n _ hn => addLoop_distinct path h _ n hn)
      (SiblingsDistinct.mk _ (by simp [RouteNode.zero, RouteNode.children])
        (fun c hc => by simp [RouteNode.zero, RouteNode.children] at hc))
      ops Router.zero r hrun (fun root h => by simp [Router.zero] at h)
      (fun _ _ _ _ => trivial) root hroot
  · intro path h p rest n
    rcases addLoop_children path h p rest n with
      ⟨pre, c, post, hcs, ht, hpre, hnew⟩ | ⟨hall, hnew⟩
    · exact Or.inl ⟨pre, c, post, _, hcs, ht, hpre, (visitChild_triple ..).trans ht, hnew⟩
    · exact Or.inr ⟨hall, _, (visitChild_triple ..).trans (newChild_triple p), hnew⟩

/-- C24 at three registrations that meet at the node `users`: its children
are `:id` and `:name`, in that order, each once. -/
theorem siblings_distinct_witness :
    SiblingsDistinct (siblingRouter.router.getD RouteNode.zero) ∧
    ((siblingRouter.router.getD RouteNode.zero).childAt [0]).map
        (fun n => n.children.map RouteNode.triple) =
      some [("id".toList, true, false), ("name".toList, true, false)] :=
  ⟨(siblings_distinct siblingCalls siblingRouter (siblingRouter.router.getD RouteNode.zero)
    rfl rfl).1, by decide⟩

/-! ## Wildcard nodes -/

theorem WildLast.tail {p : Str} {rest : List Str} (h : WildLast (p :: rest)) : WildLast rest := by
  cases rest with
  | nil => trivial
  | cons u rest => exact h.2

theorem WildLast.head_not_wild {p : Str} {rest : List Str} (h : WildLast (p :: rest))
    (hne : rest ≠ []) : (classify p).2.2 = false := by
  cases rest with
  | nil => exact absurd rfl hne
  | cons u rest =>
    have h1 : p.head? ≠ some '*' := h.1
    cases hc : (classify p).2.2 with
    | false => rfl
    | true =>
      obtain ⟨name, hn⟩ := classify_isWild hc
      subst hn
      simp at h1

theorem WildLeaves.of_mem {n c : RouteNode} (h : WildLeaves n) (hc : c ∈ n.children) :
    WildLeaves c := by
  cases h with
  | mk _ _ h2 => exact h2 c hc

theorem wildLeaves_newChild (p : Str) : WildLeaves (newChild p) :=
  WildLeaves.mk _ (fun _ => rfl) (fun c hc => by simp [newChild, RouteNode.children] at hc)

theorem visitChild_wildLeaves (path : Str) (h : Option (List Handler)) :
    ∀ (rest : List Str) (c : RouteNode), WildLeaves c → WildLast rest →
      (rest ≠ [] → c.isWild = false) → WildLeaves (visitChild path h rest c) := by
  intro rest
  induction rest with
  | nil =>
    intro c hc _ _
    rw [visitChild_nil]
    cases hc with
    | mk _ h1 h2 => exact WildLeaves.mk _ h1 h2
  | cons p rest ih =>
    intro c hc hwl hcw
    rw [visitChild_cons]
    have hcw' : c.isWild = false := hcw (by simp)
    have hw : (addLoop path h (p :: rest) c).isWild = true →
        (addLoop path h (p :: rest) c).children = [] := by
      intro hh
      rw [(addLoop_triple path h (p :: rest) c).2.2, hcw'] at hh
      simp at hh
    have hvis : ∀ c0 : RouteNode, c0.triple = classify p → WildLeaves c0 →
        WildLeaves (visitChild path h rest c0) := by
      intro c0 ht hc0
      refine ih c0 hc0 hwl.tail ?_
      intro hne
      have := hwl.head_not_wild hne
      rw [← ht] at this
      exact this
    rcases addLoop_children path h p rest c with
      ⟨pre, c0, post, hcs, ht, _, hnew⟩ | ⟨_, hnew⟩
    · refine WildLeaves.mk _ hw ?_
      intro x hx
      rw [hnew] at hx
      simp only [List.mem_append, List.mem_cons] at hx
      rcases hx with hx | hx | hx
      · exact hc.of_mem (by rw [hcs]; simp [hx])
      · subst hx
        exact hvis c0 ht (hc.of_mem (by rw [hcs]; simp))
      · exact hc.of_mem (by rw [hcs]; simp [hx])
    · refine WildLeaves.mk _ hw ?_
      intro x hx
      rw [hnew] at hx
      simp only [List.mem_append, List.mem_singleton] at hx
      rcases hx with hx | hx
      · exact hc.of_mem hx
      · subst hx
        exact hvis _ (newChild_triple p) (wildLeaves_newChild p)

theorem addLoop_wildLeaves (path : Str) (h : Option (List Handler)) (parts : List Str)
    (n : RouteNode) (hn : WildLeaves n) (hw : n.isWild = false) (hwl : WildLast parts) :
    WildLeaves (addLoop path h parts n) := by
  cases parts with
  | nil => simpa [addLoop] using hn
  | cons p rest =>
    rw [← visitChild_cons]
    exact visitChild_wildLeaves path h (p :: rest) n hn hwl (fun _ => hw)

theorem WildLeaves.of_memAt {d : RouteNode} :
    ∀ (is : List Nat) (n : RouteNode), WildLeaves n → n.childAt is = some d → WildLeaves d := by
  intro is
  induction is with
  | nil =>
    intro n hn h
    simp only [RouteNode.childAt, Option.some.injEq] at h
    exact h ▸ hn
  | cons i is ih =>
    intro n hn h
    unfold RouteNode.childAt at h
    cases hg : n.children.get? i with
    | none =>
      rw [hg] at h
      simp at h
    | some c =>
      rw [hg] at h
      exact ih c (hn.of_mem (List.get?_mem hg)) h

/-- C25 as stated fails: `Add` does not stop at a wildcard segment, so the
pattern `/a/*x/b` gives the wildcard node under `a` the child `b`. -/
theorem wildcard_node_with_child :
    (midWildRouter.router.bind (RouteNode.childAt [0, 0])).map
        (fun n => (n.triple, n.children.map RouteNode.triple)) =
      some ((['*'], false, true), [("b".toList, false, false)]) ∧
    ¬ WildLeaves (midWildRouter.router.getD RouteNode.zero) := by
  have hfact : (midWildRouter.router.bind (RouteNode.childAt [0, 0])).map
        (fun n => (n.triple, n.children.map RouteNode.triple)) =
      some ((['*'], false, true), [("b".toList, false, false)]) := by decide
  refine ⟨hfact, ?_⟩
  intro h
  cases hr : midWildRouter.router with
  | none =>
    rw [hr] at hfact
    simp at hfact
  | some root =>
    rw [hr] at hfact h
    simp only [Option.bind, Option.getD] at hfact h
    cases hd : root.childAt [0, 0] with
    | none =>
      rw [hd] at hfact
      simp at hfact
    | some d =>
      rw [hd] at hfact
      simp only [Option.map_some', Option.some.injEq, Prod.mk.injEq] at hfact
      have hwd := WildLeaves.of_memAt [0, 0] root h hd
      cases hwd with
      | mk _ h2 _ =>
        have hw : d.isWild = true := by
          have := congrArg (fun t => t.2.2) hfact.1
          simpa [RouteNode.triple] using this
        rw [h2 hw] at hfact
        simp at hfact

/-- C25 (amended): in the trie of every router built by registration calls
whose patterns have a `*` segment in last position only, a wildcard node has no
children.  (`Add` accepts a pattern that goes on after a `*` segment, and then
gives the wildcard node children.) -/
theorem wildcard_nodes_are_leaves (ops : List RouterOp) (r : Router) (root : RouteNode)
    (hrun : Router.zero.run ops = some r) (hroot : r.router = some root)
    (hops : ∀ m p hs, RouterOp.add m p hs ∈ ops → WildLast (getPathParts (normalizePath p))) :
    WildLeaves root ∧ root.isWild = false := by
  have key := Router.run_root (Q := fun n => WildLeaves n ∧ n.isWild = false)
    (G := fun path => WildLast (getPathParts path))
    (fun path h n hG hn =>
      ⟨addLoop_wildLeaves path h _ n hn.1 hn.2 hG,
        (addLoop_triple path h _ n).2.2.trans hn.2⟩)
    ⟨WildLeaves.mk _ (fun _ => rfl)
      (fun c hc => by simp [RouteNode.zero, RouteNode.children] at hc), rfl⟩
    ops Router.zero r hrun (fun root h => by simp [Router.zero] at h) hops root hroot
  exact key

/-- C25 (amended) at the routes `POST /users/me` and `GET /users/*rest`: the
wildcard node under `users` has no children. -/
theorem wildcard_nodes_are_leaves_witness :
    WildLeaves (laterRouter.router.getD RouteNode.zero) ∧
    ((laterRouter.router.getD RouteNode.zero).childAt [0, 1]).map
        (fun n => (n.triple, n.children.map RouteNode.triple)) =
      some ((['*'], false, true), []) := by
  refine ⟨(wildcard_nodes_are_leaves laterCalls laterRouter
    (laterRouter.router.getD RouteNode.zero) rfl rfl ?_).1, by decide⟩
  intro m p hs hmem
  simp only [laterCalls, List.mem_cons, RouterOp.add.injEq, List.mem_singleton,
    List.not_mem_nil, or_false, reduceCtorEq, false_or] at hmem
  rcases hmem with ⟨_, hp, _⟩ | ⟨_, hp, _⟩ <;> subst hp
  · exact ⟨by decide, trivial⟩
  · exact ⟨by decide, trivial⟩

/-! ## The route registered first is found first -/

theorem FirstBranch.congr_children {h : Option (List Handler)} {path : Str} {p : Str}
    {rest : List Str} {n n1 : RouteNode} (hb : FirstBranch h path (p :: rest) n)
    (hc : n1.children = n.children) : FirstBranch h path (p :: rest) n1 := by
  obtain ⟨c, cs, h1, h2, h3⟩ := hb
  exact ⟨c, cs, hc.trans h1, h2, h3⟩

/-- A branch that `Add` has just built below a node without children is a
first branch. -/
theorem visitChild_firstBranch_fresh (path : Str) (h : Option (List Handler)) :
    ∀ (rest : List Str) (c : RouteNode), c.children = [] →
      FirstBranch h path rest (visitChild path h rest c) := by
  intro rest
  induction rest with
  | nil =>
    intro c _
    rw [visitChild_nil]
    exact ⟨rfl, rfl⟩
  | cons p rest ih =>
    intro c hc
    rw [visitChild_cons]
    rcases addLoop_children path h p rest c with
      ⟨pre, c0, post, hcs, _, _, _⟩ | ⟨_, hnew⟩
    · rw [hc] at hcs
      simp at hcs
    · rw [hc] at hnew
      exact ⟨_, [], hnew, (visitChild_triple ..).trans (newChild_triple p),
        ih (newChild p) rfl⟩

/-- A first branch stays a first branch when `Add` registers a pattern whose
classified segments differ from those of the branch. -/
theorem visitChild_firstBranch (h : Option (List Handler)) (path : Str)
    (path2 : Str) (h2 : Option (List Handler)) :
    ∀ (pat toks : List Str) (n : RouteNode), FirstBranch h path pat n →
      pat.map classify ≠ toks.map classify →
      FirstBranch h path pat (visitChild path2 h2 toks n) := by
  intro pat
  induction pat with
  | nil =>
    intro toks n hb hne
    cases toks with
    | nil => exact absurd rfl hne
    | cons t ts =>
      rw [visitChild_cons]
      obtain ⟨hh, hp⟩ := hb
      simp only [addLoop]
      split <;> exact ⟨hh, hp⟩
  | cons p rest ih =>
    intro toks n hb hne
    cases toks with
    | nil =>
      rw [visitChild_nil]
      exact hb.congr_children rfl
    | cons t ts =>
      rw [visitChild_cons]
      obtain ⟨c, cs, hch, hct, hrest⟩ := hb
      rcases addLoop_children path2 h2 t ts n with
        ⟨pre, c0, post, hcs, ht0, hpre, hnew⟩ | ⟨_, hnew⟩
      · cases pre with
        | nil =>
          -- the first child is the one visited
          rw [hch] at hcs
          simp only [List.nil_append, List.cons.injEq] at hcs
          obtain ⟨hc0, hpost⟩ := hcs
          subst hc0
          refine ⟨_, post, hnew, (visitChild_triple ..).trans hct, ?_⟩
          apply ih ts c hrest
          intro heq
          apply hne
          simp only [List.map_cons]
          rw [heq, ← hct, ht0]
        | cons x pre =>
          rw [hch] at hcs
          simp only [List.cons_append, List.cons.injEq] at hcs
          obtain ⟨hx, _⟩ := hcs
          subst hx
          exact ⟨c, _, hnew, hct, hrest⟩
      · rw [hch] at hnew
        exact ⟨c, _, hnew, hct, hrest⟩

/-- The walk along a first branch: a path that matches the pattern of the
branch ends at the node at the end of the branch, with the bindings of the
pattern. -/
theorem find_firstBranch (h : Option (List Handler)) (path : Str) :
    ∀ (pat parts : List Str) (n : RouteNode) (ps0 : GoMap Str),
      FirstBranch h path pat n → PatternMatches pat parts →
      ∃ d, n.find parts ps0 = (some d, captured pat parts ps0) ∧ d.handler = h ∧
        d.path = path := by
  intro pat
  induction pat with
  | nil =>
    intro parts n ps0 hb hm
    cases hm
    exact ⟨n, by simp [RouteNode.find, captured], hb.1, hb.2⟩
  | cons p rest ih =>
    intro parts n ps0 hb hm
    obtain ⟨c, cs, hch, hct, hrest⟩ := hb
    have ht1 : c.part = (classify p).1 := congrArg (fun t => t.1) hct
    have ht2 : c.isParam = (classify p).2.1 := congrArg (fun t => t.2.1) hct
    have ht3 : c.isWild = (classify p).2.2 := congrArg (fun t => t.2.2) hct
    cases hm with
    | wild name s ss =>
      rw [classify_wild] at ht3
      refine ⟨c, ?_, hrest.1, hrest.2⟩
      simp only at ht3
      simp [RouteNode.find, hch, findLoop, ht3, captured]
    | param name s ps ss hs hmr =>
      rw [classify_param] at ht1 ht2 ht3
      simp only at ht1 ht2 ht3
      obtain ⟨d, hd, hh, hp⟩ := ih ss c (ps0.set name s) hrest hmr
      refine ⟨d, ?_, hh, hp⟩
      simp only [RouteNode.find, hch, findLoop, ht3, ht2, ht1, Bool.false_eq_true, if_false,
        if_true, hd, captured]
    | lit _ _ ss hl hmr =>
      rw [classify_literal hl] at ht1 ht2 ht3
      simp only at ht1 ht2 ht3
      obtain ⟨d, hd, hh, hp⟩ := ih ss c ps0 hrest hmr
      refine ⟨d, ?_, hh, hp⟩
      have hcap := captured_literal hl rest ss ps0 p
      simp only [RouteNode.find, hch, findLoop, ht3, ht2, ht1, Bool.false_eq_true, if_false,
        if_true, hd, hcap]

/-- C21: a router with two routes under one method, `R1` registered before
`R2`, whose tokenized patterns share the segments `pre` and then part into
different children (`a` and `b` classify differently).  For every path that
matches the pattern of `R1` (whether or not it matches that of `R2` as well)
and is neither normalized path as a string, `Find` returns the chain of `R1`
with the bindings of its pattern, whatever kinds of segment `a` and `b` are. -/
theorem first_registered_wins (mw : List Handler) (m P1 P2 path : Str)
    (hs1 hs2 : List HandlerArg) (r1 r : Router) (pre : List Str) (a b : Str)
    (rest1 rest2 : List Str)
    (hadd1 : (Router.zero.Use mw).Add m P1 hs1 = Except.ok r1)
    (hadd2 : r1.Add m P2 hs2 = Except.ok r)
    (htok1 : getPathParts (normalizePath P1) = pre ++ a :: rest1)
    (htok2 : getPathParts (normalizePath P2) = pre ++ b :: rest2)
    (hdiv : classify a ≠ classify b)
    (hne1 : hs1 ≠ [])
    (hm1 : PatternMatches (getPathParts (normalizePath P1)) (getPathParts path))
    (hp1 : path ≠ normalizePath P1) (hp2 : path ≠ normalizePath P2) :
    ∃ c1, convertAll hs1 = some c1 ∧
      r.Find m path = some (some (mw ++ c1),
        some (captured (getPathParts (normalizePath P1)) (getPathParts path) GoMap.empty)) := by
  obtain ⟨c1, hc1, hmw1, hroot1, hl1⟩ := Router.Add_ok_inv hadd1
  obtain ⟨c2, hc2, _, hroot2, hl2⟩ := Router.Add_ok_inv hadd2
  refine ⟨c1, hc1, ?_⟩
  have hmw0 : (Router.zero.Use mw).middleware = mw := by simp [Router.Use, Router.zero]
  rw [hmw0] at hl1 hroot1
  have hc1ne : c1 ≠ [] := convertAll_ne_nil hne1 hc1
  have hlen : (mw ++ c1).length > 0 := by
    cases c1 with
    | nil => exact (hc1ne rfl).elim
    | cons x xs => simp
  simp only [hlen, if_true] at hl1 hroot1
  have hnp : normalizePath P1 ≠ normalizePath P2 := by
    intro heq
    rw [heq, htok2] at htok1
    have := List.append_cancel_left htok1
    simp only [List.cons.injEq] at this
    exact hdiv (by rw [this.1])
  have hclass : (getPathParts (normalizePath P1)).map classify ≠
      (getPathParts (normalizePath P2)).map classify := by
    rw [htok1, htok2]
    intro heq
    simp only [List.map_append, List.map_cons] at heq
    have := List.append_cancel_left heq
    simp only [List.cons.injEq] at this
    exact hdiv this.1
  -- the table
  have hmiss : r.lookup m path = none := by
    rw [hl2]
    have h2 : ¬ (m = m ∧ path = normalizePath P2) := fun hh => hp2 hh.2
    rw [if_neg h2, hl1]
    have h1 : ¬ (m = m ∧ path = normalizePath P1) := fun hh => hp1 hh.2
    rw [if_neg h1]
    simp [Router.lookup, Router.Use, Router.zero, GoMap.empty]
  have hkey : r.lookup m (normalizePath P1) =
      some ⟨normalizePath P1, some (mw ++ c1), m, getPathParts (normalizePath P1)⟩ := by
    rw [hl2]
    have h2 : ¬ (m = m ∧ normalizePath P1 = normalizePath P2) := fun hh => hnp hh.2
    rw [if_neg h2, hl1]
    simp
  -- the trie
  have hb1 : FirstBranch (some (mw ++ c1)) (normalizePath P1) (getPathParts (normalizePath P1))
      (r1.router.getD RouteNode.zero) := by
    rw [hroot1]
    simp only [Option.getD, Router.Use, Router.zero]
    have := visitChild_firstBranch_fresh (normalizePath P1) (some (mw ++ c1))
      (getPathParts (normalizePath P1)) RouteNode.zero rfl
    rw [htok1] at this ⊢
    cases pre with
    | nil => simpa [visitChild_cons] using this
    | cons x xs => simpa [visitChild_cons] using this
  have hb2 := visitChild_firstBranch (some (mw ++ c1)) (normalizePath P1) (normalizePath P2)
    (if (r1.middleware ++ c2).length > 0 then some (r1.middleware ++ c2) else none)
    (getPathParts (normalizePath P1)) (getPathParts (normalizePath P2))
    (r1.router.getD RouteNode.zero) hb1 hclass
  have hvis : visitChild (normalizePath P2)
      (if (r1.middleware ++ c2).length > 0 then some (r1.middleware ++ c2) else none)
      (getPathParts (normalizePath P2)) (r1.router.getD RouteNode.zero) =
      addLoop (normalizePath P2)
        (if (r1.middleware ++ c2).length > 0 then some (r1.middleware ++ c2) else none)
        (getPathParts (normalizePath P2)) (r1.router.getD RouteNode.zero) := by
    rw [htok2]
    cases pre with
    | nil => exact visitChild_cons ..
    | cons x xs => exact visitChild_cons ..
  rw [hvis] at hb2
  obtain ⟨d, hd, hh, hp⟩ := find_firstBranch _ _ _ _ _ GoMap.empty hb2 hm1
  rw [Router.Find_of_lookup_none hmiss, hroot2]
  simp only [hd, hh, hp, hkey, ne_eq, reduceCtorEq, not_false_eq_true, if_true]

/-- C21 at the routes `GET /users/:id/posts` (first) and `GET /users/me/:tab`:
the path `/users/me/posts` matches both, and `Find` returns the chain of the
parameter route registered first, with `id` bound to `me`. -/
theorem first_registered_wins_witness :
    PatternMatches (getPathParts (normalizePath "/users/me/:tab".toList))
      (getPathParts "/users/me/posts".toList) ∧
    ∃ ps, orderedRouter.Find MethodGet "/users/me/posts".toList = some (some [hA], some ps) ∧
      ps "id".toList = some "me".toList := by
  obtain ⟨c1, hc1, hf⟩ := first_registered_wins [] MethodGet "/users/:id/posts".toList
    "/users/me/:tab".toList "/users/me/posts".toList [HandlerArg.func hA] [HandlerArg.func hD]
    (okRouter (Router.zero.Add MethodGet "/users/:id/posts".toList [HandlerArg.func hA]))
    orderedRouter ["users".toList] ":id".toList "me".toList ["posts".toList] [":tab".toList]
    rfl rfl (by decide) (by decide) (by decide) (by decide)
    (PatternMatches.lit _ _ _ (by decide) (PatternMatches.param _ _ _ _ (by decide)
      (PatternMatches.lit _ _ _ (by decide) PatternMatches.nil)))
    (by decide) (by decide)
  have hc : c1 = [hA] := Option.some.inj (hc1.symm.trans rfl)
  subst hc
  exact ⟨PatternMatches.lit _ _ _ (by decide) (PatternMatches.lit _ _ _ (by decide)
      (PatternMatches.param _ _ _ _ (by decide) PatternMatches.nil)),
    _, hf, by decide⟩

/-! ## `Next` calls the installed handlers in order -/

theorem inOrder_ops : OpsPreserve Run.InOrder (fun _ => True) := by
  apply OpsPreserve.of_effect
  intro op s c1 _ heff hP
  obtain ⟨hf1, hf2, _, hf4⟩ := heff.frame
  obtain ⟨h1, h2, h3, h4⟩ := hP
  refine ⟨?_, h2, fun e he hw => hf4 (h3 e he hw), ?_⟩
  · simp only [hf1, hf2]
    exact h1
  · simp only [hf2]
    exact h4

theorem Context.nextBody_inOrder (next : Option (Run → Outcome))
    (hnext : ∀ f, next = some f → ∀ u : Run, u.InOrder →
      (f u).All (fun t => t.InOrder ∧ t.ctx.handlers = u.ctx.handlers ∧
        u.ctx.index ≤ t.ctx.index))
    (s : Run) (hs : s.InOrder) :
    (Context.nextBody next s).All (fun t => t.InOrder ∧ t.ctx.handlers = s.ctx.handlers ∧
      s.ctx.index + 1 ≤ t.ctx.index) := by
  obtain ⟨h1, h2, h3, h4⟩ := hs
  unfold Context.nextBody
  simp only
  by_cases hlt : s.ctx.index + 1 < (s.ctx.handlers.length : Int)
  · rw [if_pos hlt]
    have hnn : 0 ≤ s.ctx.index + 1 := by omega
    have hlt' : (s.ctx.index + 1).toNat < s.ctx.handlers.length := by omega
    have hget : s.ctx.handlers.get? (s.ctx.index + 1).toNat =
        some (s.ctx.handlers.get ⟨(s.ctx.index + 1).toNat, hlt'⟩) := List.get?_eq_get hlt'
    rw [hget]
    have hdec : decide (0 ≤ s.ctx.index + 1) = true := by simpa using hnn
    rw [hdec]
    simp only
    cases next with
    | none => trivial
    | some f =>
      simp only [callHandler]
      have hstart : Run.InOrder
          { ctx := { s.ctx with index := s.ctx.index + 1 },
            invoked := s.invoked ++
              [⟨s.ctx.handlers.get ⟨(s.ctx.index + 1).toNat, hlt'⟩, s.ctx.written, true⟩] } := by
        refine ⟨?_, ?_, ?_, by simp only; omega⟩
        · simp only [List.map_append, List.map_cons, List.map_nil, h1]
          have : (s.ctx.index + 1 + 1).toNat = (s.ctx.index + 1).toNat + 1 := by omega
          rw [this, List.take_succ]
          simp [List.getElem?_eq_getElem hlt']
        · intro e he
          simp only [List.mem_append, List.mem_singleton] at he
          rcases he with he | he
          · exact h2 e he
          · subst he; rfl
        · intro e he hw
          simp only [List.mem_append, List.mem_singleton] at he
          rcases he with he | he
          · exact h3 e he hw
          · subst he; exact hw
      have key := @runBody_all
        (fun t => t.InOrder ∧ t.ctx.handlers = s.ctx.handlers ∧
          s.ctx.index + 1 ≤ t.ctx.index)
        (fun _ => True) f
        (by
          intro nx op u hA hne hP
          have e1 := inOrder_ops nx op u hA hne hP.1
          obtain ⟨c1, heff, hor⟩ := runOp_effect nx op u hne
          obtain ⟨hf1, hf2, _, _⟩ := heff.frame
          rcases hor with hr | hr
          · rw [hr] at e1 ⊢
            exact ⟨e1, by simp only [hf1]; exact hP.2.1, by simp only [hf2]; exact hP.2.2⟩
          · rw [hr] at e1 ⊢
            exact ⟨e1, by simp only [hf1]; exact hP.2.1, by simp only [hf2]; exact hP.2.2⟩)
        (by
          intro u hu
          refine Outcome.all_mono (hnext f rfl u hu.1) ?_
          intro t ht
          exact ⟨ht.1, ht.2.1.trans hu.2.1, le_trans hu.2.2 ht.2.2⟩)
        (s.ctx.handlers.get ⟨(s.ctx.index + 1).toNat, hlt'⟩).body _ (fun _ _ => trivial)
        ⟨hstart, rfl, le_refl _⟩
      exact key
  · rw [if_neg hlt]
    refine ⟨⟨?_, h2, h3, by simp only; omega⟩, rfl, le_refl _⟩
    simp only
    rw [h1]
    rw [List.take_of_length_le (by omega), List.take_of_length_le (by omega)]

theorem Context.Next_inOrder :
    ∀ (fuel : Nat) (s : Run), s.InOrder →
      (Context.Next fuel s).All (fun t => t.InOrder ∧ t.ctx.handlers = s.ctx.handlers ∧
        s.ctx.index + 1 ≤ t.ctx.index) := by
  intro fuel
  induction fuel with
  | zero =>
    intro s hs
    exact Context.nextBody_inOrder none (fun f hf => by simp at hf) s hs
  | succ fuel ih =>
    intro s hs
    refine Context.nextBody_inOrder (some (Context.Next fuel)) ?_ s hs
    intro f hf u hu
    simp only [Option.some.injEq] at hf
    subst hf
    refine Outcome.all_mono (ih u hu) ?_
    intro t ht
    exact ⟨ht.1, ht.2.1, by have := ht.2.2; omega⟩

/-! ## Handlers that call `Next` drive the cursor to the end -/

theorem exhausted_ops (H : List Handler) :
    OpsPreserve (fun t => t.Exhausted ∧ t.ctx.handlers = H) (fun _ => True) := by
  apply OpsPreserve.of_effect
  intro op u c1 _ heff hP
  obtain ⟨h1, h2, _, _⟩ := heff.frame
  refine ⟨?_, by simp only [h1]; exact hP.2⟩
  have := hP.1
  unfold Run.Exhausted at this ⊢
  simp only [h1, h2]
  exact this

/-- At the end of the installed handlers a body runs without moving away from
the end, whatever it does. -/
theorem runBody_exhausted (fuel : Nat) (body : List Op) (s : Run) (hex : s.Exhausted) :
    (runBody (Context.Next fuel) body s).All
      (fun t => t.Exhausted ∧ t.ctx.handlers = s.ctx.handlers) := by
  refine runBody_all (exhausted_ops s.ctx.handlers) ?_ body s (fun _ _ => trivial) ⟨hex, rfl⟩
  intro u hu
  rw [Context.Next_exhausted fuel u hu.1]
  refine ⟨?_, hu.2⟩
  have := hu.1
  unfold Run.Exhausted at this ⊢
  simp only
  omega

/-- A body that calls `Next` and returns has had that call return, and is at
the end of the installed handlers afterwards, provided `Next` leads there. -/
theorem runBody_reaches_end (fuel : Nat) (H : List Handler)
    (hN : ∀ u t : Run, u.ctx.handlers = H → Context.Next fuel u = Outcome.ok t →
      t.Exhausted ∧ t.ctx.handlers = H) :
    ∀ (body : List Op) (s t : Run), Op.next ∈ body → s.ctx.handlers = H →
      runBody (Context.Next fuel) body s = Outcome.ok t → t.Exhausted ∧ t.ctx.handlers = H := by
  intro body
  induction body with
  | nil =>
    intro s t hmem
    simp at hmem
  | cons op rest ih =>
    intro s t hmem hH hrun
    simp only [runBody] at hrun
    by_cases hop : op = Op.next
    · subst hop
      simp only [runOp] at hrun
      cases hn : Context.Next fuel s with
      | ok u =>
        rw [hn] at hrun
        simp only at hrun
        obtain ⟨hex, hHu⟩ := hN s u hH hn
        have := runBody_exhausted fuel rest u hex
        rw [hrun] at this
        exact ⟨this.1, this.2.trans hHu⟩
      | panic u => rw [hn] at hrun; simp at hrun
      | outOfFuel => rw [hn] at hrun; simp at hrun
    · have hmem' : Op.next ∈ rest := by
        rcases List.mem_cons.1 hmem with h | h
        · exact absurd h.symm hop
        · exact h
      obtain ⟨c1, heff, hor⟩ := runOp_effect (Context.Next fuel) op s hop
      obtain ⟨hf1, _, _, _⟩ := heff.frame
      rcases hor with hr | hr
      · rw [hr] at hrun
        exact ih _ t hmem' (by simp only [hf1]; exact hH) hrun
      · rw [hr] at hrun
        simp at hrun

/-- When every installed handler calls `Next`, a call of `Next` that returns
leaves the cursor at the end of the installed handlers. -/
theorem Context.Next_reaches_end (H : List Handler) (hH : ∀ h ∈ H, Op.next ∈ h.body) :
    ∀ (fuel : Nat) (s t : Run), s.ctx.handlers = H → Context.Next fuel s = Outcome.ok t →
      t.Exhausted ∧ t.ctx.handlers = H := by
  have body : ∀ (next : Option (Run → Outcome)),
      (∀ f, next = some f → ∀ u t : Run, u.ctx.handlers = H → f u = Outcome.ok t →
        t.Exhausted ∧ t.ctx.handlers = H) →
      (∀ f, next = some f → ∃ k, f = Context.Next k) →
      ∀ s t : Run, s.ctx.handlers = H → Context.nextBody next s = Outcome.ok t →
        t.Exhausted ∧ t.ctx.handlers = H := by
    intro next hnext hform s t hs hrun
    unfold Context.nextBody at hrun
    simp only at hrun
    by_cases hlt : s.ctx.index + 1 < (s.ctx.handlers.length : Int)
    · rw [if_pos hlt] at hrun
      split at hrun
      · rename_i h hget _
        cases next with
        | none => simp at hrun
        | some f =>
          simp only [callHandler] at hrun
          obtain ⟨k, hk⟩ := hform f rfl
          subst hk
          have hmem : h ∈ H := hs ▸ List.get?_mem hget
          exact runBody_reaches_end k H (hnext _ rfl) h.body _ t (hH h hmem)
            (by simp only; exact hs) hrun
      · simp at hrun
    · rw [if_neg hlt] at hrun
      simp only [Outcome.ok.injEq] at hrun
      subst hrun
      refine ⟨?_, hs⟩
      unfold Run.Exhausted
      simp only
      omega
  intro fuel
  induction fuel with
  | zero =>
    intro s t hs hrun
    exact body none (fun f hf => by simp at hf) (fun f hf => by simp at hf) s t hs hrun
  | succ fuel ih =>
    intro s t hs hrun
    exact body (some (Context.Next fuel))
      (fun f hf => by
        simp only [Option.some.injEq] at hf
        subst hf
        exact ih)
      (fun f hf => ⟨fuel, by simp only [Option.some.injEq] at hf; exact hf.symm⟩) s t hs hrun

/-! ## The route chain runs on the Context as the middleware left it -/

/-- A handler called by the chain loop at the end of the installed handlers
ends without any further handler being called, still at the end. -/
theorem callHandler_at_end (fuel : Nat) (h : Handler) (s : Run) (hex : s.Exhausted) :
    (callHandler (Context.Next fuel) false h s).Ends
      (fun t => t.invoked = s.invoked ++ [⟨h, s.ctx.written, false⟩] ∧ t.Exhausted ∧
        t.ctx.handlers = s.ctx.handlers) := by
  have key := runBody_ends
    (P := fun t => t.invoked = s.invoked ++ [⟨h, s.ctx.written, false⟩] ∧
      (t.Exhausted ∧ t.ctx.handlers = s.ctx.handlers))
    (A := fun _ => True) (f := Context.Next fuel)
    (by
      intro nx op u hA hne hP
      have e1 := exhausted_ops s.ctx.handlers nx op u hA hne hP.2
      obtain ⟨c1, heff, hor⟩ := runOp_effect nx op u hne
      rcases hor with hr | hr
      · rw [hr] at e1 ⊢
        exact ⟨hP.1, e1⟩
      · rw [hr] at e1 ⊢
        exact ⟨hP.1, e1⟩)
    (by
      intro u hP
      rw [Context.Next_exhausted fuel u hP.2.1]
      refine ⟨hP.1, ?_, hP.2.2⟩
      have := hP.2.1
      unfold Run.Exhausted at this ⊢
      simp only
      omega)
    h.body { s with invoked := s.invoked ++ [⟨h, s.ctx.written, false⟩] }
    (fun _ _ => trivial) ⟨rfl, hex, rfl⟩
  unfold callHandler
  exact key

/-- A route chain started at the end of the installed handlers calls its own
handlers only, through the chain loop, in order. -/
theorem runChain_at_end (fuel : Nat) :
    ∀ (hs : List Handler) (s : Run), s.Exhausted →
      ∃ t j extra, j ≤ hs.length ∧
        (runChain fuel hs s = Outcome.ok t ∨ runChain fuel hs s = Outcome.panic t) ∧
        t.Exhausted ∧ t.ctx.handlers = s.ctx.handlers ∧
        t.invoked = s.invoked ++ extra ∧ extra.map (fun e => e.handler) = hs.take j ∧
        ∀ e ∈ extra, e.viaNext = false := by
  intro hs
  induction hs with
  | nil =>
    intro s hex
    exact ⟨s, 0, [], le_refl _, Or.inl rfl, hex, rfl, by simp, rfl, fun e he => by simp at he⟩
  | cons h rest ih =>
    intro s hex
    have hcall := callHandler_at_end fuel h s hex
    simp only [runChain, chain]
    cases hc : callHandler (Context.Next fuel) false h s with
    | ok s1 =>
      rw [hc] at hcall
      obtain ⟨hinv, hex1, hH1⟩ := hcall
      by_cases hw : s1.ctx.written = true
      · refine ⟨s1, 1, [⟨h, s.ctx.written, false⟩], by simp, Or.inl (by simp [hw]), hex1, hH1,
          hinv, by simp, ?_⟩
        intro e he
        simp only [List.mem_singleton] at he
        subst he
        rfl
      · obtain ⟨t, j, extra, hj, hrun, hext, hHt, hinvt, hmap, hvia⟩ := ih s1 hex1
        refine ⟨t, j + 1, ⟨h, s.ctx.written, false⟩ :: extra, by simp [hj], ?_, hext,
          hHt.trans hH1, by rw [hinvt, hinv]; simp, by simp [hmap], ?_⟩
        · simp only [hw, if_false]
          exact hrun
        · intro e he
          rcases List.mem_cons.1 he with he | he
          · subst he; rfl
          · exact hvia e he
    | panic s1 =>
      rw [hc] at hcall
      obtain ⟨hinv, hex1, hH1⟩ := hcall
      refine ⟨s1, 1, [⟨h, s.ctx.written, false⟩], by simp, Or.inr rfl, hex1, hH1, hinv,
        by simp, ?_⟩
      intro e he
      simp only [List.mem_singleton] at he
      subst he
      rfl
    | outOfFuel =>
      rw [hc] at hcall
      exact hcall.elim

/-- The state the middleware phase returns in when every process-wide
middleware calls `Next`: the process-wide middleware are still the installed
handlers, and the cursor is at their end. -/
theorem App.runMiddleware_reaches_end {fuel : Nat} {a : App} {pooled : Context} {w : Sink}
    {req : Request} {s : Run}
    (hmw : a.runMiddleware fuel ⟨{ NewContext pooled w req with services := a.services }, []⟩ =
      Outcome.ok s)
    (hnext : ∀ h ∈ a.middleware, Op.next ∈ h.body) (hpool : pooled.handlers = []) :
    s.Exhausted ∧ s.ctx.handlers = a.middleware := by
  unfold App.runMiddleware at hmw
  by_cases hpos : a.middleware.length > 0
  · simp only [hpos, if_true] at hmw
    exact Context.Next_reaches_end a.middleware hnext fuel _ s rfl hmw
  · simp only [hpos, if_false, Outcome.ok.injEq] at hmw
    subst hmw
    have hnil : a.middleware = [] := by
      cases hm : a.middleware with
      | nil => rfl
      | cons x xs => simp [hm] at hpos
    refine ⟨?_, by simp [NewContext, Context.reset, hpool, hnil]⟩
    unfold Run.Exhausted
    simp [NewContext, Context.reset, hpool]

theorem OpEffect.pathParams {op : Op} {c c1 : Context} (h : OpEffect op c c1) :
    c1.PathParams = c.PathParams := by
  cases op with
  | next => exact h.elim
  | status code => subst h; rfl
  | set key value => subst h; rfl
  | service name => subst h; rfl
  | send data =>
    rcases h with ⟨_, h⟩ | ⟨_, h⟩
    · subst h; rfl
    · exact h.2.2.2.2.1
  | json data =>
    rcases h with ⟨_, h⟩ | ⟨_, h⟩
    · subst h; rfl
    · exact h.2.2.2.2.1
  | html data => exact h.2.2.2.2.1
  | static filepath => exact h.2.2.2.2.1

theorem pathParams_ops (params : Option (GoMap Str)) :
    OpsPreserve (fun t => t.ctx.PathParams = params) (fun _ => True) :=
  OpsPreserve.of_effect (fun _ _ _ _ heff hP => heff.pathParams.trans hP)

/-- No handler changes the parameter map under which the route chain runs. -/
theorem runChain_pathParams (fuel : Nat) (hs : List Handler) (s : Run) :
    (runChain fuel hs s).All (fun t => t.ctx.PathParams = s.ctx.PathParams) := by
  unfold runChain
  refine chain_all (P := fun t => t.ctx.PathParams = s.ctx.PathParams) ?_ hs s rfl
  intro h u hu
  unfold callHandler
  refine runBody_all (pathParams_ops s.ctx.PathParams) ?_ h.body _ (fun _ _ => trivial) hu
  intro v hv
  exact Context.Next_all (pathParams_ops s.ctx.PathParams) (fun _ _ _ _ _ _ => trivial)
    (fun _ h => h) (fun _ _ h => h) fuel v hv

/-- C22 as stated fails: `ServeHTTP` does not install the route chain.  With
process-wide middleware `skip` (which does not call `Next`) and `hB`, the
route chain of `GET /test` starts with the middleware still installed and the
cursor at 0, and the `Next` call of the route handler `hC` calls the
process-wide middleware `hB`. -/
theorem next_from_route_calls_middleware :
    ((skipApp.runMiddleware 2
        ⟨{ NewContext Context.poolNew [] getTest with services := skipApp.services }, []⟩).state
      ⟨Context.poolNew, []⟩).ctx.handlers = [skip, hB] ∧
    ((skipApp.runMiddleware 2
        ⟨{ NewContext Context.poolNew [] getTest with services := skipApp.services }, []⟩).state
      ⟨Context.poolNew, []⟩).ctx.index = 0 ∧
    skipApp.router.Find MethodGet "/test".toList = some (some [hC, hD], none) ∧
    (skipApp.ServeHTTP 2 Context.poolNew [] getTest).served.map (fun d => d.invoked) =
      some [⟨skip, false, true⟩, ⟨hC, false, false⟩, ⟨hB, false, true⟩, ⟨hD, false, false⟩] := by
  refine ⟨by decide, by decide, rfl, by decide⟩

/-- C22 (amended): on a match `ServeHTTP` calls the chain of the route on the
Context as the middleware phase left it: the installed handlers are still the
process-wide middleware and the cursor is not reset.  When every process-wide
middleware has called `Next` (or none is installed) the cursor is at the end
of them, and then the route chain calls handlers of the route only, in order,
through the chain loop: a `Next` call of a route handler calls nothing. -/
theorem route_chain_on_middleware_context (fuel : Nat) (a : App) (pooled : Context) (w : Sink)
    (req : Request) (s : Run) (hs : List Handler) (params : Option (GoMap Str))
    (hmw : a.runMiddleware fuel ⟨{ NewContext pooled w req with services := a.services }, []⟩ =
      Outcome.ok s)
    (hw : s.ctx.written = false)
    (hfind : a.router.Find req.Method req.Path = some (some hs, params))
    (hnext : ∀ h ∈ a.middleware, Op.next ∈ h.body) (hpool : pooled.handlers = []) :
    s.ctx.handlers = a.middleware ∧ (a.middleware.length : Int) ≤ s.ctx.index + 1 ∧
    ∃ t j extra, j ≤ hs.length ∧
      (a.ServeHTTP fuel pooled w req = Dispatch.returned (finish t) ∨
        a.ServeHTTP fuel pooled w req = Dispatch.panicked (finish t)) ∧
      t.ctx.handlers = a.middleware ∧ t.ctx.PathParams = params ∧
      t.invoked = s.invoked ++ extra ∧ extra.map (fun e => e.handler) = hs.take j ∧
      ∀ e ∈ extra, e.viaNext = false := by
  obtain ⟨hex, hH⟩ := App.runMiddleware_reaches_end hmw hnext hpool
  refine ⟨hH, by unfold Run.Exhausted at hex; rw [hH] at hex; exact hex, ?_⟩
  have hex' : Run.Exhausted { s with ctx := { s.ctx with PathParams := params } } := hex
  obtain ⟨t, j, extra, hj, hrun, _, hHt, hinv, hmap, hvia⟩ :=
    runChain_at_end fuel hs { s with ctx := { s.ctx with PathParams := params } } hex'
  have hpp := runChain_pathParams fuel hs { s with ctx := { s.ctx with PathParams := params } }
  refine ⟨t, j, extra, hj, ?_, hHt.trans hH, ?_, hinv, hmap, hvia⟩
  · have hcond : ¬ (a.middleware.length > 0 ∧ s.ctx.written = true) := by simp [hw]
    unfold App.ServeHTTP
    simp only [hmw, hcond, if_false, hfind]
    cases hc : runChain fuel hs { s with ctx := { s.ctx with PathParams := params } } with
    | ok t1 =>
      rw [hc] at hrun
      simp only [Outcome.ok.injEq, reduceCtorEq, or_false] at hrun
      subst hrun
      exact Or.inl rfl
    | panic t1 =>
      rw [hc] at hrun
      simp only [Outcome.panic.injEq, reduceCtorEq, false_or] at hrun
      subst hrun
      exact Or.inr rfl
    | outOfFuel =>
      rw [hc] at hrun
      simp at hrun
  · rcases hrun with hrun | hrun <;> (rw [hrun] at hpp; exact hpp)

/-- C22 (amended) at `TestMiddlewareOrder`: both middleware call `Next`, the
route chain `hC`, `hD` starts with the cursor at the end of the middleware, and
the `Next` call of `hC` calls nothing. -/
theorem route_chain_on_middleware_context_witness :
    orderMid.ctx.handlers = [hA, hB] ∧ orderMid.ctx.index = 2 ∧
    ∃ t j extra, j ≤ 2 ∧
      (orderApp.ServeHTTP 2 Context.poolNew [] getTest = Dispatch.returned (finish t) ∨
        orderApp.ServeHTTP 2 Context.poolNew [] getTest = Dispatch.panicked (finish t)) ∧
      t.ctx.handlers = [hA, hB] ∧ t.ctx.PathParams = none ∧
      t.invoked = orderMid.invoked ++ extra ∧
      extra.map (fun e => e.handler) = [hC, hD].take j ∧
      ∀ e ∈ extra, e.viaNext = false := by
  obtain ⟨h1, _, h3⟩ := route_chain_on_middleware_context 2 orderApp Context.poolNew []
    getTest orderMid [hC, hD] none rfl (by decide) rfl (by decide) rfl
  exact ⟨h1, by decide, h3⟩

/-! ## The middleware called before the route chain -/

theorem record_ops (base : List Invocation) :
    OpsPreserve (fun t => ∃ more, t.invoked = base ++ more) (fun _ => True) :=
  OpsPreserve.of_effect (fun _ _ _ _ _ hP => hP)

/-- A non-empty route chain started with `written` false records the call of
its first handler right after the calls made so far, and ends when the budget
covers the installed handlers. -/
theorem runChain_first (fuel : Nat) (H : List Handler) (hb : H.length ≤ fuel) (h0 : Handler)
    (rest : List Handler) (s : Run) (hw : s.ctx.written = false) (hi : -1 ≤ s.ctx.index)
    (hH : s.ctx.handlers = H) :
    (runChain fuel (h0 :: rest) s).Ends
      (fun t => ∃ more, t.invoked = s.invoked ++ ⟨h0, false, false⟩ :: more) := by
  have hops := record_ops (s.invoked ++ [⟨h0, false, false⟩])
  have hidx : ∀ u : Run, (∃ more, u.invoked = (s.invoked ++ [⟨h0, false, false⟩]) ++ more) →
      ∃ more, ({ u with ctx := { u.ctx with index := u.ctx.index + 1 } } : Run).invoked =
        (s.invoked ++ [⟨h0, false, false⟩]) ++ more := fun _ h => h
  have hrec : ∀ (u : Run) (h : Handler),
      (∃ more, u.invoked = (s.invoked ++ [⟨h0, false, false⟩]) ++ more) →
      ∃ more, ({ u with invoked := u.invoked ++ [⟨h, u.ctx.written, true⟩] } : Run).invoked =
        (s.invoked ++ [⟨h0, false, false⟩]) ++ more := by
    rintro u h ⟨more, hm⟩
    exact ⟨more ++ [⟨h, u.ctx.written, true⟩], by simp [hm]⟩
  have hrecF : ∀ (u : Run) (h : Handler),
      (∃ more, u.invoked = (s.invoked ++ [⟨h0, false, false⟩]) ++ more) →
      u.ctx.written = false →
      ∃ more, ({ u with invoked := u.invoked ++ [⟨h, false, false⟩] } : Run).invoked =
        (s.invoked ++ [⟨h0, false, false⟩]) ++ more := by
    rintro u h ⟨more, hm⟩ _
    exact ⟨more ++ [⟨h, false, false⟩], by simp [hm]⟩
  have hbI : (H.length : Int) ≤ -1 + 1 + fuel := by
    simp only [Int.reduceNeg, neg_add_cancel, zero_add]
    exact_mod_cast hb
  have hbody := runBody_ends (OpsPreserve.and_frame hops (-1) H) (f := Context.Next fuel)
    (by
      intro u hu
      have hb' : (u.ctx.handlers.length : Int) ≤ u.ctx.index + 1 + fuel := by
        rw [hu.2.2]
        have := hu.2.1
        omega
      refine Outcome.ends_mono (Context.Next_ends hops (fun _ _ _ _ _ _ => trivial) hidx hrec
        fuel u hu.1 hb') ?_
      intro t ht
      exact ⟨ht.1, by have := hu.2.1; have := ht.2.1; omega, ht.2.2.trans hu.2.2⟩)
    h0.body { s with invoked := s.invoked ++ [⟨h0, s.ctx.written, false⟩] }
    (fun _ _ => trivial)
    ⟨⟨[], by simp [hw]⟩, hi, hH⟩
  have hfin : ∀ t : Run, (∃ more, t.invoked = (s.invoked ++ [⟨h0, false, false⟩]) ++ more) →
      ∃ more, t.invoked = s.invoked ++ ⟨h0, false, false⟩ :: more := by
    rintro t ⟨more, hm⟩
    exact ⟨more, by simp [hm]⟩
  simp only [runChain, chain, callHandler]
  cases hr : runBody (Context.Next fuel) h0.body
      { s with invoked := s.invoked ++ [⟨h0, s.ctx.written, false⟩] } with
  | ok s1 =>
    rw [hr] at hbody
    simp only
    by_cases hw1 : s1.ctx.written = true
    · simp only [hw1, if_true]
      exact hfin s1 hbody.1
    · simp only [hw1, if_false]
      refine Outcome.ends_mono (runChain_ends hops (fun _ _ _ _ _ _ => trivial) hidx hrec hrecF
        fuel (-1) H hbI rest s1 hbody.1 (by simpa using hw1) hbody.2.1 hbody.2.2
        (fun _ _ _ _ => trivial)) hfin
  | panic s1 =>
    rw [hr] at hbody
    exact hfin s1 hbody.1
  | outOfFuel =>
    rw [hr] at hbody
    exact hbody

theorem invoked_of_handlers {l : List Invocation} {L : List Handler}
    (hmap : l.map (fun e => e.handler) = L) (hvia : ∀ e ∈ l, e.viaNext = true)
    (hwr : ∀ e ∈ l, e.written = false) :
    l = L.map (fun h => ⟨h, false, true⟩) := by
  subst hmap
  rw [List.map_map]
  have : ∀ e ∈ l, ((fun h => (⟨h, false, true⟩ : Invocation)) ∘ fun e => e.handler) e = id e := by
    intro e he
    cases e with
    | mk h wr via =>
      have h1 := hvia _ he
      have h2 := hwr _ he
      simp only at h1 h2
      simp [h1, h2]
  rw [List.map_congr_left this, List.map_id]

/-- C30 as stated fails: a middleware that returns without calling `Next` and
without writing ends the middleware phase.  With process-wide middleware
`skip` and `hB`, the route handler `hD` of `GET /test` is called with `written`
false although `hB` was never called. -/
theorem middleware_skipped_before_route :
    skipOnlyApp.middleware = [skip, hB] ∧
    skipOnlyApp.router.Find MethodGet "/test".toList = some (some [hD], none) ∧
    skipMid.ctx.written = false ∧
    (skipOnlyApp.ServeHTTP 2 Context.poolNew [] getTest).served.map (fun d => d.invoked) =
      some [⟨skip, false, true⟩, ⟨hD, false, false⟩] := by
  refine ⟨rfl, rfl, by decide, by decide⟩

/-- C30 (amended): when the route chain of a matching request starts with
`written` false, the process-wide middleware called so far are `A1, ..., Aj`
for some `j` (at least one when there is any), each once, in registration
order, all by `Next` and before the first route handler, whose call is
recorded next.  All `k` of them have been called when every middleware calls
`Next`; a middleware that returns without calling `Next` ends the middleware
phase, and the later ones are not called before the route chain. -/
theorem middleware_before_route (fuel : Nat) (a : App) (pooled : Context) (w : Sink)
    (req : Request) (s : Run) (h0 : Handler) (rest : List Handler)
    (params : Option (GoMap Str))
    (hmw : a.runMiddleware fuel ⟨{ NewContext pooled w req with services := a.services }, []⟩ =
      Outcome.ok s)
    (hw : s.ctx.written = false)
    (hfind : a.router.Find req.Method req.Path = some (some (h0 :: rest), params))
    (hfuel : a.middleware.length ≤ fuel) (hpool : pooled.handlers = []) :
    ∃ j, j ≤ a.middleware.length ∧ (a.middleware ≠ [] → 0 < j) ∧
      s.invoked = (a.middleware.take j).map (fun h => ⟨h, false, true⟩) ∧
      ((∀ h ∈ a.middleware, Op.next ∈ h.body) → j = a.middleware.length) ∧
      ∃ d more, (a.ServeHTTP fuel pooled w req = Dispatch.returned d ∨
          a.ServeHTTP fuel pooled w req = Dispatch.panicked d) ∧
        d.invoked = s.invoked ++ ⟨h0, false, false⟩ :: more := by
  -- the state the middleware phase returns in
  have hst : s.InOrder ∧ s.ctx.handlers = a.middleware ∧
      (a.middleware ≠ [] → 0 ≤ s.ctx.index) := by
    unfold App.runMiddleware at hmw
    by_cases hpos : a.middleware.length > 0
    · simp only [hpos, if_true] at hmw
      have hstart : Run.InOrder
          ⟨({ NewContext pooled w req with services := a.services }).setHandlers a.middleware,
            []⟩ := by
        refine ⟨by simp [Context.setHandlers], fun e he => by simp at he,
          fun e he => by simp at he, by simp [Context.setHandlers]⟩
      have hall := Context.Next_inOrder fuel _ hstart
      rw [hmw] at hall
      refine ⟨hall.1, hall.2.1, fun _ => ?_⟩
      have := hall.2.2
      simp only [Context.setHandlers] at this
      omega
    · simp only [hpos, if_false, Outcome.ok.injEq] at hmw
      subst hmw
      have hnil : a.middleware = [] := by
        cases hm : a.middleware with
        | nil => rfl
        | cons x xs => simp [hm] at hpos
      refine ⟨⟨by simp [NewContext, Context.reset], fun e he => by simp at he,
        fun e he => by simp at he, by simp [NewContext, Context.reset]⟩,
        by simp [NewContext, Context.reset, hpool, hnil], fun hne => absurd hnil hne⟩
  obtain ⟨⟨hmap, hvia, hwr, hidx⟩, hH, hpos⟩ := hst
  have hwr' : ∀ e ∈ s.invoked, e.written = false := by
    intro e he
    cases hew : e.written with
    | false => rfl
    | true =>
      have := hwr e he hew
      rw [hw] at this
      simp at this
  rw [hH] at hmap
  refine ⟨min (s.ctx.index + 1).toNat a.middleware.length, Nat.min_le_right _ _, ?_, ?_, ?_, ?_⟩
  · intro hne
    have h1 := hpos hne
    have h2 : 0 < a.middleware.length := List.length_pos.mpr hne
    omega
  · apply invoked_of_handlers _ hvia hwr'
    rw [hmap]
    by_cases hle : (s.ctx.index + 1).toNat ≤ a.middleware.length
    · rw [Nat.min_eq_left hle]
    · rw [Nat.min_eq_right (by omega), List.take_of_length_le (by omega),
        List.take_of_length_le (le_refl _)]
  · intro hnext
    obtain ⟨hex, _⟩ := App.runMiddleware_reaches_end hmw hnext hpool
    unfold Run.Exhausted at hex
    rw [hH] at hex
    omega
  · have hchain := runChain_first fuel a.middleware hfuel h0 rest
      { s with ctx := { s.ctx with PathParams := params } } hw hidx hH
    have hcond : ¬ (a.middleware.length > 0 ∧ s.ctx.written = true) := by simp [hw]
    unfold App.ServeHTTP
    simp only [hmw, hcond, if_false, hfind]
    cases hc : runChain fuel (h0 :: rest) { s with ctx := { s.ctx with PathParams := params } } with
    | ok t =>
      rw [hc] at hchain
      obtain ⟨more, hm⟩ := hchain
      exact ⟨finish t, more, Or.inl rfl, hm⟩
    | panic t =>
      rw [hc] at hchain
      obtain ⟨more, hm⟩ := hchain
      exact ⟨finish t, more, Or.inr rfl, hm⟩
    | outOfFuel =>
      rw [hc] at hchain
      exact hchain.elim

/-- C30 (amended) at `TestMiddlewareOrder`: both middleware call `Next`, so
both are recorded, in order, before the first route handler `hC`. -/
theorem middleware_before_route_witness :
    orderMid.invoked = [⟨hA, false, true⟩, ⟨hB, false, true⟩] ∧
    ∃ d more, (orderApp.ServeHTTP 2 Context.poolNew [] getTest = Dispatch.returned d ∨
        orderApp.ServeHTTP 2 Context.poolNew [] getTest = Dispatch.panicked d) ∧
      d.invoked = orderMid.invoked ++ ⟨hC, false, false⟩ :: more := by
  obtain ⟨j, _, _, hinv, hall, hd⟩ := middleware_before_route 2 orderApp Context.poolNew []
    getTest orderMid hC [hD] none rfl (by decide) rfl (by decide) rfl
  have hj : j = 2 := hall (by decide)
  subst hj
  exact ⟨hinv, hd⟩

/-! ## Routes registered without handlers -/

theorem Router.Find_from_table {r : Router} {m path : Str} {hs : List Handler}
    {ps : Option (GoMap Str)} (hf : r.Find m path = some (some hs, ps)) :
    ∃ key route, r.lookup m key = some route ∧ route.handler = some hs := by
  cases hl : r.lookup m path with
  | some route =>
    rw [Router.Find_of_lookup hl] at hf
    simp only [Option.some.injEq, Prod.mk.injEq] at hf
    exact ⟨path, route, hl, hf.1⟩
  | none =>
    rw [Router.Find_of_lookup_none hl] at hf
    cases hrt : r.router with
    | none =>
      simp only [hrt] at hf
      by_cases hp : getPathParts path = []
      · simp [hp] at hf
      · simp [hp] at hf
    | some root =>
      simp only [hrt] at hf
      cases hfd : root.find (getPathParts path) GoMap.empty with
      | mk o ps1 =>
        simp only [hfd] at hf
        cases o with
        | none => simp at hf
        | some node =>
          simp only at hf
          split at hf
          · cases hn : r.lookup m node.path with
            | none => simp [hn] at hf
            | some mr =>
              simp only [hn, Option.some.injEq, Prod.mk.injEq] at hf
              exact ⟨node.path, mr, hn, hf.1⟩
          · simp at hf

theorem Router.Find_returns {r : Router} {root : RouteNode} (hrt : r.router = some root)
    (m path : Str) : ∃ h ps, r.Find m path = some (h, ps) := by
  cases hl : r.lookup m path with
  | some route => exact ⟨_, _, Router.Find_of_lookup hl⟩
  | none =>
    rw [Router.Find_of_lookup_none hl]
    simp only [hrt]
    cases hfd : root.find (getPathParts path) GoMap.empty with
    | mk o ps1 =>
      cases o with
      | none => exact ⟨_, _, rfl⟩
      | some node =>
        simp only
        split
        · split
          · exact ⟨_, _, rfl⟩
          · exact ⟨_, _, rfl⟩
        · exact ⟨_, _, rfl⟩

theorem Router.Add_nil (r : Router) (m p : Str) :
    ∃ r1, r.Add m p [] = Except.ok r1 := by
  unfold Router.Add
  simp [convertAll]

/-- C31 as stated fails: the result is not the one `Find` gives when the route
has not been registered.  With `GET /users/:id` registered with `hA`, the path
`/users/me` finds the chain `[hA]` and the binding `id = me`; after
`Add(GET, /users/me)` with no handler the table entry of `/users/me` answers
first, and `Find` returns the not-found result. -/
theorem empty_registration_hides_match :
    usersRouter.middleware = [] ∧
    (usersRouter.Find MethodGet "/users/me".toList).map (fun x => x.1) = some (some [hA]) ∧
    (usersRouter.Find MethodGet "/users/me".toList).map
        (fun x => x.2.map (fun ps => ps "id".toList)) = some (some (some "me".toList)) ∧
    usersRouter.Add MethodGet "/users/me".toList [] = Except.ok hiddenRouter ∧
    hiddenRouter.Find MethodGet "/users/me".toList = some (none, none) :=
  ⟨rfl, rfl, rfl, rfl, rfl⟩

/-- C31 (amended): on a router without router-level middleware, `Add` with an
empty handler list succeeds and stores a route without a chain under its key,
replacing whatever was stored there.  `Find` for the route's path then returns
the not-found result (no handler, no parameter map) from the table entry,
whatever it returned for that path before, and the dispatcher of an
application without process-wide middleware answers the request with 404 and
calls no handler.  Whatever chain `Find` still returns for the method comes
from a route stored under another key, one that was already there before: the
route previously registered under the key is not reachable any more, and a
method whose only registrations are such empty ones has no path that finds a
handler, as for a method without routes. -/
theorem add_without_handlers (r : Router) (m p : Str) (hmw : r.middleware = []) :
    ∃ r1, r.Add m p [] = Except.ok r1 ∧
      r1.lookup m (normalizePath p) =
        some ⟨normalizePath p, none, m, getPathParts (normalizePath p)⟩ ∧
      r1.Find m (normalizePath p) = some (none, none) ∧
      (∀ path hs ps, r1.Find m path = some (some hs, ps) →
        ∃ key route, key ≠ normalizePath p ∧ r.lookup m key = some route ∧
          r1.lookup m key = some route ∧ route.handler = some hs) ∧
      ((∀ key, r.lookup m key = none) → ∀ path, ∃ ps, r1.Find m path = some (none, ps)) ∧
      (∀ (fuel : Nat) (a : App) (pooled : Context) (w : Sink) (req : Request),
        a.router = r1 → a.middleware = [] → req.Method = m → req.Path = normalizePath p →
        ∃ d, a.ServeHTTP fuel pooled w req = Dispatch.returned d ∧
          d.response = some (httpNotFound w) ∧ d.invoked = []) := by
  obtain ⟨r1, hadd⟩ := Router.Add_nil r m p
  obtain ⟨converted, hc, _, hroot, hl⟩ := Router.Add_ok_inv hadd
  have hcv : converted = [] := by
    simp only [convertAll, Option.some.injEq] at hc
    exact hc.symm
  subst hcv
  have hkey : r1.lookup m (normalizePath p) =
      some ⟨normalizePath p, none, m, getPathParts (normalizePath p)⟩ := by
    rw [hl]
    simp [hmw]
  have hfind : r1.Find m (normalizePath p) = some (none, none) :=
    Router.Find_of_lookup hkey
  have hother : ∀ path hs ps, r1.Find m path = some (some hs, ps) →
      ∃ key route, key ≠ normalizePath p ∧ r.lookup m key = some route ∧
        r1.lookup m key = some route ∧ route.handler = some hs := by
    intro path hs ps hf
    obtain ⟨key, route, hk, hh⟩ := Router.Find_from_table hf
    have hne : key ≠ normalizePath p := by
      intro heq
      rw [heq, hkey] at hk
      simp only [Option.some.injEq] at hk
      rw [← hk] at hh
      simp at hh
    have hk0 := hk
    rw [hl] at hk0
    simp only [hne, and_false, if_false] at hk0
    exact ⟨key, route, hne, hk0, hk, hh⟩
  refine ⟨r1, hadd, hkey, hfind, hother, ?_, ?_⟩
  · intro hnone path
    obtain ⟨h, ps, hf⟩ := Router.Find_returns hroot m path
    cases h with
    | none => exact ⟨ps, hf⟩
    | some hs =>
      obtain ⟨key, route, _, hk, _, _⟩ := hother path hs ps hf
      rw [hnone key] at hk
      simp at hk
  · intro fuel a pooled w req hr hm0 hmeth hpath
    have hserve : a.ServeHTTP fuel pooled w req = Dispatch.returned
        (finish ⟨{ ({ NewContext pooled w req with services := a.services } : Context) with
          Response := some (httpNotFound w) }, []⟩) := by
      unfold App.ServeHTTP App.runMiddleware
      simp only [hm0, List.length_nil, gt_iff_lt, lt_self_iff_false, if_false, false_and, hr,
        hmeth, hpath, hfind]
      rfl
    exact ⟨_, hserve, rfl, rfl⟩

/-- C31 (amended) at `GET /users/:id`: registered with the chain `[hA]`, the route
answers `/users/42`; registered again with no handlers it is found neither
under its own path nor through the trie. -/
theorem add_without_handlers_witness :
    usersRouter.middleware = [] ∧
    (usersRouter.Find MethodGet "/users/42".toList).map (fun x => x.1) = some (some [hA]) ∧
    ∃ r1, usersRouter.Add MethodGet "/users/:id".toList [] = Except.ok r1 ∧
      r1.Find MethodGet "/users/:id".toList = some (none, none) ∧
      r1.Find MethodGet "/users/42".toList = some (none, none) := by
  obtain ⟨r1, hadd, _, hf, _, _, _⟩ :=
    add_without_handlers usersRouter MethodGet "/users/:id".toList rfl
  have h1 : r1 = emptyAgain := by
    have h2 : usersRouter.Add MethodGet "/users/:id".toList [] = Except.ok emptyAgain := rfl
    rw [h2] at hadd
    injection hadd with hadd
    exact hadd.symm
  subst h1
  exact ⟨rfl, rfl, emptyAgain, rfl, hf, rfl⟩

/-! ## The cursor of `Next` -/

theorem nextOrder_ops : OpsPreserve Run.NextOrder (fun _ => True) := by
  apply OpsPreserve.of_effect
  intro op s c1 _ heff hP
  obtain ⟨hf1, hf2, _, _⟩ := heff.frame
  obtain ⟨h1, h4⟩ := hP
  refine ⟨?_, ?_⟩
  · simp only [Run.nextCalls, hf1, hf2]
    exact h1
  · simp only [hf2]
    exact h4

theorem Context.nextBody_nextOrder (next : Option (Run → Outcome))
    (hnext : ∀ f, next = some f → ∀ u : Run, u.NextOrder →
      (f u).All (fun t => t.NextOrder ∧ u.ctx.index ≤ t.ctx.index ∧
        t.ctx.handlers = u.ctx.handlers))
    (s : Run) (hs : s.NextOrder) :
    (Context.nextBody next s).All (fun t => t.NextOrder ∧ s.ctx.index + 1 ≤ t.ctx.index ∧
      t.ctx.handlers = s.ctx.handlers) := by
  obtain ⟨h1, h4⟩ := hs
  unfold Run.nextCalls at h1
  unfold Context.nextBody
  simp only
  by_cases hlt : s.ctx.index + 1 < (s.ctx.handlers.length : Int)
  · rw [if_pos hlt]
    have hnn : 0 ≤ s.ctx.index + 1 := by omega
    have hlt' : (s.ctx.index + 1).toNat < s.ctx.handlers.length := by omega
    have hget : s.ctx.handlers.get? (s.ctx.index + 1).toNat =
        some (s.ctx.handlers.get ⟨(s.ctx.index + 1).toNat, hlt'⟩) := List.get?_eq_get hlt'
    rw [hget]
    have hdec : decide (0 ≤ s.ctx.index + 1) = true := by simpa using hnn
    rw [hdec]
    simp only
    cases next with
    | none => trivial
    | some f =>
      simp only [callHandler]
      have hstart : Run.NextOrder
          { ctx := { s.ctx with index := s.ctx.index + 1 },
            invoked := s.invoked ++
              [⟨s.ctx.handlers.get ⟨(s.ctx.index + 1).toNat, hlt'⟩, s.ctx.written, true⟩] } := by
        refine ⟨?_, by simp only; omega⟩
        simp only [Run.nextCalls, List.filter_append, List.map_append, h1]
        have : (s.ctx.index + 1 + 1).toNat = (s.ctx.index + 1).toNat + 1 := by omega
        rw [this, List.take_succ]
        simp [List.getElem?_eq_getElem hlt']
      exact runBody_all
        (OpsPreserve.and_frame nextOrder_ops (s.ctx.index + 1) s.ctx.handlers)
        (by
          intro u hu
          refine Outcome.all_mono (hnext f rfl u hu.1) ?_
          intro t ht
          exact ⟨ht.1, le_trans hu.2.1 ht.2.1, ht.2.2.trans hu.2.2⟩)
        (s.ctx.handlers.get ⟨(s.ctx.index + 1).toNat, hlt'⟩).body _ (fun _ _ => trivial)
        ⟨hstart, le_refl _, rfl⟩
  · rw [if_neg hlt]
    refine ⟨⟨?_, by simp only; omega⟩, le_refl _, rfl⟩
    simp only [Run.nextCalls]
    rw [h1]
    rw [List.take_of_length_le (by omega), List.take_of_length_le (by omega)]

theorem Context.Next_nextOrder :
    ∀ (fuel : Nat) (s : Run), s.NextOrder →
      (Context.Next fuel s).All (fun t => t.NextOrder ∧ s.ctx.index + 1 ≤ t.ctx.index ∧
        t.ctx.handlers = s.ctx.handlers) := by
  intro fuel
  induction fuel with
  | zero =>
    intro s hs
    exact Context.nextBody_nextOrder none (fun f hf => by simp at hf) s hs
  | succ fuel ih =>
    intro s hs
    refine Context.nextBody_nextOrder (some (Context.Next fuel)) ?_ s hs
    intro f hf u hu
    simp only [Option.some.injEq] at hf
    subst hf
    refine Outcome.all_mono (ih u hu) ?_
    intro t ht
    exact ⟨ht.1, by have := ht.2.1; omega, ht.2.2⟩

theorem runChain_nextOrder (fuel : Nat) (i : Int) (H : List Handler) :
    ∀ (hs : List Handler) (s : Run),
      (s.NextOrder ∧ i ≤ s.ctx.index ∧ s.ctx.handlers = H) →
      (runChain fuel hs s).All (fun t => t.NextOrder ∧ i ≤ t.ctx.index ∧ t.ctx.handlers = H) := by
  unfold runChain
  apply chain_all
  intro h s hP
  unfold callHandler
  refine runBody_all (OpsPreserve.and_frame nextOrder_ops i H) ?_ h.body _
    (fun _ _ => trivial) ?_
  · intro u hu
    refine Outcome.all_mono (Context.Next_nextOrder fuel u hu.1) ?_
    intro t ht
    exact ⟨ht.1, by have := ht.2.1; have := hu.2.1; omega, ht.2.2.trans hu.2.2⟩
  · refine ⟨⟨?_, hP.1.2⟩, hP.2.1, hP.2.2⟩
    have := hP.1.1
    simp only [Run.nextCalls, List.filter_append] at this ⊢
    simpa using this

theorem Run.NextOrder.calls_take {t : Run} {H : List Handler} (h : t.NextOrder)
    (hH : t.ctx.handlers = H) :
    ∃ j, j ≤ H.length ∧ t.nextCalls = H.take j ∧ t.nextCalls.length ≤ H.length := by
  have h1 := h.1
  rw [hH] at h1
  refine ⟨min (t.ctx.index + 1).toNat H.length, Nat.min_le_right _ _, ?_, ?_⟩
  · rw [h1]
    by_cases hle : (t.ctx.index + 1).toNat ≤ H.length
    · rw [Nat.min_eq_left hle]
    · rw [Nat.min_eq_right (by omega), List.take_of_length_le (by omega),
        List.take_of_length_le (le_refl _)]
  · rw [h1, List.length_take]
    exact Nat.min_le_right _ _

theorem App.ServeHTTP_nextOrder (fuel : Nat) (a : App) (pooled : Context) (w : Sink)
    (req : Request) (hpool : pooled.handlers = []) (d : Served)
    (hd : (a.ServeHTTP fuel pooled w req).served = some d) :
    ∃ t : Run, d.invoked = t.invoked ∧ t.NextOrder ∧ t.ctx.handlers = a.middleware := by
  have hmid : (a.runMiddleware fuel
      ⟨{ NewContext pooled w req with services := a.services }, []⟩).All
      (fun t => t.NextOrder ∧ -1 ≤ t.ctx.index ∧ t.ctx.handlers = a.middleware) := by
    unfold App.runMiddleware
    split
    · have hstart : Run.NextOrder
          ⟨({ NewContext pooled w req with services := a.services }).setHandlers a.middleware,
            []⟩ := by
        refine ⟨by simp [Run.nextCalls, Context.setHandlers], by simp [Context.setHandlers]⟩
      refine Outcome.all_mono (Context.Next_nextOrder fuel _ hstart) ?_
      intro t ht
      exact ⟨ht.1, ht.1.2, ht.2.2⟩
    · rename_i hpos
      have hnil : a.middleware = [] := by
        cases hm : a.middleware with
        | nil => rfl
        | cons x xs => simp [hm] at hpos
      refine ⟨⟨by simp [Run.nextCalls, NewContext, Context.reset], ?_⟩, ?_, ?_⟩
      · simp [NewContext, Context.reset]
      · simp [NewContext, Context.reset]
      · simp [NewContext, Context.reset, hpool, hnil]
  unfold App.ServeHTTP at hd
  simp only at hd
  cases hm : a.runMiddleware fuel
      ⟨{ NewContext pooled w req with services := a.services }, []⟩ with
  | outOfFuel =>
    rw [hm] at hd
    simp [Dispatch.served] at hd
  | panic s =>
    rw [hm] at hd hmid
    simp only [Dispatch.served, Option.some.injEq] at hd
    exact ⟨s, by rw [← hd]; rfl, hmid.1, hmid.2.2⟩
  | ok s =>
    rw [hm] at hd hmid
    simp only at hd
    split at hd
    · simp only [Dispatch.served, Option.some.injEq] at hd
      exact ⟨s, by rw [← hd]; rfl, hmid.1, hmid.2.2⟩
    · split at hd
      · simp only [Dispatch.served, Option.some.injEq] at hd
        exact ⟨s, by rw [← hd]; rfl, hmid.1, hmid.2.2⟩
      · rename_i handler params _
        have hc := runChain_nextOrder fuel (-1) a.middleware handler
          { s with ctx := { s.ctx with PathParams := params } }
          ⟨⟨hmid.1.1, hmid.1.2⟩, hmid.2.1, hmid.2.2⟩
        cases hr : runChain fuel handler { s with ctx := { s.ctx with PathParams := params } } with
        | ok s1 =>
          rw [hr] at hd hc
          simp only [Dispatch.served, Option.some.injEq] at hd
          exact ⟨s1, by rw [← hd]; rfl, hc.1, hc.2.2⟩
        | panic s1 =>
          rw [hr] at hd hc
          simp only [Dispatch.served, Option.some.injEq] at hd
          exact ⟨s1, by rw [← hd]; rfl, hc.1, hc.2.2⟩
        | outOfFuel =>
          rw [hr] at hd
          simp [Dispatch.served] at hd
      · simp only [Dispatch.served, Option.some.injEq] at hd
        exact ⟨{ s with ctx := { s.ctx with Response := s.ctx.Response.map httpNotFound } },
          by rw [← hd]; rfl, ⟨hmid.1.1, hmid.1.2⟩, hmid.2.2⟩

theorem Context.Next_index_le (fuel : Nat) (s : Run) :
    (Context.Next fuel s).All (fun t => s.ctx.index ≤ t.ctx.index) := by
  refine @Context.Next_all (fun t => s.ctx.index ≤ t.ctx.index) (fun _ => True) ?_
    (fun _ _ _ _ _ _ => trivial) ?_ (fun _ _ h => h) fuel s (le_refl _)
  · apply OpsPreserve.of_effect
    intro op u c1 _ heff hP
    simp only [heff.frame.2.1]
    exact hP
  · intro u hu
    simp only
    omega

theorem Outcome.Ends.and_all {P Q : Run → Prop} {o : Outcome} (h : o.Ends P) (hq : o.All Q) :
    o.Ends (fun t => P t ∧ Q t) := by
  cases o with
  | ok s => exact ⟨h, hq⟩
  | panic s => exact ⟨h, hq⟩
  | outOfFuel => exact h

/-- C32: after `setHandlers hs` a call of `Next` with a budget of at least
`len(hs)` nested calls ends, whatever the handlers do: they may call `Next` any
number of times, from any depth.  The calls made are `hs[0], ..., hs[j-1]` for
some `j ≤ len(hs)`: every call is made by `Next`, each handler is called at
most once, in the order of the list, so at most `len(hs)` calls are made.  The
cursor never decreases: no call of `Next` returns with a smaller cursor than
it started with, and no other Context call changes the cursor, the installed
handlers or the record.  The same holds for a whole dispatch of `ServeHTTP`,
the calls of `Next` made by the handlers of the route chain included. -/
theorem next_calls_in_order (fuel : Nat) (hs : List Handler) (hfuel : hs.length ≤ fuel) :
    (∀ c : Context, (Context.Next fuel ⟨c.setHandlers hs, []⟩).Ends (fun t =>
      ∃ j, j ≤ hs.length ∧ t.invoked.map (fun e => e.handler) = hs.take j ∧
        (∀ e ∈ t.invoked, e.viaNext = true) ∧ t.invoked.length ≤ hs.length ∧
        0 ≤ t.ctx.index ∧ t.ctx.handlers = hs)) ∧
    (∀ (k : Nat) (s : Run), (Context.Next k s).All (fun t => s.ctx.index ≤ t.ctx.index)) ∧
    (∀ (f : Run → Outcome) (op : Op) (s : Run), op ≠ Op.next →
      (runOp f op s).Ends (fun t => t.ctx.index = s.ctx.index ∧
        t.ctx.handlers = s.ctx.handlers ∧ t.invoked = s.invoked)) ∧
    (∀ (a : App) (pooled : Context) (w : Sink) (req : Request),
      a.middleware = hs → pooled.handlers = [] →
      ∃ d j, (a.ServeHTTP fuel pooled w req = Dispatch.returned d ∨
          a.ServeHTTP fuel pooled w req = Dispatch.panicked d) ∧
        j ≤ hs.length ∧
        (d.invoked.filter (fun e => e.viaNext)).map (fun e => e.handler) = hs.take j) := by
  refine ⟨?_, Context.Next_index_le, ?_, ?_⟩
  · intro c
    have hvia : OpsPreserve (fun t : Run => ∀ e ∈ t.invoked, e.viaNext = true)
        (fun _ => True) := by
      apply OpsPreserve.of_effect
      intro op u c1 _ _ hP
      exact hP
    have hends := Context.Next_ends hvia (fun _ _ _ _ _ _ => trivial) (fun _ h => h)
      (fun u h hu e he => by
        simp only [List.mem_append, List.mem_singleton] at he
        rcases he with he | he
        · exact hu e he
        · subst he; rfl)
      fuel ⟨c.setHandlers hs, []⟩ (fun e he => by simp at he)
      (by simp only [Context.setHandlers]; omega)
    have hstart : Run.NextOrder ⟨c.setHandlers hs, []⟩ :=
      ⟨by simp [Run.nextCalls, Context.setHandlers], by simp [Context.setHandlers]⟩
    refine Outcome.ends_mono (hends.and_all (Context.Next_nextOrder fuel _ hstart)) ?_
    intro t ht
    obtain ⟨⟨hv, hi, hH⟩, hord, _, _⟩ := ht
    simp only [Context.setHandlers] at hi hH
    obtain ⟨j, hj, htake, hlen⟩ := hord.calls_take hH
    have hfilter : t.invoked.filter (fun e => e.viaNext) = t.invoked :=
      List.filter_eq_self.mpr hv
    simp only [Run.nextCalls, hfilter] at htake hlen
    refine ⟨j, hj, htake, hv, ?_, by omega, hH⟩
    simpa using hlen
  · intro f op s hne
    obtain ⟨c1, heff, hor⟩ := runOp_effect f op s hne
    obtain ⟨hf1, hf2, _, _⟩ := heff.frame
    rcases hor with hr | hr <;> rw [hr] <;> exact ⟨hf2, hf1, rfl⟩
  · intro a pooled w req hmw hpool
    subst hmw
    obtain ⟨s, _, hor⟩ := @App.ServeHTTP_ends (fun _ => True) (fun _ => True)
      (OpsPreserve.of_effect (fun _ _ _ _ _ _ => trivial)) (fun _ _ _ _ _ _ => trivial)
      (fun _ _ => trivial) (fun _ _ _ => trivial) (fun _ _ _ _ => trivial)
      fuel a pooled w req trivial trivial (fun _ _ _ => trivial)
      (fun _ _ _ _ _ _ _ => trivial) hfuel (by simp [hpool])
    have key : ∀ d, (a.ServeHTTP fuel pooled w req).served = some d →
        ∃ j, j ≤ a.middleware.length ∧
          (d.invoked.filter (fun e => e.viaNext)).map (fun e => e.handler) =
            a.middleware.take j := by
      intro d hd
      obtain ⟨t, hinv, hord, hH⟩ := App.ServeHTTP_nextOrder fuel a pooled w req hpool d hd
      obtain ⟨j, hj, htake, _⟩ := hord.calls_take hH
      rw [hinv]
      exact ⟨j, hj, htake⟩
    rcases hor with h | h | ⟨_, h⟩
    · obtain ⟨j, hj, ht⟩ := key _ (by rw [h]; rfl)
      exact ⟨_, j, Or.inl h, hj, ht⟩
    · obtain ⟨j, hj, ht⟩ := key _ (by rw [h]; rfl)
      exact ⟨_, j, Or.inr h, hj, ht⟩
    · obtain ⟨j, hj, ht⟩ := key _ (by rw [h]; rfl)
      exact ⟨_, j, Or.inl h, hj, ht⟩

/-- C32 at three handlers of which the first calls `Next` twice: the three are
called once each, in order, and the cursor ends at 4; and at the dispatch of
`GET /test` by `skipApp`, where the route handler `hC` calls `Next`: the calls
made by `Next` are the two process-wide middleware, in order. -/
theorem next_calls_in_order_witness :
    [twice, hA, hB].length ≤ 3 ∧
    (Context.Next 3 ⟨Context.poolNew.setHandlers [twice, hA, hB], []⟩).Ends (fun t =>
      ∃ j, j ≤ [twice, hA, hB].length ∧
        t.invoked.map (fun e => e.handler) = [twice, hA, hB].take j ∧
        (∀ e ∈ t.invoked, e.viaNext = true) ∧ t.invoked.length ≤ [twice, hA, hB].length ∧
        0 ≤ t.ctx.index ∧ t.ctx.handlers = [twice, hA, hB]) ∧
    twiceRun.invoked = [⟨twice, false, true⟩, ⟨hA, false, true⟩, ⟨hB, false, true⟩] ∧
    twiceRun.ctx.index = 4 ∧
    (skipApp.ServeHTTP 2 Context.poolNew [] getTest).served.map
        (fun d => (d.invoked.filter (fun e => e.viaNext)).map (fun e => e.handler)) =
      some [skip, hB] :=
  ⟨by decide, (next_calls_in_order 3 [twice, hA, hB] (by decide)).1 Context.poolNew,
    by decide, by decide, by decide⟩

end Zinc
